import Mathlib

/-!
# Path-Finding-Visualiser: the grid search engine of `src/main.cpp`

A shallow embedding of the search core of `main.cpp` (class `Pathfinder`,
lines 119-375): the grid of cell tags, the five search routines `BFS`, `DFS`,
`dijkstra`, `greedy`, `aStar`, the helpers `updateVisual` and
`reconstructPath`, and the dispatcher `findPath`; and of the mouse handler
`handleMouseClick` of the grid editor (lines 377-429).

Conventions of the embedding.

* A position is the pair `(x, y)` of the source (`pair<int,int>`, `first = x`,
  `second = y`).  The source indexes its matrices as `m[y][x]`; here a matrix
  is a function of the position, so `m (x, y)` stands for `m[y][x]`.
* `GRID_SIZE` is the constant 40 of the source.  Every definition takes the
  side length `N` as an argument, so that the statements hold for every grid
  size, 40 included.
* Rendering (`drawGrid`, `window.display`, `sf::sleep`) has no effect on the
  data and is left out.  The timing of `findPath` is left out as well.
* The `float` distances of `dijkstra` and `aStar` only ever hold small
  non-negative integers (sums of ones), which `float` represents exactly; they
  are natural numbers here, and `INFINITY` is `none`.
* An access outside a `vector` is undefined behaviour in the source; the
  embedding reports it as `Fault.outOfBounds`.  The loops carry a fuel
  argument; running out of it is `Fault.fuelExhausted`.  The fuel handed to
  each loop is shown to be enough, so this fault never shows on an in-bounds
  start position.
* Every run records a trace of events (pushes, pops, calls of the visual
  update, cells tagged `Path`) in the order in which the source performs them.
* `std::queue` and `std::stack` are lists.  `std::priority_queue` is an
  interface (`MinQueue`) with the laws of the library heap; `greedy` and
  `dijkstra` order their entries totally, so a list with least-entry removal
  stands for their heap, while `aStar` compares `g + h` only and takes its open
  set as an argument, so that what is proved of it holds for every heap.

The file first gives the embedding, then the notions used in the statements
(walks, invariants, measures, the grids of the scenarios), then the proofs:
the loop invariants of the two families of routines, the soundness of every
run (`findPath_sound`), the shortest-path property of `BFS`, `dijkstra` and
`aStar` (`findPath_shortest`), and the properties of the specification.
Concrete runs are evaluated in the kernel by `decide`.
-/

set_option autoImplicit false

namespace PathFinding

/-! ## Data model -/

/-- Tag of a cell: `enum class CellType` (line 27). -/
inductive CellType
  | Empty | Wall | Start | End | Path | Visited
  deriving DecidableEq, Repr

/-- Selector of the search routine: `enum class Algorithm` (line 28). -/
inductive Algorithm
  | BFS | DFS | AStar | Dijkstra | Greedy
  deriving DecidableEq, Repr

/-- A position `(x, y)`: `pair<int,int>` with `first = x`, `second = y`. -/
abbrev Pos := Int × Int

/-- Side length of the grid in the source (line 19). -/
def GRID_SIZE : Nat := 40

/-- The tags of the global `grid`: `g (x, y)` is `grid[y][x].type`. -/
abbrev Grid := Pos → CellType

/-- The sentinel `{ -1, -1 }` that fills a fresh `parent` matrix, and the
value of an unset `startPos` or `endPos` (line 46). -/
def noParent : Pos := (-1, -1)

/-- The index test `nx >= 0 && nx < GRID_SIZE && ny >= 0 && ny < GRID_SIZE`. -/
def inBounds (N : Nat) (p : Pos) : Prop :=
  0 ≤ p.1 ∧ p.1 < (N : Int) ∧ 0 ≤ p.2 ∧ p.2 < (N : Int)

instance instDecidableInBounds (N : Nat) (p : Pos) : Decidable (inBounds N p) := by
  unfold inBounds; infer_instance

/-- Assignment `m[y][x] = v` to one entry of a matrix. -/
def setAt {α : Type} (m : Pos → α) (p : Pos) (v : α) : Pos → α :=
  fun q => if q = p then v else m q

/-- What a run does, in order: a push on the frontier, a pop from it, a visual
update of a cell (the call `updateVisual(ny, nx, window)`, or the copy of its
body inside `aStar`), the tagging of a cell as `Path` by `reconstructPath`. -/
inductive Event
  | push (p : Pos)
  | pop (p : Pos)
  | visual (p : Pos)
  | path (p : Pos)
  deriving DecidableEq, Repr

/-- Ways in which the embedding of a routine can fail to return. -/
inductive Fault
  | outOfBounds
  | fuelExhausted
  deriving DecidableEq, Repr

/-- The value `abs(x1 - x2) + abs(y1 - y2)` of the heuristic lambdas of
`greedy` (line 263) and `aStar` (line 310). -/
def manhattan (p q : Pos) : Nat := (p.1 - q.1).natAbs + (p.2 - q.2).natAbs

/-! ## Neighbour enumeration -/

/-- The nine pairs `(dx, dy)` of the nested loops
`for (int dx : {-1, 0, 1}) for (int dy : {-1, 0, 1})`, in loop order. -/
def offsets : List (Int × Int) :=
  [(-1, -1), (-1, 0), (-1, 1), (0, -1), (0, 0), (0, 1), (1, -1), (1, 0), (1, 1)]

/-- The pairs that pass `if (abs(dx) + abs(dy) != 1) continue;`
(BFS, DFS, dijkstra, greedy). -/
def orthoDeltas : List (Int × Int) :=
  offsets.filter (fun d => d.1.natAbs + d.2.natAbs = 1)

/-- The pairs that pass `if (dx == 0 && dy == 0) continue;` and
`if (abs(dx) + abs(dy) == 2) continue;` (aStar, lines 329-330). -/
def aStarDeltas : List (Int × Int) :=
  offsets.filter (fun d => ¬ (d.1 = 0 ∧ d.2 = 0) ∧ ¬ (d.1.natAbs + d.2.natAbs = 2))

/-- The four orthogonal steps in the order in which the loops meet them. -/
def dirs4 : List (Int × Int) := [(-1, 0), (0, -1), (0, 1), (1, 0)]

/-! ## Frontier containers -/

/-- The interface of a frontier container holding entries of type `α`
(`std::queue`, `std::stack`, `std::priority_queue`).  The list `items` is the
content as a bag; the laws say that `push` adds one entry and that `pop`
removes one entry when there is one. -/
structure Container (α : Type) where
  σ : Type
  empty : σ
  push : σ → α → σ
  pop : σ → Option (α × σ)
  items : σ → List α
  items_empty : items empty = []
  items_push : ∀ s a, (items (push s a)).Perm (a :: items s)
  pop_none : ∀ s, pop s = none ↔ items s = []
  pop_some : ∀ s a s', pop s = some (a, s') → (items s).Perm (a :: items s')

/-- A `std::priority_queue<α, vector<α>, greater<...>>`: a container whose
`pop` hands out an entry that is not `gt` any entry it holds.  Which of
several such entries comes first is left to the implementation of the
library heap, so the routines that use one take it as an argument. -/
structure MinQueue (α : Type) (gt : α → α → Bool) extends Container α where
  pop_min : ∀ s a s', pop s = some (a, s') → ∀ b ∈ items s, gt a b = false

/-- A `std::queue<pair<int,int>>`: `push` at the back, `front`/`pop` at the
front. -/
def fifo : Container Pos where
  σ := List Pos
  empty := []
  push := fun s a => s ++ [a]
  pop := fun s => match s with
    | [] => none
    | a :: rest => some (a, rest)
  items := fun s => s
  items_empty := rfl
  items_push := fun s a => by
    simp
  pop_none := fun s => by cases s <;> simp
  pop_some := fun s a s' h => by
    cases s with
    | nil => simp at h
    | cons b rest =>
      simp only [Option.some.injEq, Prod.mk.injEq] at h
      obtain ⟨rfl, rfl⟩ := h
      exact List.Perm.refl _

/-- A `std::stack<pair<int,int>>`: `push` and `top`/`pop` at the same end. -/
def lifo : Container Pos where
  σ := List Pos
  empty := []
  push := fun s a => a :: s
  pop := fun s => match s with
    | [] => none
    | a :: rest => some (a, rest)
  items := fun s => s
  items_empty := rfl
  items_push := fun _ _ => List.Perm.refl _
  pop_none := fun s => by cases s <;> simp
  pop_some := fun s a s' h => by
    cases s with
    | nil => simp at h
    | cons b rest =>
      simp only [Option.some.injEq, Prod.mk.injEq] at h
      obtain ⟨rfl, rfl⟩ := h
      exact List.Perm.refl _

/-- The least entry of `m :: l` for the comparison `gt`, the first one among
equals. -/
def minOf {α : Type} (gt : α → α → Bool) : α → List α → α
  | m, [] => m
  | m, b :: l => if gt m b then minOf gt b l else minOf gt m l

/-- A priority queue kept as a plain list: `push` appends, `pop` takes out the
least entry (the oldest among equals).  One lawful implementation of
`MinQueue`, used to run the routines on concrete grids. -/
def listPQ {α : Type} [DecidableEq α] (gt : α → α → Bool)
    (htotal : ∀ a b, gt a b = true → gt b a = false)
    (htrans : ∀ a b c, gt a b = false → gt b c = false → gt a c = false) :
    MinQueue α gt where
  σ := List α
  empty := []
  push := fun s a => s ++ [a]
  pop := fun s => match s with
    | [] => none
    | a :: l => some (minOf gt a l, (a :: l).erase (minOf gt a l))
  items := fun s => s
  items_empty := rfl
  items_push := fun s a => by simp
  pop_none := fun s => by cases s <;> simp
  pop_some := fun s a s' h => by
    have hmem : ∀ (l : List α) (m : α), minOf gt m l ∈ m :: l := by
      intro l
      induction l with
      | nil => intro m; simp [minOf]
      | cons b l ih =>
        intro m
        unfold minOf
        split
        · exact List.mem_cons_of_mem _ (ih b)
        · rcases List.mem_cons.mp (ih m) with h | h
          · rw [h]; exact List.mem_cons_self _ _
          · exact List.mem_cons_of_mem _ (List.mem_cons_of_mem _ h)
    cases s with
    | nil => simp at h
    | cons b rest =>
      simp only [Option.some.injEq, Prod.mk.injEq] at h
      obtain ⟨rfl, rfl⟩ := h
      exact List.perm_cons_erase (hmem rest b)
  pop_min := fun s a s' h => by
    have hle : ∀ (l : List α) (m : α), ∀ b ∈ m :: l, gt (minOf gt m l) b = false := by
      intro l
      induction l with
      | nil =>
        intro m b hb
        have hb' : b = m := by simpa using hb
        subst hb'
        cases hbb : gt b b
        · simpa [minOf] using hbb
        · have := htotal b b hbb; rw [hbb] at this; cases this
      | cons c l ih =>
        intro m b hb
        unfold minOf
        split
        · rename_i hmc
          have hcm : gt c m = false := htotal m c hmc
          rcases List.mem_cons.mp hb with h | h
          · subst h
            exact htrans _ _ _ (ih c c (List.mem_cons_self _ _)) hcm
          · exact ih c b h
        · rename_i hmc
          have hmc' : gt m c = false := by simpa using hmc
          rcases List.mem_cons.mp hb with h | h
          · subst h; exact ih b b (List.mem_cons_self _ _)
          · rcases List.mem_cons.mp h with h | h
            · subst h
              exact htrans _ _ _ (ih m m (List.mem_cons_self _ _)) hmc'
            · exact ih m b (List.mem_cons_of_mem _ h)
    cases s with
    | nil => simp at h
    | cons b rest =>
      simp only [Option.some.injEq, Prod.mk.injEq] at h
      obtain ⟨rfl, _⟩ := h
      exact hle rest b

/-- The order `greater<>` on `pair<int, pair<int,int>>` (greedy) and on
`pair<float, pair<int,int>>` (dijkstra): lexicographic on the key, then `x`,
then `y`. -/
def pairGt (a b : Nat × Pos) : Bool :=
  decide (b.1 < a.1 ∨ (a.1 = b.1 ∧ (b.2.1 < a.2.1 ∨ (a.2.1 = b.2.1 ∧ b.2.2 < a.2.2))))

/-- The priority queue of `greedy` and `dijkstra`.  Their order is total, so
the entry on top is determined by the content and every lawful heap behaves
like this one. -/
def pairPQ : MinQueue (Nat × Pos) pairGt :=
  listPQ pairGt
    (fun a b => by
      unfold pairGt
      simp only [decide_eq_true_eq, decide_eq_false_iff_not]
      omega)
    (fun a b c => by
      unfold pairGt
      simp only [decide_eq_false_iff_not]
      omega)

/-- The entry of the open set of `aStar`: `struct Node` (lines 139-145). -/
structure Node where
  x : Int
  y : Int
  g : Nat
  h : Nat
  deriving DecidableEq, Repr

/-- The comparison `Node::operator>` (line 144): `(g + h) > (other.g + other.h)`. -/
def nodeGt (a b : Node) : Bool := decide (b.g + b.h < a.g + a.h)

/-- One lawful open set for `aStar`: among nodes of equal `g + h` the oldest
comes first. -/
def nodePQ : MinQueue Node nodeGt :=
  listPQ nodeGt
    (fun a b => by
      unfold nodeGt
      simp only [decide_eq_true_eq, decide_eq_false_iff_not]
      omega)
    (fun a b c => by
      unfold nodeGt
      simp only [decide_eq_false_iff_not]
      omega)

/-! ## Visual update and path reconstruction -/

/-- The tagging of `updateVisual(y, x, window)` (lines 356-363): the tag of
the cell becomes `Visited` unless it is `Start` or `End`, in which case it
stays as it is. -/
def updateVisual (g : Grid) (p : Pos) : Grid :=
  setAt g p (if g p ≠ CellType.Start ∧ g p ≠ CellType.End then CellType.Visited else g p)

/-- The `while (current != startPos)` loop of `reconstructPath`
(lines 367-373).  `acc` collects the cells tagged `Path`, in order. -/
def reconstructLoop (N : Nat) (parent : Pos → Pos) (startPos : Pos) :
    Nat → Pos → Grid → List Pos → Except Fault (Grid × List Pos)
  | 0, current, g, acc =>
    if current = startPos then .ok (g, acc) else .error Fault.fuelExhausted
  | fuel + 1, current, g, acc =>
    if current = startPos then .ok (g, acc)
    else if inBounds N current then
      reconstructLoop N parent startPos fuel (parent current)
        (setAt g current CellType.Path) (acc ++ [current])
    else .error Fault.outOfBounds

/-- The routine `reconstructPath(parent, window)` (lines 365-374), started at
`endPos`.  It returns the grid after tagging and the cells it tagged, in
order.  A chain of more than `N * N` cells inside the grid repeats a cell, on
which the source loops forever. -/
def reconstructPath (N : Nat) (parent : Pos → Pos) (startPos endPos : Pos) (g : Grid) :
    Except Fault (Grid × List Pos) :=
  reconstructLoop N parent startPos (N * N) endPos g []

/-! ## BFS, DFS and greedy: mark on discovery -/

/-- The locals of `BFS`, `DFS` and `greedy` together with the global grid and
the trace: frontier, `visited`, `parent`. -/
structure VState (σ : Type) where
  grid : Grid
  frontier : σ
  visited : Pos → Bool
  parent : Pos → Pos
  trace : List Event

/-- The body of the neighbour loops of `BFS` (lines 168-175), `DFS`
(lines 203-210) and `greedy` (lines 291-298) for one pair `d = (dx, dy)`
around the popped cell `cur`; `mk` builds the frontier entry of a cell. -/
def discover {α : Type} (N : Nat) (C : Container α) (mk : Pos → α) (cur : Pos)
    (st : VState C.σ) (d : Int × Int) : VState C.σ :=
  let n : Pos := (cur.1 + d.1, cur.2 + d.2)
  if inBounds N n ∧ st.visited n = false ∧ st.grid n ≠ CellType.Wall then
    { grid := updateVisual st.grid n
      frontier := C.push st.frontier (mk n)
      visited := setAt st.visited n true
      parent := setAt st.parent n cur
      trace := st.trace ++ [Event.push n, Event.visual n] }
  else st

/-- The exit `reconstructPath(parent, window); return true;` of `BFS`, `DFS`
and `greedy`, taken when the popped cell is `endPos`. -/
def finishV {σ : Type} (N : Nat) (startPos endPos : Pos) (st : VState σ) :
    Except Fault (Bool × VState σ) :=
  match reconstructPath N st.parent startPos endPos st.grid with
  | .error f => .error f
  | .ok (g, cells) =>
    .ok (true, { st with grid := g, trace := st.trace ++ cells.map Event.path })

/-- The `while (!q.empty())` loop shared by `BFS` (lines 155-178), `DFS`
(lines 190-213) and `greedy` (lines 277-301); `pos` reads the cell of a
frontier entry. -/
def visitedLoop {α : Type} (N : Nat) (C : Container α) (mk : Pos → α) (pos : α → Pos)
    (startPos endPos : Pos) : Nat → VState C.σ → Except Fault (Bool × VState C.σ)
  | 0, _ => .error Fault.fuelExhausted
  | fuel + 1, st =>
    match C.pop st.frontier with
    | none => .ok (false, st)
    | some (a, rest) =>
      let st1 : VState C.σ :=
        { st with frontier := rest, trace := st.trace ++ [Event.pop (pos a)] }
      if pos a = endPos then finishV N startPos endPos st1
      else
        visitedLoop N C mk pos startPos endPos fuel
          (orthoDeltas.foldl (discover N C mk (pos a)) st1)

/-- The state in which `BFS`, `DFS` and `greedy` enter their loop: the start
cell pushed and marked visited, every parent the sentinel. -/
def visitedInit {α : Type} (C : Container α) (mk : Pos → α) (g : Grid) (startPos : Pos) :
    VState C.σ :=
  { grid := g
    frontier := C.push C.empty (mk startPos)
    visited := setAt (fun _ => false) startPos true
    parent := fun _ => noParent
    trace := [Event.push startPos] }

/-- The routine common to `BFS`, `DFS` and `greedy`.  The write
`visited[startPos.second][startPos.first] = true` is outside the matrix when
`startPos` is unset.  Each turn of the loop pops one entry, and an entry is
pushed for a cell only once, so `2 * N * N + 2` turns are enough. -/
def visitedSearch {α : Type} (N : Nat) (C : Container α) (mk : Pos → α) (pos : α → Pos)
    (g : Grid) (startPos endPos : Pos) : Except Fault (Bool × VState C.σ) :=
  if inBounds N startPos then
    visitedLoop N C mk pos startPos endPos (2 * N * N + 2) (visitedInit C mk g startPos)
  else .error Fault.outOfBounds

/-- The routine `Pathfinder::BFS` (lines 147-180). -/
def BFS (N : Nat) (g : Grid) (startPos endPos : Pos) :
    Except Fault (Bool × VState fifo.σ) :=
  visitedSearch N fifo (fun p => p) (fun p => p) g startPos endPos

/-- The routine `Pathfinder::DFS` (lines 182-215). -/
def DFS (N : Nat) (g : Grid) (startPos endPos : Pos) :
    Except Fault (Bool × VState lifo.σ) :=
  visitedSearch N lifo (fun p => p) (fun p => p) g startPos endPos

/-- The routine `Pathfinder::greedy` (lines 262-303): the entry of a cell is
the pair of its heuristic value and its position. -/
def greedy (N : Nat) (g : Grid) (startPos endPos : Pos) :
    Except Fault (Bool × VState pairPQ.σ) :=
  visitedSearch N pairPQ.toContainer (fun p => (manhattan p endPos, p)) (fun a => a.2)
    g startPos endPos

/-! ## dijkstra and aStar: relax on every edge -/

/-- The locals of `dijkstra` and `aStar` together with the global grid and the
trace: the queue, `dist` (`gScore` in `aStar`), `parent`. -/
structure DState (σ : Type) where
  grid : Grid
  frontier : σ
  dist : Pos → Option Nat
  parent : Pos → Pos
  trace : List Event

/-- The test `a < b` on distances, where `b` may be `INFINITY`. -/
def ltInf (a : Nat) (b : Option Nat) : Bool :=
  match b with
  | none => true
  | some d => decide (a < d)

/-- The test `a > b` on distances, where `b` may be `INFINITY`. -/
def gtInf (a : Nat) (b : Option Nat) : Bool :=
  match b with
  | none => false
  | some d => decide (d < a)

/-- The body of the neighbour loops of `dijkstra` (lines 244-255) and `aStar`
(lines 332-349) for one pair `d = (dx, dy)` around the popped cell `cur`,
whose popped entry carries the distance `gcur`; `mk` builds the queue entry of
a cell and a distance.  In `aStar` the tagging of lines 343-348 is the body of
`updateVisual` written out. -/
def relax {α : Type} (N : Nat) (C : Container α) (mk : Pos → Nat → α) (cur : Pos)
    (gcur : Nat) (st : DState C.σ) (d : Int × Int) : DState C.σ :=
  let n : Pos := (cur.1 + d.1, cur.2 + d.2)
  if inBounds N n ∧ st.grid n ≠ CellType.Wall then
    let newDist := gcur + 1
    if ltInf newDist (st.dist n) = true then
      { grid := updateVisual st.grid n
        frontier := C.push st.frontier (mk n newDist)
        dist := setAt st.dist n (some newDist)
        parent := setAt st.parent n cur
        trace := st.trace ++ [Event.push n, Event.visual n] }
    else st
  else st

/-- The exit `reconstructPath(parent, window); return true;` of `dijkstra`
and `aStar`, taken when the popped cell is `endPos`. -/
def finishD {σ : Type} (N : Nat) (startPos endPos : Pos) (st : DState σ) :
    Except Fault (Bool × DState σ) :=
  match reconstructPath N st.parent startPos endPos st.grid with
  | .error f => .error f
  | .ok (g, cells) =>
    .ok (true, { st with grid := g, trace := st.trace ++ cells.map Event.path })

/-- The `while (!pq.empty())` loop of `dijkstra` (lines 228-258) and of
`aStar` (lines 318-352).  `pos` and `gOf` read the cell and the distance of a
queue entry; `stale` tells whether the loop has the line
`if (currentDist > dist[y][x]) continue;` (dijkstra has it, aStar has not);
`deltas` is the list of pairs the neighbour loops let through. -/
def relaxLoop {α : Type} (N : Nat) (C : Container α) (mk : Pos → Nat → α) (pos : α → Pos)
    (gOf : α → Nat) (stale : Bool) (deltas : List (Int × Int)) (startPos endPos : Pos) :
    Nat → DState C.σ → Except Fault (Bool × DState C.σ)
  | 0, _ => .error Fault.fuelExhausted
  | fuel + 1, st =>
    match C.pop st.frontier with
    | none => .ok (false, st)
    | some (a, rest) =>
      let st1 : DState C.σ :=
        { st with frontier := rest, trace := st.trace ++ [Event.pop (pos a)] }
      if pos a = endPos then finishD N startPos endPos st1
      else if (stale && gtInf (gOf a) (st1.dist (pos a))) = true then
        relaxLoop N C mk pos gOf stale deltas startPos endPos fuel st1
      else
        relaxLoop N C mk pos gOf stale deltas startPos endPos fuel
          (deltas.foldl (relax N C mk (pos a) (gOf a)) st1)

/-- The state in which `dijkstra` and `aStar` enter their loop: distance 0 at
the start cell, its entry pushed, every parent the sentinel. -/
def relaxInit {α : Type} (C : Container α) (mk : Pos → Nat → α) (g : Grid) (startPos : Pos) :
    DState C.σ :=
  { grid := g
    frontier := C.push C.empty (mk startPos 0)
    dist := setAt (fun _ => none) startPos (some 0)
    parent := fun _ => noParent
    trace := [Event.push startPos] }

/-- The routine common to `dijkstra` and `aStar`.  The write
`dist[startPos.second][startPos.first] = 0` is outside the matrix when
`startPos` is unset.  An entry is pushed only when the distance of its cell
drops, and distances stay below `N * N`, so `2 * (N * N) * (N * N) + 2` turns
of the loop are enough. -/
def relaxSearch {α : Type} (N : Nat) (C : Container α) (mk : Pos → Nat → α) (pos : α → Pos)
    (gOf : α → Nat) (stale : Bool) (deltas : List (Int × Int)) (g : Grid)
    (startPos endPos : Pos) : Except Fault (Bool × DState C.σ) :=
  if inBounds N startPos then
    relaxLoop N C mk pos gOf stale deltas startPos endPos (2 * (N * N) * (N * N) + 2)
      (relaxInit C mk g startPos)
  else .error Fault.outOfBounds

/-- The routine `Pathfinder::dijkstra` (lines 217-260): entries are pairs of a
distance and a position, stale entries are skipped. -/
def dijkstra (N : Nat) (g : Grid) (startPos endPos : Pos) :
    Except Fault (Bool × DState pairPQ.σ) :=
  relaxSearch N pairPQ.toContainer (fun p d => (d, p)) (fun a => a.2) (fun a => a.1)
    true orthoDeltas g startPos endPos

/-- The routine `Pathfinder::aStar` (lines 305-354) over the open set `pq`:
entries are nodes `Node(x, y, g, h)` with `h` the heuristic to `endPos`, no
popped entry is skipped, and the expansion uses the `g` of the popped node. -/
def aStar (N : Nat) (pq : MinQueue Node nodeGt) (g : Grid) (startPos endPos : Pos) :
    Except Fault (Bool × DState pq.σ) :=
  relaxSearch N pq.toContainer (fun p d => Node.mk p.1 p.2 d (manhattan p endPos))
    (fun a => (a.x, a.y)) (fun a => a.g) false aStarDeltas g startPos endPos

/-! ## The dispatcher -/

/-- What a run leaves behind: the verdict, the grid, the final `parent`
matrix, which cells were marked (`visited` set, or distance below
`INFINITY`), and the trace. -/
structure Outcome where
  found : Bool
  grid : Grid
  parent : Pos → Pos
  reached : Pos → Bool
  trace : List Event

/-- Outcome of a run of `BFS`, `DFS` or `greedy`. -/
def Outcome.ofV {σ : Type} (r : Bool × VState σ) : Outcome :=
  { found := r.1, grid := r.2.grid, parent := r.2.parent,
    reached := r.2.visited, trace := r.2.trace }

/-- Outcome of a run of `dijkstra` or `aStar`. -/
def Outcome.ofD {σ : Type} (r : Bool × DState σ) : Outcome :=
  { found := r.1, grid := r.2.grid, parent := r.2.parent,
    reached := fun p => (r.2.dist p).isSome, trace := r.2.trace }

/-- The dispatcher `Pathfinder::findPath` (lines 121-136): it runs the chosen
routine and returns its verdict.  There is no check of `startPos`, `endPos` or
the grid before the routine runs.  `pq` is the open set handed to `aStar`. -/
def findPath (algo : Algorithm) (N : Nat) (pq : MinQueue Node nodeGt) (g : Grid)
    (startPos endPos : Pos) : Except Fault Outcome :=
  match algo with
  | Algorithm.BFS => (BFS N g startPos endPos).map Outcome.ofV
  | Algorithm.DFS => (DFS N g startPos endPos).map Outcome.ofV
  | Algorithm.AStar => (aStar N pq g startPos endPos).map Outcome.ofD
  | Algorithm.Dijkstra => (dijkstra N g startPos endPos).map Outcome.ofD
  | Algorithm.Greedy => (greedy N g startPos endPos).map Outcome.ofV

/-- The cells tagged `Path` by a run, in the order of tagging. -/
def pathCells (tr : List Event) : List Pos :=
  tr.filterMap (fun e => match e with
    | Event.path p => some p
    | _ => none)

/-- The cells handed to the visual update by a run, in order. -/
def visualCells (tr : List Event) : List Pos :=
  tr.filterMap (fun e => match e with
    | Event.visual p => some p
    | _ => none)

/-- The cells pushed on the frontier by a run, in order. -/
def pushedCells (tr : List Event) : List Pos :=
  tr.filterMap (fun e => match e with
    | Event.push p => some p
    | _ => none)

/-- The verdict of a run, when it returns. -/
def foundOf (r : Except Fault Outcome) : Option Bool :=
  match r with
  | .ok o => some o.found
  | .error _ => none

/-- The cells tagged `Path` by a run, when it returns. -/
def pathOf (r : Except Fault Outcome) : Option (List Pos) :=
  match r with
  | .ok o => some (pathCells o.trace)
  | .error _ => none

/-! ## The grid editor -/

/-- Width of the window in pixels (line 17). -/
def WINDOW_WIDTH : Int := 1200

/-- Height of the window in pixels (line 18). -/
def WINDOW_HEIGHT : Int := 800

/-- Width of the panel of buttons at the right of the window (line 21). -/
def UI_WIDTH : Int := 300

/-- Side of a cell in pixels, `min(WINDOW_HEIGHT, WINDOW_WIDTH) / GRID_SIZE`
(line 20), for a grid of side `N`; the division is that of `int`. -/
def CELL_SIZE (N : Nat) : Int := Int.tdiv (min WINDOW_HEIGHT WINDOW_WIDTH) (N : Int)

/-- What the program is doing: `enum class State` (line 29). -/
inductive State
  | IDLE | VISUALIZING
  deriving DecidableEq, Repr

/-- The button of a mouse event; every button other than the left and the
right one is `Other`. -/
inductive MouseButton
  | Left | Right | Other
  deriving DecidableEq, Repr

/-- The globals that the editor reads and writes: the tags of `grid`,
`startPos`, `endPos` and `currentState`. -/
structure Editor where
  grid : Grid
  startPos : Pos
  endPos : Pos
  currentState : State

/-- The effect of a click on the cell `c` of the grid (lines 390-425 of
`handleMouseClick`), once the tests on the state and on the position have let
the event through. -/
def clickCell (ed : Editor) (c : Pos) (button : MouseButton) : Editor :=
  match button with
  | MouseButton.Left =>
    if ed.grid c = CellType.Empty then
      if ed.startPos.1 = -1 then
        { ed with startPos := c, grid := setAt ed.grid c CellType.Start }
      else if ed.endPos.1 = -1 then
        { ed with endPos := c, grid := setAt ed.grid c CellType.End }
      else { ed with grid := setAt ed.grid c CellType.Wall }
    else if ed.grid c = CellType.Start then
      { ed with startPos := (-1, -1), grid := setAt ed.grid c CellType.Empty }
    else if ed.grid c = CellType.End then
      { ed with endPos := (-1, -1), grid := setAt ed.grid c CellType.Empty }
    else ed
  | MouseButton.Right =>
    if ed.grid c = CellType.Wall then
      { ed with grid := setAt ed.grid c CellType.Empty }
    else if ed.grid c = CellType.Start then
      { ed with startPos := (-1, -1), grid := setAt ed.grid c CellType.Empty }
    else if ed.grid c = CellType.End then
      { ed with endPos := (-1, -1), grid := setAt ed.grid c CellType.Empty }
    else ed
  | MouseButton.Other => ed

/-- The handler `handleMouseClick(window, event)` (lines 377-429) for a mouse
at the pixel `mousePos` of the window: nothing happens unless the program is
idle, the mouse is left of the panel of buttons, and the cell under the mouse
lies in the grid. -/
def handleMouseClick (N : Nat) (ed : Editor) (mousePos : Int × Int) (button : MouseButton) :
    Editor :=
  if ed.currentState ≠ State.IDLE then ed
  else if mousePos.1 ≥ WINDOW_WIDTH - UI_WIDTH then ed
  else
    let gridX := Int.tdiv mousePos.1 (CELL_SIZE N)
    let gridY := Int.tdiv mousePos.2 (CELL_SIZE N)
    if gridX < 0 ∨ gridX ≥ (N : Int) ∨ gridY < 0 ∨ gridY ≥ (N : Int) then ed
    else clickCell ed (gridX, gridY) button

/-! ## Notions used to state and prove the properties -/

section Notions
variable {α : Type} {C : Container α}

/-- The tag that the visual update leaves on a cell tagged `t`. -/
def visTag (t : CellType) : CellType :=
  if t ≠ CellType.Start ∧ t ≠ CellType.End then CellType.Visited else t

/-- The cells of the grid, as a finite set. -/
def cells (N : Nat) : Finset Pos :=
  Finset.Ico (0 : Int) (N : Int) ×ˢ Finset.Ico (0 : Int) (N : Int)

/-- The cells met by following `parent` from `p` until `s` is met, at most `k`
of them. -/
def chainOf (parent : Pos → Pos) (s : Pos) : Nat → Pos → List Pos
  | 0, _ => []
  | k + 1, p => if p = s then [] else p :: chainOf parent s k (parent p)

/-- What makes the parent links below a set `good` of cells sound: every good
cell other than `s` lies in the grid, has a good parent, and the parent has a
smaller rank. -/
structure ChainOK (N : Nat) (parent : Pos → Pos) (s : Pos) (good : Pos → Prop)
    (rank : Pos → Nat) : Prop where
  step : ∀ p, good p → p ≠ s → inBounds N p ∧ good (parent p) ∧ rank (parent p) < rank p

/-- The test of the neighbour loops of `BFS`, `DFS` and `greedy`. -/
def fresh (N : Nat) {σ : Type} (st : VState σ) (n : Pos) : Prop :=
  inBounds N n ∧ st.visited n = false ∧ st.grid n ≠ CellType.Wall

instance instDecidableFresh (N : Nat) {σ : Type} (st : VState σ) (n : Pos) :
    Decidable (fresh N st n) := by
  unfold fresh; infer_instance

/-- The depth of the cells in the search tree after one turn of the neighbour
loop: a cell discovered from `cur` lies one level below `cur`. -/
def stepDepth (N : Nat) {σ : Type} (cur : Pos) (st : VState σ) (depth : Pos → Nat)
    (d : Int × Int) : Pos → Nat :=
  if fresh N st (cur.1 + d.1, cur.2 + d.2) then
    setAt depth (cur.1 + d.1, cur.2 + d.2) (depth cur + 1)
  else depth

/-- The depths after the neighbour loop has gone through the pairs `ds`. -/
def foldDepth (N : Nat) (C : Container α) (mk : Pos → α) (cur : Pos) :
    List (Int × Int) → VState C.σ → (Pos → Nat) → (Pos → Nat)
  | [], _, depth => depth
  | d :: ds, st, depth =>
    foldDepth N C mk cur ds (discover N C mk cur st d) (stepDepth N cur st depth d)

/-- The number of marked cells of the grid. -/
def visitedCount (N : Nat) {σ : Type} (st : VState σ) : Nat :=
  ((cells N).filter (fun q => st.visited q = true)).card

/-- The structural invariant of the loop of `BFS`, `DFS` and `greedy`, over
the initial grid `g0` and the start cell `s`; `depth` is the level of each
marked cell in the tree of parent links. -/
structure VInv (N : Nat) (C : Container α) (pos : α → Pos) (g0 : Grid) (s : Pos)
    (depth : Pos → Nat) (st : VState C.σ) : Prop where
  start_inb : inBounds N s
  vis_start : st.visited s = true
  depth_start : depth s = 0
  par_none : ∀ p, (st.visited p = false ∨ p = s) → st.parent p = noParent
  vis_inb : ∀ p, st.visited p = true → inBounds N p
  vis_par : ∀ p, st.visited p = true → p ≠ s →
    st.visited (st.parent p) = true ∧ manhattan (st.parent p) p = 1 ∧
      g0 p ≠ CellType.Wall ∧ depth p = depth (st.parent p) + 1
  items_vis : ∀ a ∈ C.items st.frontier, st.visited (pos a) = true
  grid_eq : ∀ p, st.grid p = if st.visited p = true ∧ p ≠ s then visTag (g0 p) else g0 p
  depth_lt : ∀ p, st.visited p = true → depth p < visitedCount N st

/-- The state right after `q.pop()` took the entry `a` and left `rest`. -/
def popV (pos : α → Pos) (st : VState C.σ) (a : α) (rest : C.σ) : VState C.σ :=
  { st with frontier := rest, trace := st.trace ++ [Event.pop (pos a)] }

/-- The measure that every turn of the loop lowers: twice the number of
unmarked cells plus the size of the frontier. -/
def measureV (N : Nat) (C : Container α) (st : VState C.σ) : Nat :=
  2 * (N * N - visitedCount N st) + (C.items st.frontier).length

/-- Every call of the visual update comes right after the push of the same
cell. -/
def Paired (tr : List Event) : Prop :=
  ∀ l1 l2 p, tr = l1 ++ Event.visual p :: l2 → ∃ l0, l1 = l0 ++ [Event.push p]

/-- What the trace of a run of `BFS`, `DFS` or `greedy` looks like while the
loop runs: the pushed cells are the marked cells, each pushed once; all of
them but the start cell went to the visual update; no cell is tagged `Path`. -/
structure VTrace {σ : Type} (s : Pos) (st : VState σ) : Prop where
  pushes : ∀ p, p ∈ pushedCells st.trace ↔ st.visited p = true
  nodup : (pushedCells st.trace).Nodup
  visuals : pushedCells st.trace = s :: visualCells st.trace
  no_path : pathCells st.trace = []
  paired : Paired st.trace

/-- Every neighbour of `p` that the search may step on is marked. -/
def Expanded (N : Nat) (g0 : Grid) {σ : Type} (st : VState σ) (p : Pos) : Prop :=
  ∀ n, manhattan p n = 1 → inBounds N n → g0 n ≠ CellType.Wall → st.visited n = true

/-- Every marked cell is still on the frontier, or is the cell `c` whose
neighbours the loop is going through, or has all its neighbours marked; and
`e`, once marked, stays on the frontier (the loop exits when it pops it). -/
structure VClosure (N : Nat) (C : Container α) (pos : α → Pos) (g0 : Grid) (e : Pos)
    (c : Option Pos) (st : VState C.σ) : Prop where
  closed : ∀ p, st.visited p = true →
    (∃ a ∈ C.items st.frontier, pos a = p) ∨ c = some p ∨ Expanded N g0 st p
  end_item : st.visited e = true → ∃ a ∈ C.items st.frontier, pos a = e

/-- What a run of `BFS`, `DFS` or `greedy` returns, told through the state
`stF` in which the loop made its last test; `X` is any further invariant of
the loop.  Either the frontier was empty and the verdict is `false`, or
`endPos` was popped, `reconstructPath` tagged the chain of parent links from
`endPos`, and the verdict is `true`. -/
def VResult (N : Nat) (C : Container α) (pos : α → Pos) (g0 : Grid) (s e : Pos)
    (X : (Pos → Nat) → VState C.σ → Prop) (r : Bool × VState C.σ) : Prop :=
  ∃ depth stF, VInv N C pos g0 s depth stF ∧ VTrace s stF ∧ VClosure N C pos g0 e none stF ∧
    X depth stF ∧
    ((C.items stF.frontier = [] ∧ r = (false, stF)) ∨
     ((∃ a rest, C.pop stF.frontier = some (a, rest) ∧ pos a = e) ∧
      stF.visited e = true ∧ r.1 = true ∧ r.2.visited = stF.visited ∧
      r.2.parent = stF.parent ∧
      r.2.trace = stF.trace ++ [Event.pop e] ++
        (chainOf stF.parent s (depth e) e).map Event.path ∧
      ∀ p, r.2.grid p =
        if p ∈ chainOf stF.parent s (depth e) e then CellType.Path else stF.grid p))

/-- A walk of `k` orthogonal steps from `s` to a cell, each step onto a cell
inside the grid that is not a `Wall`. -/
inductive Walk (N : Nat) (g : Grid) (s : Pos) : Pos → Nat → Prop
  | start : Walk N g s s 0
  | step {p q : Pos} {k : Nat} : Walk N g s p k → manhattan p q = 1 → inBounds N q →
      g q ≠ CellType.Wall → Walk N g s q (k + 1)

/-- The cell `e` can be reached from `s` by orthogonal steps over cells
inside the grid that are not `Wall`. -/
def Reachable (N : Nat) (g : Grid) (s e : Pos) : Prop := ∃ k, Walk N g s e k

/-- No walk from `s` to `e` is shorter than `k`, and one has `k` steps. -/
def IsDist (N : Nat) (g : Grid) (s e : Pos) (k : Nat) : Prop :=
  Walk N g s e k ∧ ∀ j, Walk N g s e j → k ≤ j

/-- The order of the queue of `BFS` between two turns of the loop: the cells
wait in the order of their depth, the depths in the queue differ by at most
one, no marked cell lies more than one level below a waiting cell, and the
depths of two marked neighbours differ by at most one. -/
structure BInv (depth : Pos → Nat) (st : VState fifo.σ) : Prop where
  sorted : List.Pairwise (fun a b => depth a ≤ depth b) (fifo.items st.frontier)
  span : ∀ a ∈ fifo.items st.frontier, ∀ b ∈ fifo.items st.frontier, depth b ≤ depth a + 1
  near : ∀ p, st.visited p = true → ∀ q ∈ fifo.items st.frontier, depth p ≤ depth q + 1
  lip : ∀ p n, st.visited p = true → st.visited n = true → manhattan p n = 1 →
    depth n ≤ depth p + 1

/-- The order of the queue of `BFS` while the neighbours of a popped cell of
depth `m` are gone through. -/
structure BMid (m : Nat) (depth : Pos → Nat) (st : VState fifo.σ) : Prop where
  sorted : List.Pairwise (fun a b => depth a ≤ depth b) (fifo.items st.frontier)
  range : ∀ q ∈ fifo.items st.frontier, m ≤ depth q ∧ depth q ≤ m + 1
  near : ∀ p, st.visited p = true → depth p ≤ m + 1
  lip : ∀ p n, st.visited p = true → st.visited n = true → manhattan p n = 1 →
    depth n ≤ depth p + 1

/-- What a run leaves behind, for the initial grid `g`, the start cell `s` and
the end cell `e`.  The path is the list of cells tagged `Path`, in the order
of tagging. -/
structure Sound (N : Nat) (g : Grid) (s e : Pos) (r : Outcome) : Prop where
  found_iff : r.found = true ↔ Reachable N g s e
  found_reached : r.found = true ↔ r.reached e = true
  path_nil : r.found = false → pathCells r.trace = []
  path_walk : r.found = true → Walk N g s e (pathCells r.trace).length
  path_head : r.found = true → e ≠ s → (pathCells r.trace).head? = some e
  path_adj : List.Chain' (fun a b => manhattan a b = 1) (pathCells r.trace)
  path_link : List.Chain' (fun a b => b = r.parent a) (pathCells r.trace)
  path_last : ∀ l ∈ (pathCells r.trace).getLast?, manhattan l s = 1 ∧ r.parent l = s
  path_mem : ∀ p ∈ pathCells r.trace, r.reached p = true ∧ p ≠ s
  path_nodup : (pathCells r.trace).Nodup
  reached_start : r.reached s = true
  reached_inb : ∀ p, r.reached p = true → inBounds N p
  reached_open : ∀ p, r.reached p = true → p ≠ s → g p ≠ CellType.Wall
  parent_none : ∀ p, (r.reached p = false ∨ p = s) → r.parent p = noParent
  parent_some : ∀ p, r.reached p = true → p ≠ s →
    r.reached (r.parent p) = true ∧ manhattan (r.parent p) p = 1
  grid_eq : ∀ p, r.grid p =
    if p ∈ pathCells r.trace then CellType.Path
    else if r.reached p = true ∧ p ≠ s then visTag (g p) else g p
  pushed_iff : ∀ p, p ∈ pushedCells r.trace ↔ r.reached p = true
  visuals : pushedCells r.trace = s :: visualCells r.trace
  paired : Paired r.trace

/-- The two tests of the neighbour loops of `dijkstra` and `aStar`: the cell
may be stepped on, and the new distance improves on the stored one. -/
def relaxable (N : Nat) {σ : Type} (st : DState σ) (gcur : Nat) (n : Pos) : Prop :=
  (inBounds N n ∧ st.grid n ≠ CellType.Wall) ∧ ltInf (gcur + 1) (st.dist n) = true

/-- The number of cells of the grid whose distance is below `INFINITY`. -/
def reachedCount (N : Nat) {σ : Type} (st : DState σ) : Nat :=
  ((cells N).filter (fun q => (st.dist q).isSome = true)).card

/-- The structural invariant of the loop of `dijkstra` and `aStar`, over the
initial grid `g0` and the start cell `s`. -/
structure DInv (N : Nat) (C : Container α) (mk : Pos → Nat → α) (pos : α → Pos)
    (gOf : α → Nat) (g0 : Grid) (s : Pos) (st : DState C.σ) : Prop where
  start_inb : inBounds N s
  dist_start : st.dist s = some 0
  par_none : ∀ p, (st.dist p = none ∨ p = s) → st.parent p = noParent
  dist_inb : ∀ p d, st.dist p = some d → inBounds N p
  dist_par : ∀ p d, st.dist p = some d → p ≠ s →
    ∃ d', st.dist (st.parent p) = some d' ∧ d' + 1 ≤ d ∧
      manhattan (st.parent p) p = 1 ∧ g0 p ≠ CellType.Wall
  dist_walk : ∀ p d, st.dist p = some d → Walk N g0 s p d
  dist_lt : ∀ p d, st.dist p = some d → d < reachedCount N st
  items_dist : ∀ a ∈ C.items st.frontier, ∃ d, st.dist (pos a) = some d ∧ d ≤ gOf a
  items_mk : ∀ a ∈ C.items st.frontier, a = mk (pos a) (gOf a)
  items_walk : ∀ a ∈ C.items st.frontier, Walk N g0 s (pos a) (gOf a)
  items_lt : ∀ a ∈ C.items st.frontier, gOf a < reachedCount N st
  grid_eq : ∀ p, st.grid p =
    if (st.dist p).isSome = true ∧ p ≠ s then visTag (g0 p) else g0 p

/-- What the loop knows of the entry `(cur, gcur)` it popped: the stored
distance of `cur` is at most `gcur`, and a walk of `gcur` steps reaches
`cur`. -/
structure CurOK (N : Nat) (g0 : Grid) (s : Pos) {σ : Type} (st : DState σ) (cur : Pos)
    (gcur : Nat) : Prop where
  dist_le : ∃ d, st.dist cur = some d ∧ d ≤ gcur
  walk : Walk N g0 s cur gcur
  lt : gcur < reachedCount N st

/-- The state right after `pq.pop()` took the entry `a` and left `rest`. -/
def popD (pos : α → Pos) (st : DState C.σ) (a : α) (rest : C.σ) : DState C.σ :=
  { st with frontier := rest, trace := st.trace ++ [Event.pop (pos a)] }

/-- The state after one turn of the loop that popped `a`, not the end cell:
the entry is skipped when the loop has the stale test and the entry fails it,
else its neighbours are gone through. -/
def nextD (N : Nat) (C : Container α) (mk : Pos → Nat → α) (pos : α → Pos) (gOf : α → Nat)
    (stale : Bool) (st : DState C.σ) (a : α) (rest : C.σ) : DState C.σ :=
  if (stale && gtInf (gOf a) (st.dist (pos a))) = true then popD pos st a rest
  else dirs4.foldl (relax N C mk (pos a) (gOf a)) (popD pos st a rest)

/-- The weight of a stored distance in the measure: `INFINITY` weighs `N * N`,
more than any distance the loop stores. -/
def distWeight (N : Nat) (o : Option Nat) : Nat :=
  match o with
  | none => N * N
  | some d => d

/-- The sum of the weights of the stored distances over the grid. -/
def potential (N : Nat) {σ : Type} (st : DState σ) : Nat :=
  ∑ p in cells N, distWeight N (st.dist p)

/-- The measure that every turn of the loop lowers: twice the potential plus
the size of the queue. -/
def measureD (N : Nat) (C : Container α) (st : DState C.σ) : Nat :=
  2 * potential N st + (C.items st.frontier).length

/-- What the trace of a run of `dijkstra` or `aStar` looks like while the loop
runs: the pushed cells are the cells with a distance below `INFINITY`, every
push but the first went with a visual update, no cell is tagged `Path`. -/
structure DTrace {σ : Type} (s : Pos) (st : DState σ) : Prop where
  pushes : ∀ p, p ∈ pushedCells st.trace ↔ (st.dist p).isSome = true
  visuals : pushedCells st.trace = s :: visualCells st.trace
  no_path : pathCells st.trace = []
  paired : Paired st.trace

/-- Every neighbour of `v` that the search may step on has a stored distance
of at most `d + 1`. -/
def Settled (N : Nat) (g0 : Grid) {σ : Type} (st : DState σ) (v : Pos) (d : Nat) : Prop :=
  ∀ n, manhattan v n = 1 → inBounds N n → g0 n ≠ CellType.Wall →
    ∃ d', st.dist n = some d' ∧ d' ≤ d + 1

/-- The frontier property of `dijkstra` and `aStar`: a cell whose stored
distance `d` is the length of a shortest walk has an entry `(v, d)` in the
queue, or is the entry `c` being expanded, or has all its neighbours within
`d + 1`; and `e`, once it has a distance, keeps an entry in the queue (the
loop exits when it pops one). -/
structure DClosure (N : Nat) (C : Container α) (pos : α → Pos) (gOf : α → Nat) (g0 : Grid)
    (s e : Pos) (c : Option (Pos × Nat)) (st : DState C.σ) : Prop where
  closed : ∀ v d, st.dist v = some d → (∀ j, Walk N g0 s v j → d ≤ j) →
    (∃ a ∈ C.items st.frontier, pos a = v ∧ gOf a = d) ∨ c = some (v, d) ∨
      Settled N g0 st v d
  end_item : (st.dist e).isSome = true → ∃ a ∈ C.items st.frontier, pos a = e

/-- The rank of a cell for the chain of parent links: its stored distance. -/
def rankD {σ : Type} (st : DState σ) (p : Pos) : Nat := (st.dist p).getD 0

/-- What a run of `dijkstra` or `aStar` returns, told through the state `stF`
in which the loop made its last test; `X` is any further invariant of the
loop.  Either the queue was empty and the verdict is `false`, or an entry of
`endPos` was popped, `reconstructPath` tagged the chain of parent links from
`endPos`, and the verdict is `true`. -/
def DResult (N : Nat) (C : Container α) (mk : Pos → Nat → α) (pos : α → Pos) (gOf : α → Nat)
    (g0 : Grid) (s e : Pos) (X : DState C.σ → Prop) (r : Bool × DState C.σ) : Prop :=
  ∃ stF, DInv N C mk pos gOf g0 s stF ∧ DTrace s stF ∧
    DClosure N C pos gOf g0 s e none stF ∧ X stF ∧
    ((C.items stF.frontier = [] ∧ r = (false, stF)) ∨
     ((∃ a rest, C.pop stF.frontier = some (a, rest) ∧ pos a = e) ∧
      (stF.dist e).isSome = true ∧ r.1 = true ∧ r.2.dist = stF.dist ∧
      r.2.parent = stF.parent ∧
      r.2.trace = stF.trace ++ [Event.pop e] ++
        (chainOf stF.parent s (rankD stF e) e).map Event.path ∧
      ∀ p, r.2.grid p =
        if p ∈ chainOf stF.parent s (rankD stF e) e then CellType.Path else stF.grid p))

/-- The 5 x 5 grid of the first scenario: `Start` at `(0, 0)`, `End` at
`(4, 4)`, every other cell `Empty`. -/
def gridOpen5 : Grid := fun p =>
  if p = (0, 0) then CellType.Start else if p = (4, 4) then CellType.End else CellType.Empty

/-- The 5 x 5 grid of the second scenario: `Start` at `(0, 0)`, `End` at
`(4, 4)`, a column of `Wall` cells at `x = 2` with the single gap `(2, 2)`. -/
def gridGap5 : Grid := fun p =>
  if p = (0, 0) then CellType.Start
  else if p = (4, 4) then CellType.End
  else if p.1 = 2 ∧ p.2 ≠ 2 then CellType.Wall
  else CellType.Empty

/-- The 5 x 5 grid with the end cell `(4, 4)` walled in: `Start` at `(0, 0)`,
`Wall` at `(3, 4)` and `(4, 3)`. -/
def gridEnclosed5 : Grid := fun p =>
  if p = (0, 0) then CellType.Start
  else if p = (4, 4) then CellType.End
  else if p = (3, 4) ∨ p = (4, 3) then CellType.Wall
  else CellType.Empty

/-- The tag of a cell after a run, when the run returns. -/
def tagOf (r : Except Fault Outcome) (p : Pos) : Option CellType :=
  match r with
  | .ok o => some (o.grid p)
  | .error _ => none

/-- A grid of the size of the source with `Start` at `(0, 0)` and `End` right
next to it at `(1, 0)`, every other cell `Empty`. -/
def gridAdjacent : Grid := fun p =>
  if p = (0, 0) then CellType.Start else if p = (1, 0) then CellType.End else CellType.Empty

/-- A grid of the size of the source with `Start` at `(0, 0)`, walls at
`(2, 0)`, `(0, 1)` and `(1, 1)`, every other cell `Empty`; no cell is tagged
`End`. -/
def gridNoEnd : Grid := fun p =>
  if p = (0, 0) then CellType.Start
  else if p = (2, 0) ∨ p = (0, 1) ∨ p = (1, 1) then CellType.Wall
  else CellType.Empty

/-- The cell met after following `k` parent links from `e`:
`parent[...parent[e]...]`, read `k` times. -/
def chainCell (parent : Pos → Pos) (e : Pos) (k : Nat) : Pos := parent^[k] e

/-- The chain of parent links from `e` reaches `s`, and every cell met before
`s` lies inside the grid (so the matrix is only read at indices it has). -/
def ReachesStart (N : Nat) (parent : Pos → Pos) (s e : Pos) : Prop :=
  ∃ k, chainCell parent e k = s ∧ ∀ j, j < k → inBounds N (chainCell parent e j)

/-- The chain of parent links from `e` meets the sentinel `(-1, -1)` before it
meets `s`. -/
def MeetsSentinel (parent : Pos → Pos) (s e : Pos) : Prop :=
  ∃ k, chainCell parent e k = noParent ∧ ∀ j, j ≤ k → chainCell parent e j ≠ s

/-- The chain of parent links from `e` comes back to a cell it has met, before
it meets `s`. -/
def MeetsCycle (parent : Pos → Pos) (s e : Pos) : Prop :=
  ∃ i k, i < k ∧ chainCell parent e i = chainCell parent e k ∧
    ∀ j, j ≤ k → chainCell parent e j ≠ s

/-- A grid of the size of the source on which `greedy` takes a detour: `Start`
at `(0, 2)`, `End` at `(3, 1)`, walls at `(0, 0)` and `(2, 1)`, and the column
`x = 4` and the row `y = 3` walled, so that the search stays in a 4 x 3
corner:
```
y = 0:   W . . .
y = 1:   . . W E
y = 2:   S . . .
``` -/
def gridDetour : Grid := fun p =>
  if p = (0, 2) then CellType.Start
  else if p = (3, 1) then CellType.End
  else if p.1 = 4 ∨ p.2 = 3 ∨ p = (0, 0) ∨ p = (2, 1) then CellType.Wall
  else CellType.Empty

/-- The bound kept by the loop of `dijkstra` and `aStar`: every push lowers
the potential, so the number of pushes plus the potential stays below the
potential of a fresh `dist` matrix plus one. -/
def PushBound (N : Nat) {σ : Type} (st : DState σ) : Prop :=
  (pushedCells st.trace).length + potential N st ≤ N * N * (N * N) + 1

/-- The number of entries that a run leaves on its frontier when it
returns. -/
def frontierLeft (algo : Algorithm) (N : Nat) (pq : MinQueue Node nodeGt) (g : Grid)
    (startPos endPos : Pos) : Option Nat :=
  match algo with
  | Algorithm.BFS =>
    match BFS N g startPos endPos with
    | .ok r => some (fifo.items r.2.frontier).length
    | .error _ => none
  | Algorithm.DFS =>
    match DFS N g startPos endPos with
    | .ok r => some (lifo.items r.2.frontier).length
    | .error _ => none
  | Algorithm.AStar =>
    match aStar N pq g startPos endPos with
    | .ok r => some (pq.items r.2.frontier).length
    | .error _ => none
  | Algorithm.Dijkstra =>
    match dijkstra N g startPos endPos with
    | .ok r => some (pairPQ.items r.2.frontier).length
    | .error _ => none
  | Algorithm.Greedy =>
    match greedy N g startPos endPos with
    | .ok r => some (pairPQ.items r.2.frontier).length
    | .error _ => none

/-- The position `pos` and the cells tagged `T` agree: either `pos` is unset
and no cell of the grid is tagged `T`, or `pos` lies in the grid and is the
only cell tagged `T`. -/
def TagInv (N : Nat) (g : Grid) (T : CellType) (pos : Pos) : Prop :=
  (pos = (-1, -1) ∧ ∀ p, inBounds N p → g p ≠ T) ∨
  (inBounds N pos ∧ ∀ p, inBounds N p → (g p = T ↔ p = pos))

/-- The invariant of the editor: `startPos` agrees with the cells tagged
`Start`, and `endPos` with the cells tagged `End`. -/
def EditorInv (N : Nat) (ed : Editor) : Prop :=
  TagInv N ed.grid CellType.Start ed.startPos ∧ TagInv N ed.grid CellType.End ed.endPos

/-- An editor state on the grid of the source: nothing placed yet. -/
def editorEmpty : Editor :=
  { grid := fun _ => CellType.Empty, startPos := (-1, -1), endPos := (-1, -1),
    currentState := State.IDLE }

/-- What the loop of `BFS`, `DFS` and `greedy` keeps when the end cell `e`
lies next to the start cell `s`: either no cell but `s` is marked yet, or `e`
is marked with `s` as parent. -/
def NearV (s e : Pos) {σ : Type} (st : VState σ) : Prop :=
  (∀ p, st.visited p = true → p = s) ∨ (st.visited e = true ∧ st.parent e = s)

/-- What the loop of `greedy` keeps when the end cell `e` lies next to the
start cell `s`: the entries of the queue carry the heuristic of their cell,
the marked cells are `s` and neighbours of `s`, and once a cell other than `s`
is marked the queue holds an entry of `e`. -/
def NearG (s e : Pos) (st : VState pairPQ.σ) : Prop :=
  (∀ a ∈ pairPQ.items st.frontier, a.1 = manhattan a.2 e) ∧
  (∀ p, st.visited p = true → p = s ∨ manhattan s p = 1) ∧
  ((∀ p, st.visited p = true → p = s) ∨ ∃ b ∈ pairPQ.items st.frontier, b.2 = e)

/-- What the loop of `aStar` keeps when the end cell `e` lies next to the
start cell `s`: the cells with a distance are `s` and neighbours of `s`; and
either only `s` has a distance and every entry of the open set has `g = 0`, or
the open set holds an entry of `e` with `g = 1`. -/
def NearD (s e : Pos) (C : Container α) (pos : α → Pos) (gOf : α → Nat) (st : DState C.σ) :
    Prop :=
  (∀ p, (st.dist p).isSome = true → p = s ∨ manhattan s p = 1) ∧
  (((∀ p, (st.dist p).isSome = true → p = s) ∧ ∀ a ∈ C.items st.frontier, gOf a = 0) ∨
    ∃ b ∈ C.items st.frontier, pos b = e ∧ gOf b = 1)

/-- A 3 x 3 grid with `Start` at `(1, 0)` and `End` right next to it at
`(0, 0)`, every other cell `Empty`. -/
def gridAdjacentLeft : Grid := fun p =>
  if p = (1, 0) then CellType.Start else if p = (0, 0) then CellType.End else CellType.Empty

/-- What the loop of `aStar` keeps about the end cell `e`: no stored distance
exceeds the length of a walk from the start cell to `e`, and when `e` has a
stored distance the open set holds an entry of `e` with that distance. -/
def EndBound (N : Nat) (g0 : Grid) (s e : Pos) (C : Container α) (pos : α → Pos)
    (gOf : α → Nat) (st : DState C.σ) : Prop :=
  (∀ p d, st.dist p = some d → ∀ j, Walk N g0 s e j → d ≤ j) ∧
  (∀ d, st.dist e = some d → ∃ b ∈ C.items st.frontier, pos b = e ∧ gOf b = d)

/-- The cells of the grid that carry the tag `Visited` or `Path` after a
run. -/
def taggedCells (N : Nat) (r : Outcome) : Finset Pos :=
  (cells N).filter (fun p => r.grid p = CellType.Visited ∨ r.grid p = CellType.Path)

/-- The states in which the loop of `dijkstra` or `aStar` makes its test
`while (!pq.empty())` in the run on the grid `g` from `s` to `e`: the state in
which the loop is entered, and the state after every turn that popped an entry
of a cell other than `e`. -/
inductive LoopHead (N : Nat) (C : Container α) (mk : Pos → Nat → α) (pos : α → Pos)
    (gOf : α → Nat) (stale : Bool) (g : Grid) (s e : Pos) : DState C.σ → Prop
  | init : LoopHead N C mk pos gOf stale g s e (relaxInit C mk g s)
  | turn {st : DState C.σ} {a : α} {rest : C.σ} :
      LoopHead N C mk pos gOf stale g s e st → C.pop st.frontier = some (a, rest) →
      pos a ≠ e → LoopHead N C mk pos gOf stale g s e (nextD N C mk pos gOf stale st a rest)

/-- What the loop of `dijkstra` keeps: no stored distance exceeds the length
of a walk to its cell, every entry of the queue carries the stored distance of
its cell, and no cell was pushed twice. -/
def Exact (N : Nat) (g0 : Grid) (s : Pos) (C : Container α) (pos : α → Pos) (gOf : α → Nat)
    (st : DState C.σ) : Prop :=
  (∀ p d, st.dist p = some d → ∀ j, Walk N g0 s p j → d ≤ j) ∧
  (∀ a ∈ C.items st.frontier, st.dist (pos a) = some (gOf a)) ∧
  (pushedCells st.trace).Nodup

/-- The cells pushed so far were pushed in the order of their depth. -/
def PushSorted (depth : Pos → Nat) {σ : Type} (st : VState σ) : Prop :=
  List.Pairwise (fun a b => depth a ≤ depth b) (pushedCells st.trace)

end Notions

/-! ## Priority queues kept as lists -/

theorem minOf_mem {α : Type} (gt : α → α → Bool) (m : α) (l : List α) :
    minOf gt m l ∈ m :: l := by
  induction l generalizing m with
  | nil => simp [minOf]
  | cons b l ih =>
    unfold minOf
    split
    · exact List.mem_cons_of_mem _ (ih b)
    · rcases List.mem_cons.mp (ih m) with h | h
      · rw [h]; exact List.mem_cons_self _ _
      · exact List.mem_cons_of_mem _ (List.mem_cons_of_mem _ h)

theorem minOf_le {α : Type} (gt : α → α → Bool)
    (htotal : ∀ a b, gt a b = true → gt b a = false)
    (htrans : ∀ a b c, gt a b = false → gt b c = false → gt a c = false)
    (m : α) (l : List α) : ∀ b ∈ m :: l, gt (minOf gt m l) b = false := by
  induction l generalizing m with
  | nil =>
    intro b hb
    have hb' : b = m := by simpa using hb
    subst hb'
    cases h : gt b b
    · simpa [minOf] using h
    · have := htotal b b h; rw [h] at this; cases this
  | cons c l ih =>
    intro b hb
    unfold minOf
    split
    · rename_i hmc
      have hcm : gt c m = false := htotal m c hmc
      rcases List.mem_cons.mp hb with h | h
      · subst h
        exact htrans _ _ _ (ih c c (List.mem_cons_self _ _)) hcm
      · exact ih c b h
    · rename_i hmc
      have hmc' : gt m c = false := by simpa using hmc
      rcases List.mem_cons.mp hb with h | h
      · subst h; exact ih b b (List.mem_cons_self _ _)
      · rcases List.mem_cons.mp h with h | h
        · subst h
          exact htrans _ _ _ (ih m m (List.mem_cons_self _ _)) hmc'
        · exact ih m b (List.mem_cons_of_mem _ h)

theorem pairGt_total (a b : Nat × Pos) : pairGt a b = true → pairGt b a = false := by
  unfold pairGt
  simp only [decide_eq_true_eq, decide_eq_false_iff_not]
  omega

theorem pairGt_trans (a b c : Nat × Pos) :
    pairGt a b = false → pairGt b c = false → pairGt a c = false := by
  unfold pairGt
  simp only [decide_eq_false_iff_not]
  omega

theorem nodeGt_total (a b : Node) : nodeGt a b = true → nodeGt b a = false := by
  unfold nodeGt
  simp only [decide_eq_true_eq, decide_eq_false_iff_not]
  omega

theorem nodeGt_trans (a b c : Node) :
    nodeGt a b = false → nodeGt b c = false → nodeGt a c = false := by
  unfold nodeGt
  simp only [decide_eq_false_iff_not]
  omega

/-! ## Elementary facts -/

@[simp] theorem setAt_same {α : Type} (m : Pos → α) (p : Pos) (v : α) : setAt m p v p = v := by
  simp [setAt]

theorem setAt_other {α : Type} (m : Pos → α) (p q : Pos) (v : α) (h : q ≠ p) :
    setAt m p v q = m q := by
  simp [setAt, h]

theorem setAt_apply {α : Type} (m : Pos → α) (p q : Pos) (v : α) :
    setAt m p v q = if q = p then v else m q := rfl

theorem orthoDeltas_eq : orthoDeltas = dirs4 := by decide

theorem aStarDeltas_eq : aStarDeltas = dirs4 := by decide

theorem manhattan_comm (p q : Pos) : manhattan p q = manhattan q p := by
  unfold manhattan; omega

theorem manhattan_self (p : Pos) : manhattan p p = 0 := by
  unfold manhattan; simp

theorem manhattan_eq_zero {p q : Pos} (h : manhattan p q = 0) : p = q := by
  unfold manhattan at h
  have h1 : p.1 = q.1 := by omega
  have h2 : p.2 = q.2 := by omega
  exact Prod.ext h1 h2

theorem manhattan_triangle (p q r : Pos) : manhattan p r ≤ manhattan p q + manhattan q r := by
  unfold manhattan; omega

/-- A step by one of the four deltas lands on an orthogonal neighbour. -/
theorem manhattan_step {c : Pos} {d : Int × Int} (hd : d ∈ dirs4) :
    manhattan c (c.1 + d.1, c.2 + d.2) = 1 := by
  simp only [dirs4, List.mem_cons, List.mem_singleton, List.not_mem_nil, or_false] at hd
  unfold manhattan
  rcases hd with h | h | h | h <;> subst h <;> simp

/-- Every orthogonal neighbour is reached by one of the four deltas. -/
theorem exists_delta {c n : Pos} (h : manhattan c n = 1) :
    ∃ d ∈ dirs4, n = (c.1 + d.1, c.2 + d.2) := by
  unfold manhattan at h
  have hx : n.1 = c.1 - 1 ∧ n.2 = c.2 ∨ n.1 = c.1 ∧ n.2 = c.2 - 1 ∨
      n.1 = c.1 ∧ n.2 = c.2 + 1 ∨ n.1 = c.1 + 1 ∧ n.2 = c.2 := by omega
  rcases hx with ⟨h1, h2⟩ | ⟨h1, h2⟩ | ⟨h1, h2⟩ | ⟨h1, h2⟩
  · exact ⟨(-1, 0), by simp [dirs4], Prod.ext (by simp; omega) (by simp; omega)⟩
  · exact ⟨(0, -1), by simp [dirs4], Prod.ext (by simp; omega) (by simp; omega)⟩
  · exact ⟨(0, 1), by simp [dirs4], Prod.ext (by simp; omega) (by simp; omega)⟩
  · exact ⟨(1, 0), by simp [dirs4], Prod.ext (by simp; omega) (by simp; omega)⟩

theorem noParent_not_inBounds (N : Nat) : ¬ inBounds N noParent := by
  unfold inBounds noParent; simp

theorem updateVisual_apply (g : Grid) (p q : Pos) :
    updateVisual g p q = if q = p then visTag (g p) else g q := by
  unfold updateVisual visTag setAt
  rfl

/-- The visual update as the source writes it: the grid changes only when the
tag is neither `Start` nor `End`. -/
theorem updateVisual_eq (g : Grid) (p : Pos) :
    updateVisual g p =
      if g p ≠ CellType.Start ∧ g p ≠ CellType.End then setAt g p CellType.Visited else g := by
  funext q
  rw [updateVisual_apply]
  unfold visTag
  by_cases hq : q = p
  · subst hq
    by_cases hc : g q ≠ CellType.Start ∧ g q ≠ CellType.End
    · simp [hc]
    · simp [hc]
  · by_cases hc : g p ≠ CellType.Start ∧ g p ≠ CellType.End
    · simp [hc, hq, setAt_other]
    · simp [hc, hq]

theorem visTag_ne_wall (t : CellType) : visTag t ≠ CellType.Wall := by
  cases t <;> simp [visTag]

theorem visTag_idem (t : CellType) : visTag (visTag t) = visTag t := by
  cases t <;> simp [visTag]

theorem mem_cells {N : Nat} {p : Pos} : p ∈ cells N ↔ inBounds N p := by
  unfold cells inBounds
  simp only [Finset.mem_product, Finset.mem_Ico]
  tauto

theorem card_cells (N : Nat) : (cells N).card = N * N := by
  unfold cells
  simp [Finset.card_product]

/-- Marking one more cell of the grid strictly grows the set of marked cells. -/
theorem card_filter_lt_of_new {N : Nat} (P Q : Pos → Prop) [DecidablePred P] [DecidablePred Q]
    (n : Pos) (hn : inBounds N n) (hP : ¬ P n) (hQ : Q n) (hmono : ∀ p, P p → Q p) :
    ((cells N).filter P).card < ((cells N).filter Q).card := by
  apply Finset.card_lt_card
  rw [Finset.ssubset_iff_of_subset]
  · exact ⟨n, by simp [mem_cells, hn, hQ], by simp [hP]⟩
  · intro p hp
    simp only [Finset.mem_filter] at hp ⊢
    exact ⟨hp.1, hmono p hp.2⟩

theorem card_filter_le_cells (N : Nat) (P : Pos → Prop) [DecidablePred P] :
    ((cells N).filter P).card ≤ N * N := by
  rw [← card_cells]
  exact Finset.card_filter_le _ _

/-! ## Parent chains and `reconstructPath` -/

section Chain
variable {N : Nat} {parent : Pos → Pos} {s : Pos} {good : Pos → Prop} {rank : Pos → Nat}

theorem chainOf_start (k : Nat) : chainOf parent s k s = [] := by
  cases k <;> simp [chainOf]

theorem chainOf_agree (h : ChainOK N parent s good rank) :
    ∀ k j p, good p → rank p ≤ k → rank p ≤ j →
      chainOf parent s k p = chainOf parent s j p := by
  intro k
  induction k with
  | zero =>
    intro j p hp hk _
    have hps : p = s := by
      by_contra hne
      have := (h.step p hp hne).2.2
      omega
    subst hps
    rw [chainOf_start, chainOf_start]
  | succ k ih =>
    intro j p hp hk hj
    by_cases hps : p = s
    · subst hps; rw [chainOf_start, chainOf_start]
    · obtain ⟨_, hgp, hlt⟩ := h.step p hp hps
      obtain ⟨r, hr⟩ : ∃ r, j = r + 1 := ⟨j - 1, by omega⟩
      subst hr
      simp only [chainOf, hps, if_false]
      rw [ih r (parent p) hgp (by omega) (by omega)]

theorem chainOf_stable (h : ChainOK N parent s good rank) (k : Nat) (p : Pos) (hp : good p)
    (hk : rank p ≤ k) : chainOf parent s k p = chainOf parent s (rank p) p :=
  chainOf_agree h k (rank p) p hp hk (le_refl _)

/-- The chain of a good cell, cut at its rank, unfolds by one parent link. -/
theorem chainOf_rank_cons (h : ChainOK N parent s good rank) {p : Pos} (hp : good p)
    (hps : p ≠ s) :
    chainOf parent s (rank p) p = p :: chainOf parent s (rank (parent p)) (parent p) := by
  obtain ⟨_, hgp, hlt⟩ := h.step p hp hps
  obtain ⟨r, hr⟩ : ∃ r, rank p = r + 1 := ⟨rank p - 1, by omega⟩
  rw [hr]
  simp only [chainOf, hps, if_false]
  rw [chainOf_stable h r (parent p) hgp (by omega)]

theorem chainOf_mem (h : ChainOK N parent s good rank) :
    ∀ k p, good p → ∀ q ∈ chainOf parent s k p, good q ∧ q ≠ s ∧ rank q ≤ rank p := by
  intro k
  induction k with
  | zero => intro p _ q hq; simp [chainOf] at hq
  | succ k ih =>
    intro p hp q hq
    by_cases hps : p = s
    · simp [chainOf, hps] at hq
    · simp only [chainOf, hps, if_false, List.mem_cons] at hq
      obtain ⟨_, hgp, hlt⟩ := h.step p hp hps
      rcases hq with rfl | hq
      · exact ⟨hp, hps, le_refl _⟩
      · obtain ⟨h1, h2, h3⟩ := ih (parent p) hgp q hq
        exact ⟨h1, h2, by omega⟩

theorem chainOf_nodup (h : ChainOK N parent s good rank) :
    ∀ k p, good p → (chainOf parent s k p).Nodup := by
  intro k
  induction k with
  | zero => intro p _; simp [chainOf]
  | succ k ih =>
    intro p hp
    by_cases hps : p = s
    · simp [chainOf, hps]
    · simp only [chainOf, hps, if_false, List.nodup_cons]
      obtain ⟨_, hgp, hlt⟩ := h.step p hp hps
      refine ⟨?_, ih (parent p) hgp⟩
      intro hmem
      have := (chainOf_mem h k (parent p) hgp p hmem).2.2
      omega

theorem chainOf_length_le (parent : Pos → Pos) (s : Pos) (k : Nat) (p : Pos) :
    (chainOf parent s k p).length ≤ k := by
  induction k generalizing p with
  | zero => simp [chainOf]
  | succ k ih =>
    by_cases hps : p = s
    · simp [chainOf, hps]
    · simp only [chainOf, hps, if_false, List.length_cons]
      have := ih (parent p)
      omega

/-- Consecutive cells of a chain are linked by `parent`, and the parent of
the last one is `s`. -/
theorem chainOf_links (h : ChainOK N parent s good rank) :
    ∀ k p, good p → rank p ≤ k →
      List.Chain' (fun a b => b = parent a) (chainOf parent s k p) ∧
      (∀ l ∈ (chainOf parent s k p).getLast?, parent l = s) ∧
      (∀ f ∈ (chainOf parent s k p).head?, f = p) := by
  intro k
  induction k with
  | zero => intro p _ _; simp [chainOf]
  | succ k ih =>
    intro p hp hk
    by_cases hps : p = s
    · simp [chainOf, hps]
    · simp only [chainOf, hps, if_false]
      obtain ⟨_, hgp, hlt⟩ := h.step p hp hps
      obtain ⟨h1, h2, h3⟩ := ih (parent p) hgp (by omega)
      refine ⟨?_, ?_, by simp⟩
      · rw [List.chain'_cons']
        exact ⟨fun y hy => h3 y hy, h1⟩
      · intro l hl
        cases hc : chainOf parent s k (parent p) with
        | nil =>
          rw [hc] at hl
          simp at hl
          subst hl
          by_contra hne
          obtain ⟨_, _, hlt2⟩ := h.step (parent p) hgp hne
          obtain ⟨r, hr⟩ : ∃ r, k = r + 1 := ⟨k - 1, by omega⟩
          subst hr
          simp [chainOf, hne] at hc
        | cons c rest =>
          rw [hc] at hl
          rw [List.getLast?_cons_cons] at hl
          exact h2 l (by rw [hc]; exact hl)

/-- The loop of `reconstructPath` on sound parent links: from a good cell
whose rank the fuel covers it returns, having tagged exactly the chain. -/
theorem reconstructLoop_ok (h : ChainOK N parent s good rank) :
    ∀ fuel cur g acc, good cur → rank cur ≤ fuel →
      ∃ g', reconstructLoop N parent s fuel cur g acc
          = .ok (g', acc ++ chainOf parent s (rank cur) cur) ∧
        ∀ p, g' p = if p ∈ chainOf parent s (rank cur) cur then CellType.Path else g p := by
  intro fuel
  induction fuel with
  | zero =>
    intro cur g acc hc hr
    have hr0 : rank cur = 0 := by omega
    have hcs : cur = s := by
      by_contra hne
      have := (h.step cur hc hne).2.2
      omega
    subst hcs
    exact ⟨g, by simp [reconstructLoop, chainOf_start], by simp [chainOf_start]⟩
  | succ fuel ih =>
    intro cur g acc hc hr
    by_cases hcs : cur = s
    · subst hcs
      exact ⟨g, by simp [reconstructLoop, chainOf_start], by simp [chainOf_start]⟩
    · obtain ⟨hin, hgp, hlt⟩ := h.step cur hc hcs
      obtain ⟨g', hg1, hg2⟩ := ih (parent cur) (setAt g cur CellType.Path) (acc ++ [cur]) hgp
        (by omega)
      refine ⟨g', ?_, ?_⟩
      · simp only [reconstructLoop, hcs, if_false, hin, if_true]
        rw [hg1, chainOf_rank_cons h hc hcs]
        simp
      · intro p
        rw [hg2 p, chainOf_rank_cons h hc hcs]
        by_cases hpc : p = cur
        · subst hpc; simp
        · simp [hpc, setAt_other]

end Chain

/-! ## BFS, DFS, greedy: the structural invariant -/

section Visited
variable {α : Type} {N : Nat} {C : Container α} {mk : Pos → α} {pos : α → Pos}

theorem discover_pos {cur : Pos} {st : VState C.σ} {d : Int × Int}
    (hc : fresh N st (cur.1 + d.1, cur.2 + d.2)) :
    discover N C mk cur st d =
      { grid := updateVisual st.grid (cur.1 + d.1, cur.2 + d.2)
        frontier := C.push st.frontier (mk (cur.1 + d.1, cur.2 + d.2))
        visited := setAt st.visited (cur.1 + d.1, cur.2 + d.2) true
        parent := setAt st.parent (cur.1 + d.1, cur.2 + d.2) cur
        trace := st.trace ++ [Event.push (cur.1 + d.1, cur.2 + d.2),
          Event.visual (cur.1 + d.1, cur.2 + d.2)] } := by
  unfold fresh at hc
  unfold discover
  simp only [hc, ne_eq, not_false_eq_true, and_self, if_true]

theorem discover_neg {cur : Pos} {st : VState C.σ} {d : Int × Int}
    (hc : ¬ fresh N st (cur.1 + d.1, cur.2 + d.2)) :
    discover N C mk cur st d = st := by
  unfold fresh at hc
  unfold discover
  simp only [ne_eq]
  rw [if_neg]
  simpa using hc

theorem fresh_facts {g0 : Grid} {s : Pos} {depth : Pos → Nat} {st : VState C.σ}
    (h : VInv N C pos g0 s depth st) {n : Pos} (hc : fresh N st n) :
    inBounds N n ∧ st.visited n = false ∧ g0 n ≠ CellType.Wall ∧ n ≠ s := by
  obtain ⟨h1, h2, h3⟩ := hc
  have hns : n ≠ s := by
    intro e; rw [e, h.vis_start] at h2; cases h2
  refine ⟨h1, h2, ?_, hns⟩
  have := h.grid_eq n
  rw [h2] at this
  simp at this
  rwa [this] at h3

theorem visitedCount_lt (st st' : VState C.σ) {n : Pos} (hn : inBounds N n)
    (hv : st.visited n = false)
    (hst : st'.visited = setAt st.visited n true) :
    visitedCount N st < visitedCount N st' := by
  unfold visitedCount
  apply card_filter_lt_of_new _ _ n hn
  · simp [hv]
  · simp [hst]
  · intro p hp
    rw [hst, setAt_apply]
    split
    · rfl
    · exact hp

/-- One turn of the neighbour loop keeps the structural invariant. -/
theorem discover_inv (hpos : ∀ p, pos (mk p) = p) {g0 : Grid} {s : Pos} {depth : Pos → Nat}
    {st : VState C.σ} (h : VInv N C pos g0 s depth st) {cur : Pos}
    (hcur : st.visited cur = true) {d : Int × Int} (hd : d ∈ dirs4) :
    VInv N C pos g0 s (stepDepth N cur st depth d) (discover N C mk cur st d) := by
  by_cases hc : fresh N st (cur.1 + d.1, cur.2 + d.2)
  · obtain ⟨hin, hv, hw, hns⟩ := fresh_facts h hc
    have hnc : (cur.1 + d.1, cur.2 + d.2) ≠ cur := by
      intro e; rw [e, hcur] at hv; cases hv
    have hK := visitedCount_lt st (discover N C mk cur st d) hin hv
      (by rw [discover_pos hc])
    rw [discover_pos hc] at hK ⊢
    unfold stepDepth
    rw [if_pos hc]
    generalize hnd : (cur.1 + d.1, cur.2 + d.2) = n at *
    have hadj : manhattan cur n = 1 := by rw [← hnd]; exact manhattan_step hd
    constructor
    · exact h.start_inb
    · show setAt st.visited n true s = true
      rw [setAt_apply]; split
      · rfl
      · exact h.vis_start
    · rw [setAt_other _ _ _ _ (Ne.symm hns)]; exact h.depth_start
    · intro p hp
      show setAt st.parent n cur p = noParent
      have hpn : p ≠ n := by
        rcases hp with hp | hp
        · intro e; rw [e] at hp
          simp at hp
        · rw [hp]; exact Ne.symm hns
      rw [setAt_other _ _ _ _ hpn]
      apply h.par_none
      rcases hp with hp | hp
      · left
        change setAt st.visited n true p = false at hp
        rwa [setAt_other _ _ _ _ hpn] at hp
      · right; exact hp
    · intro p hp
      change setAt st.visited n true p = true at hp
      by_cases hpn : p = n
      · rw [hpn]; exact hin
      · rw [setAt_other _ _ _ _ hpn] at hp
        exact h.vis_inb p hp
    · intro p hp hps
      change setAt st.visited n true p = true at hp
      show setAt st.visited n true (setAt st.parent n cur p) = true ∧
        manhattan (setAt st.parent n cur p) p = 1 ∧ g0 p ≠ CellType.Wall ∧
        setAt depth n (depth cur + 1) p
          = setAt depth n (depth cur + 1) (setAt st.parent n cur p) + 1
      by_cases hpn : p = n
      · rw [hpn]
        simp only [setAt_same]
        rw [setAt_other _ _ _ _ (Ne.symm hnc), setAt_other _ _ _ _ (Ne.symm hnc)]
        exact ⟨hcur, hadj, hw, rfl⟩
      · rw [setAt_other _ _ _ _ hpn] at hp
        obtain ⟨h1, h2, h3, h4⟩ := h.vis_par p hp hps
        have hppn : st.parent p ≠ n := by
          intro e; rw [e, hv] at h1; cases h1
        rw [setAt_other _ _ _ _ hpn, setAt_other _ _ _ _ hppn, setAt_other _ _ _ _ hpn,
          setAt_other _ _ _ _ hppn]
        exact ⟨h1, h2, h3, h4⟩
    · intro a ha
      show setAt st.visited n true (pos a) = true
      have := (C.items_push st.frontier (mk n)).mem_iff.mp ha
      rcases List.mem_cons.mp this with e | hmem
      · rw [e, hpos, setAt_same]
      · rw [setAt_apply]; split
        · rfl
        · exact h.items_vis a hmem
    · intro p
      show updateVisual st.grid n p = if setAt st.visited n true p = true ∧ p ≠ s
        then visTag (g0 p) else g0 p
      rw [updateVisual_apply]
      by_cases hpn : p = n
      · rw [hpn]
        have := h.grid_eq n
        rw [hv] at this
        simp at this
        simp [hns, this]
      · rw [if_neg hpn, setAt_other _ _ _ _ hpn]
        exact h.grid_eq p
    · intro p hp
      change setAt st.visited n true p = true at hp
      by_cases hpn : p = n
      · rw [hpn, setAt_same]
        have := h.depth_lt cur hcur
        omega
      · rw [setAt_other _ _ _ _ hpn] at hp ⊢
        have := h.depth_lt p hp
        omega
  · rw [discover_neg hc]
    unfold stepDepth
    rw [if_neg hc]
    exact h

theorem discover_visited_mono {cur : Pos} {st : VState C.σ} {d : Int × Int} {p : Pos}
    (hp : st.visited p = true) : (discover N C mk cur st d).visited p = true := by
  by_cases hc : fresh N st (cur.1 + d.1, cur.2 + d.2)
  · rw [discover_pos hc]
    show setAt st.visited _ true p = true
    rw [setAt_apply]; split
    · rfl
    · exact hp
  · rw [discover_neg hc]; exact hp

end Visited

section VisitedLoop
variable {α : Type} {N : Nat} {C : Container α} {mk : Pos → α} {pos : α → Pos}

theorem visitedLoop_zero (s e : Pos) (st : VState C.σ) :
    visitedLoop N C mk pos s e 0 st = .error Fault.fuelExhausted := rfl

theorem visitedLoop_none (s e : Pos) (fuel : Nat) (st : VState C.σ)
    (h : C.pop st.frontier = none) :
    visitedLoop N C mk pos s e (fuel + 1) st = .ok (false, st) := by
  simp only [visitedLoop, h]

theorem visitedLoop_end (s e : Pos) (fuel : Nat) (st : VState C.σ) (a : α) (rest : C.σ)
    (h : C.pop st.frontier = some (a, rest)) (he : pos a = e) :
    visitedLoop N C mk pos s e (fuel + 1) st = finishV N s e (popV pos st a rest) := by
  simp only [visitedLoop, h, he, if_true, popV]

theorem visitedLoop_step (s e : Pos) (fuel : Nat) (st : VState C.σ) (a : α) (rest : C.σ)
    (h : C.pop st.frontier = some (a, rest)) (he : pos a ≠ e) :
    visitedLoop N C mk pos s e (fuel + 1) st =
      visitedLoop N C mk pos s e fuel
        (dirs4.foldl (discover N C mk (pos a)) (popV pos st a rest)) := by
  simp only [visitedLoop, h, he, if_false, popV, orthoDeltas_eq]

/-- The loop rule: when every turn of the loop keeps `Inv` and lowers the
measure `μ`, a run with enough fuel ends in a state `stF` that satisfies `Inv`,
either with an empty frontier and the verdict `false`, or with `endPos` popped
and the exit through `reconstructPath`. -/
theorem visitedLoop_rule (mk : Pos → α) (pos : α → Pos) (s e : Pos)
    (Inv : VState C.σ → Prop) (μ : VState C.σ → Nat)
    (hturn : ∀ st a rest, Inv st → C.pop st.frontier = some (a, rest) → pos a ≠ e →
      Inv (dirs4.foldl (discover N C mk (pos a)) (popV pos st a rest)) ∧
      μ (dirs4.foldl (discover N C mk (pos a)) (popV pos st a rest)) < μ st) :
    ∀ fuel st, Inv st → μ st < fuel →
      ∃ stF, Inv stF ∧
        ((C.pop stF.frontier = none ∧
            visitedLoop N C mk pos s e fuel st = .ok (false, stF)) ∨
         (∃ a rest, C.pop stF.frontier = some (a, rest) ∧ pos a = e ∧
            visitedLoop N C mk pos s e fuel st = finishV N s e (popV pos stF a rest))) := by
  intro fuel
  induction fuel with
  | zero => intro st _ hμ; omega
  | succ fuel ih =>
    intro st hI hμ
    cases hp : C.pop st.frontier with
    | none => exact ⟨st, hI, Or.inl ⟨hp, visitedLoop_none s e fuel st hp⟩⟩
    | some ar =>
      obtain ⟨a, rest⟩ := ar
      by_cases he : pos a = e
      · exact ⟨st, hI, Or.inr ⟨a, rest, hp, he, visitedLoop_end s e fuel st a rest hp he⟩⟩
      · obtain ⟨hI', hμ'⟩ := hturn st a rest hI hp he
        obtain ⟨stF, hF, hres⟩ := ih _ hI' (by omega)
        rw [← visitedLoop_step s e fuel st a rest hp he] at hres
        exact ⟨stF, hF, hres⟩

/-- A property of depths and states kept by every turn of the neighbour loop
holds after the loop. -/
theorem foldl_discover_inv (mk : Pos → α) (cur : Pos)
    (P : (Pos → Nat) → VState C.σ → Prop)
    (hstep : ∀ depth st d, d ∈ dirs4 → P depth st →
      P (stepDepth N cur st depth d) (discover N C mk cur st d)) :
    ∀ ds, (∀ d ∈ ds, d ∈ dirs4) → ∀ depth st, P depth st →
      P (foldDepth N C mk cur ds st depth) (ds.foldl (discover N C mk cur) st) := by
  intro ds
  induction ds with
  | nil => intro _ depth st h; exact h
  | cons d ds ih =>
    intro hsub depth st h
    simp only [List.foldl_cons, foldDepth]
    exact ih (fun x hx => hsub x (List.mem_cons_of_mem _ hx)) _ _
      (hstep depth st d (hsub d (List.mem_cons_self _ _)) h)

/-- A property established by the turn for the pair `d` and kept by the later
turns holds for every pair after the loop. -/
theorem foldl_discover_all (mk : Pos → α) (cur : Pos) (Inv : VState C.σ → Prop)
    (Q : Int × Int → VState C.σ → Prop)
    (hinv : ∀ st d, d ∈ dirs4 → Inv st → Inv (discover N C mk cur st d))
    (hest : ∀ st d, d ∈ dirs4 → Inv st → Q d (discover N C mk cur st d))
    (hkeep : ∀ st d d', d' ∈ dirs4 → Inv st → Q d st → Q d (discover N C mk cur st d')) :
    ∀ ds : List (Int × Int), (∀ d ∈ ds, d ∈ dirs4) → ∀ st, Inv st →
      ∀ d ∈ ds, Q d (ds.foldl (discover N C mk cur) st) := by
  have keepAll : ∀ ds : List (Int × Int), (∀ d ∈ ds, d ∈ dirs4) → ∀ st d, Inv st → Q d st →
      Q d (ds.foldl (discover N C mk cur) st) := by
    intro ds
    induction ds with
    | nil => intro _ st d _ h; exact h
    | cons d' ds ih =>
      intro hsub st d hI h
      simp only [List.foldl_cons]
      exact ih (fun x hx => hsub x (List.mem_cons_of_mem _ hx)) _ d
        (hinv st d' (hsub d' (List.mem_cons_self _ _)) hI)
        (hkeep st d d' (hsub d' (List.mem_cons_self _ _)) hI h)
  intro ds
  induction ds with
  | nil => intro _ st _ d hd; simp at hd
  | cons d' ds ih =>
    intro hsub st hI d hd
    have hd' := hsub d' (List.mem_cons_self _ _)
    have hsub' : ∀ x ∈ ds, x ∈ dirs4 := fun x hx => hsub x (List.mem_cons_of_mem _ hx)
    simp only [List.foldl_cons]
    rcases List.mem_cons.mp hd with e | hmem
    · subst e
      exact keepAll ds hsub' _ d (hinv st d hd' hI) (hest st d hd' hI)
    · exact ih hsub' _ (hinv st d' hd' hI) d hmem

theorem visitedCount_le (st : VState C.σ) : visitedCount N st ≤ N * N :=
  card_filter_le_cells N _

theorem measureV_discover {g0 : Grid} {s : Pos} {depth : Pos → Nat}
    {st : VState C.σ} (h : VInv N C pos g0 s depth st) (cur : Pos) (d : Int × Int) :
    measureV N C (discover N C mk cur st d) ≤ measureV N C st := by
  by_cases hc : fresh N st (cur.1 + d.1, cur.2 + d.2)
  · obtain ⟨hin, hv, _, _⟩ := fresh_facts h hc
    have hK := visitedCount_lt st (discover N C mk cur st d) hin hv
      (by rw [discover_pos hc])
    have hle := visitedCount_le (N := N) (discover N C mk cur st d)
    have hlen : (C.items (discover N C mk cur st d).frontier).length
        = (C.items st.frontier).length + 1 := by
      rw [discover_pos hc]
      simpa using (C.items_push st.frontier (mk (cur.1 + d.1, cur.2 + d.2))).length_eq
    unfold measureV
    rw [hlen]
    omega
  · rw [discover_neg hc]

theorem measureV_popV (pos : α → Pos) (st : VState C.σ) (a : α) (rest : C.σ)
    (hp : C.pop st.frontier = some (a, rest)) :
    measureV N C (popV pos st a rest) + 1 = measureV N C st := by
  have := (C.pop_some _ _ _ hp).length_eq
  simp only [List.length_cons] at this
  unfold measureV
  rw [this]
  rfl

theorem popV_inv {g0 : Grid} {s : Pos} {depth : Pos → Nat} {st : VState C.σ}
    (h : VInv N C pos g0 s depth st) (a : α) (rest : C.σ)
    (hp : C.pop st.frontier = some (a, rest)) :
    VInv N C pos g0 s depth (popV pos st a rest) ∧ (popV pos st a rest).visited (pos a) = true := by
  have hperm := C.pop_some _ _ _ hp
  refine ⟨⟨h.start_inb, h.vis_start, h.depth_start, h.par_none, h.vis_inb, h.vis_par, ?_,
    h.grid_eq, h.depth_lt⟩, ?_⟩
  · intro b hb
    exact h.items_vis b (hperm.mem_iff.mpr (List.mem_cons_of_mem _ hb))
  · exact h.items_vis a (hperm.mem_iff.mpr (List.mem_cons_self _ _))

end VisitedLoop

/-! ## Traces -/

theorem Paired.append_one {tr : List Event} {e : Event} (h : Paired tr)
    (he : ∀ p, e = Event.visual p → ∃ l0, tr = l0 ++ [Event.push p]) :
    Paired (tr ++ [e]) := by
  intro l1 l2 p heq
  rcases List.eq_nil_or_concat l2 with hl | ⟨l2', b, hl⟩
  · subst hl
    obtain ⟨h1, h2⟩ := List.append_inj' heq rfl
    subst h1
    exact he p (by simpa using h2)
  · subst hl
    have heq' : tr ++ [e] = (l1 ++ Event.visual p :: l2') ++ [b] := by
      rw [heq]; simp
    obtain ⟨h1, _⟩ := List.append_inj' heq' rfl
    exact h l1 l2' p h1

theorem Paired.append_plain {tr : List Event} (h : Paired tr) :
    ∀ l : List Event, (∀ e ∈ l, ∀ p, e ≠ Event.visual p) → Paired (tr ++ l) := by
  intro l
  induction l generalizing tr with
  | nil => intro _; simpa using h
  | cons e l ih =>
    intro hl
    have h1 : Paired (tr ++ [e]) :=
      h.append_one (fun p hp => absurd hp (hl e (List.mem_cons_self _ _) p))
    have := ih h1 (fun x hx => hl x (List.mem_cons_of_mem _ hx))
    simpa using this

theorem Paired.append_push_visual {tr : List Event} (h : Paired tr) (n : Pos) :
    Paired (tr ++ [Event.push n, Event.visual n]) := by
  have h1 : Paired (tr ++ [Event.push n]) :=
    h.append_one (fun p hp => by cases hp)
  have h2 : Paired ((tr ++ [Event.push n]) ++ [Event.visual n]) :=
    h1.append_one (fun p hp => by
      cases hp
      exact ⟨tr, rfl⟩)
  simpa using h2

@[simp] theorem pushedCells_append (a b : List Event) :
    pushedCells (a ++ b) = pushedCells a ++ pushedCells b := by
  simp [pushedCells, List.filterMap_append]

@[simp] theorem visualCells_append (a b : List Event) :
    visualCells (a ++ b) = visualCells a ++ visualCells b := by
  simp [visualCells, List.filterMap_append]

@[simp] theorem pathCells_append (a b : List Event) :
    pathCells (a ++ b) = pathCells a ++ pathCells b := by
  simp [pathCells, List.filterMap_append]

@[simp] theorem pathCells_map_path (l : List Pos) : pathCells (l.map Event.path) = l := by
  induction l with
  | nil => rfl
  | cons a l ih =>
    simp only [List.map_cons, pathCells, List.filterMap_cons] at ih ⊢
    rw [ih]

@[simp] theorem pushedCells_map_path (l : List Pos) : pushedCells (l.map Event.path) = [] := by
  induction l with
  | nil => rfl
  | cons a l ih =>
    simp only [List.map_cons, pushedCells, List.filterMap_cons] at ih ⊢
    rw [ih]

@[simp] theorem visualCells_map_path (l : List Pos) : visualCells (l.map Event.path) = [] := by
  induction l with
  | nil => rfl
  | cons a l ih =>
    simp only [List.map_cons, visualCells, List.filterMap_cons] at ih ⊢
    rw [ih]

section VisitedTrace
variable {α : Type} {N : Nat} {C : Container α} {mk : Pos → α} {pos : α → Pos}

theorem discover_trace {s : Pos} {st : VState C.σ} (h : VTrace s st) (cur : Pos)
    (d : Int × Int) : VTrace s (discover N C mk cur st d) := by
  by_cases hc : fresh N st (cur.1 + d.1, cur.2 + d.2)
  · have hv : st.visited (cur.1 + d.1, cur.2 + d.2) = false := hc.2.1
    rw [discover_pos hc]
    generalize (cur.1 + d.1, cur.2 + d.2) = n at *
    have e1 : pushedCells [Event.push n, Event.visual n] = [n] := rfl
    have e2 : visualCells [Event.push n, Event.visual n] = [n] := rfl
    have e3 : pathCells [Event.push n, Event.visual n] = [] := rfl
    constructor
    · intro p
      show p ∈ pushedCells (st.trace ++ _) ↔ setAt st.visited n true p = true
      rw [pushedCells_append, e1, List.mem_append, h.pushes p, setAt_apply]
      by_cases hpn : p = n
      · simp [hpn]
      · simp [hpn]
    · show (pushedCells (st.trace ++ _)).Nodup
      rw [pushedCells_append, e1]
      apply List.Nodup.append h.nodup (List.nodup_singleton n)
      intro x hx hx'
      rw [List.mem_singleton] at hx'
      subst hx'
      rw [(h.pushes x).mp hx] at hv
      cases hv
    · show pushedCells (st.trace ++ _) = s :: visualCells (st.trace ++ _)
      rw [pushedCells_append, visualCells_append, e1, e2, h.visuals]
      rfl
    · show pathCells (st.trace ++ _) = []
      rw [pathCells_append, e3, h.no_path]
      rfl
    · exact h.paired.append_push_visual n
  · rw [discover_neg hc]; exact h

theorem popV_trace (pos : α → Pos) {s : Pos} {st : VState C.σ} (h : VTrace s st) (a : α)
    (rest : C.σ) :
    VTrace s (popV pos st a rest) := by
  have e1 : pushedCells [Event.pop (pos a)] = [] := rfl
  have e2 : visualCells [Event.pop (pos a)] = [] := rfl
  have e3 : pathCells [Event.pop (pos a)] = [] := rfl
  constructor
  · intro p
    show p ∈ pushedCells (st.trace ++ _) ↔ st.visited p = true
    rw [pushedCells_append, e1, List.append_nil]
    exact h.pushes p
  · show (pushedCells (st.trace ++ _)).Nodup
    rw [pushedCells_append, e1, List.append_nil]
    exact h.nodup
  · show pushedCells (st.trace ++ _) = s :: visualCells (st.trace ++ _)
    rw [pushedCells_append, visualCells_append, e1, e2, List.append_nil, List.append_nil]
    exact h.visuals
  · show pathCells (st.trace ++ _) = []
    rw [pathCells_append, e3, List.append_nil]
    exact h.no_path
  · exact h.paired.append_one (fun p hp => by cases hp)

end VisitedTrace

/-! ## BFS, DFS, greedy: nothing reachable is left out -/

section VisitedClosure
variable {α : Type} {N : Nat} {C : Container α} {mk : Pos → α} {pos : α → Pos}

theorem popV_closure {g0 : Grid} {e : Pos} {st : VState C.σ}
    (h : VClosure N C pos g0 e none st) (a : α) (rest : C.σ)
    (hp : C.pop st.frontier = some (a, rest)) (he : pos a ≠ e) :
    VClosure N C pos g0 e (some (pos a)) (popV pos st a rest) := by
  have hperm := C.pop_some _ _ _ hp
  constructor
  · intro p hv
    rcases h.closed p hv with ⟨b, hb, hbp⟩ | hc | hx
    · rcases List.mem_cons.mp (hperm.mem_iff.mp hb) with e1 | hmem
      · right; left; rw [← hbp, e1]
      · left; exact ⟨b, hmem, hbp⟩
    · cases hc
    · right; right; exact hx
  · intro hv
    obtain ⟨b, hb, hbe⟩ := h.end_item hv
    rcases List.mem_cons.mp (hperm.mem_iff.mp hb) with e1 | hmem
    · rw [e1] at hbe; exact absurd hbe he
    · exact ⟨b, hmem, hbe⟩

theorem discover_items_mono {cur : Pos} {st : VState C.σ} {d : Int × Int} {b : α}
    (hb : b ∈ C.items st.frontier) : b ∈ C.items (discover N C mk cur st d).frontier := by
  by_cases hc : fresh N st (cur.1 + d.1, cur.2 + d.2)
  · rw [discover_pos hc]
    exact (C.items_push _ _).mem_iff.mpr (List.mem_cons_of_mem _ hb)
  · rw [discover_neg hc]; exact hb

theorem discover_new_item (hpos : ∀ p, pos (mk p) = p) {cur : Pos} {st : VState C.σ}
    {d : Int × Int} {p : Pos} (hv : st.visited p = false)
    (hv' : (discover N C mk cur st d).visited p = true) :
    ∃ a ∈ C.items (discover N C mk cur st d).frontier, pos a = p := by
  by_cases hc : fresh N st (cur.1 + d.1, cur.2 + d.2)
  · rw [discover_pos hc] at hv' ⊢
    change setAt st.visited _ true p = true at hv'
    by_cases hpn : p = (cur.1 + d.1, cur.2 + d.2)
    · exact ⟨mk (cur.1 + d.1, cur.2 + d.2),
        (C.items_push _ _).mem_iff.mpr (List.mem_cons_self _ _), by rw [hpos, hpn]⟩
    · rw [setAt_other _ _ _ _ hpn, hv] at hv'; cases hv'
  · rw [discover_neg hc, hv] at hv'; cases hv'

theorem discover_closure (hpos : ∀ p, pos (mk p) = p) {g0 : Grid} {e : Pos} {c : Option Pos}
    {st : VState C.σ} (h : VClosure N C pos g0 e c st) (cur : Pos) (d : Int × Int) :
    VClosure N C pos g0 e c (discover N C mk cur st d) := by
  constructor
  · intro p hv'
    cases hv : st.visited p with
    | false => left; exact discover_new_item hpos hv hv'
    | true =>
      rcases h.closed p hv with ⟨b, hb, hbp⟩ | hc | hx
      · left; exact ⟨b, discover_items_mono hb, hbp⟩
      · right; left; exact hc
      · right; right
        intro n h1 h2 h3
        exact discover_visited_mono (hx n h1 h2 h3)
  · intro hv'
    cases hv : st.visited e with
    | false => exact discover_new_item hpos hv hv'
    | true =>
      obtain ⟨b, hb, hbe⟩ := h.end_item hv
      exact ⟨b, discover_items_mono hb, hbe⟩

/-- After the turn for the pair `d` the neighbour `cur + d` is marked if the
search may step on it. -/
theorem discover_target {g0 : Grid} {s : Pos} {depth : Pos → Nat} {st : VState C.σ}
    (h : VInv N C pos g0 s depth st) (cur : Pos) (d : Int × Int)
    (hin : inBounds N (cur.1 + d.1, cur.2 + d.2))
    (hw : g0 (cur.1 + d.1, cur.2 + d.2) ≠ CellType.Wall) :
    (discover N C mk cur st d).visited (cur.1 + d.1, cur.2 + d.2) = true := by
  by_cases hc : fresh N st (cur.1 + d.1, cur.2 + d.2)
  · rw [discover_pos hc]
    show setAt st.visited _ true _ = true
    rw [setAt_same]
  · rw [discover_neg hc]
    cases hv : st.visited (cur.1 + d.1, cur.2 + d.2) with
    | true => rfl
    | false =>
      exfalso
      apply hc
      refine ⟨hin, hv, ?_⟩
      have := h.grid_eq (cur.1 + d.1, cur.2 + d.2)
      rw [hv] at this
      simp at this
      rw [this]; exact hw

/-- One turn of the main loop (pop, then the neighbour loop) keeps the
structural invariant, the shape of the trace and the closure property, and
lowers the measure. -/
theorem turn_generic (hpos : ∀ p, pos (mk p) = p) {g0 : Grid} {s e : Pos}
    {depth : Pos → Nat} {st : VState C.σ} (hI : VInv N C pos g0 s depth st)
    (hT : VTrace s st) (hC : VClosure N C pos g0 e none st) {a : α} {rest : C.σ}
    (hp : C.pop st.frontier = some (a, rest)) (he : pos a ≠ e) :
    VInv N C pos g0 s (foldDepth N C mk (pos a) dirs4 (popV pos st a rest) depth)
        (dirs4.foldl (discover N C mk (pos a)) (popV pos st a rest)) ∧
      VTrace s (dirs4.foldl (discover N C mk (pos a)) (popV pos st a rest)) ∧
      VClosure N C pos g0 e none (dirs4.foldl (discover N C mk (pos a)) (popV pos st a rest)) ∧
      measureV N C (dirs4.foldl (discover N C mk (pos a)) (popV pos st a rest))
        < measureV N C st := by
  obtain ⟨hI1, hcur⟩ := popV_inv hI a rest hp
  have hT1 := popV_trace pos hT a rest
  have hC1 := popV_closure hC a rest hp he
  have hm1 := measureV_popV (N := N) pos st a rest hp
  have key := foldl_discover_inv (N := N) (C := C) mk (pos a)
    (fun dp x => VInv N C pos g0 s dp x ∧ x.visited (pos a) = true ∧ VTrace s x ∧
      VClosure N C pos g0 e (some (pos a)) x ∧
      measureV N C x ≤ measureV N C (popV pos st a rest))
    (fun dp x d hd hx =>
      ⟨discover_inv hpos hx.1 hx.2.1 hd, discover_visited_mono hx.2.1,
        discover_trace hx.2.2.1 _ _, discover_closure hpos hx.2.2.2.1 _ _,
        le_trans (measureV_discover hx.1 _ _) hx.2.2.2.2⟩)
    dirs4 (fun _ hd => hd) depth (popV pos st a rest)
    ⟨hI1, hcur, hT1, hC1, le_refl _⟩
  obtain ⟨k1, k2, k3, k4, k5⟩ := key
  have hall := foldl_discover_all (N := N) (C := C) mk (pos a)
    (fun x => ∃ dp, VInv N C pos g0 s dp x ∧ x.visited (pos a) = true)
    (fun d x => inBounds N ((pos a).1 + d.1, (pos a).2 + d.2) →
      g0 ((pos a).1 + d.1, (pos a).2 + d.2) ≠ CellType.Wall →
      x.visited ((pos a).1 + d.1, (pos a).2 + d.2) = true)
    (fun x d hd hx => by
      obtain ⟨dp, h1, h2⟩ := hx
      exact ⟨_, discover_inv hpos h1 h2 hd, discover_visited_mono h2⟩)
    (fun x d _ hx => by
      obtain ⟨dp, h1, _⟩ := hx
      exact fun hin hw => discover_target h1 (pos a) d hin hw)
    (fun x d d' _ _ hq => fun hin hw => discover_visited_mono (hq hin hw))
    dirs4 (fun _ hd => hd) (popV pos st a rest) ⟨depth, hI1, hcur⟩
  refine ⟨k1, k3, ⟨?_, k4.end_item⟩, by omega⟩
  intro p hv
  rcases k4.closed p hv with hx | hx | hx
  · left; exact hx
  · right; right
    have hpa : pos a = p := by simpa using hx
    subst hpa
    intro n h1 h2 h3
    obtain ⟨d, hd, hnd⟩ := exists_delta h1
    subst hnd
    exact hall d hd h2 h3
  · right; right; exact hx

end VisitedClosure

/-! ## BFS, DFS, greedy: the result of a run -/

section VisitedResult
variable {α : Type} {N : Nat} {C : Container α} {mk : Pos → α} {pos : α → Pos}

theorem VInv.chainV {g0 : Grid} {s : Pos} {depth : Pos → Nat} {st : VState C.σ}
    (h : VInv N C pos g0 s depth st) :
    ChainOK N st.parent s (fun p => st.visited p = true) depth :=
  ⟨fun p hp hps => by
    obtain ⟨h1, _, _, h4⟩ := h.vis_par p hp hps
    exact ⟨h.vis_inb p hp, h1, by omega⟩⟩

/-- The chain of parent links from a marked cell has as many cells as the
depth of the cell. -/
theorem VInv.chain_length {g0 : Grid} {s : Pos} {depth : Pos → Nat} {st : VState C.σ}
    (h : VInv N C pos g0 s depth st) :
    ∀ k p, st.visited p = true → depth p = k →
      (chainOf st.parent s (depth p) p).length = k := by
  intro k
  induction k with
  | zero => intro p _ hk; rw [hk]; rfl
  | succ k ih =>
    intro p hp hk
    have hps : p ≠ s := by
      intro e; rw [e, h.depth_start] at hk; omega
    obtain ⟨h1, _, _, h4⟩ := h.vis_par p hp hps
    rw [chainOf_rank_cons h.chainV hp hps, List.length_cons, ih (st.parent p) h1 (by omega)]

/-- A marked cell is reached from the start cell by a walk of parent links:
the exit through `reconstructPath` returns, with the chain tagged. -/
theorem finishV_ok {g0 : Grid} {s : Pos} {depth : Pos → Nat} {st : VState C.σ}
    (h : VInv N C pos g0 s depth st) (e : Pos) (he : st.visited e = true) :
    ∃ g', finishV N s e st = .ok (true, { st with
          grid := g'
          trace := st.trace ++ List.map Event.path (chainOf st.parent s (depth e) e) }) ∧
      ∀ p, g' p = if p ∈ chainOf st.parent s (depth e) e then CellType.Path else st.grid p := by
  have hfuel : depth e ≤ N * N := by
    have h1 := h.depth_lt e he
    have h2 := visitedCount_le (N := N) st
    omega
  obtain ⟨g', hg1, hg2⟩ := reconstructLoop_ok h.chainV (N * N) e st.grid [] he hfuel
  refine ⟨g', ?_, hg2⟩
  unfold finishV reconstructPath
  rw [hg1]
  rfl

theorem visitedInit_inv (hpos : ∀ p, pos (mk p) = p) (g : Grid) {s : Pos}
    (hs : inBounds N s) (e : Pos) :
    VInv N C pos g s (fun _ => 0) (visitedInit C mk g s) ∧ VTrace s (visitedInit C mk g s) ∧
      VClosure N C pos g e none (visitedInit C mk g s) ∧
      measureV N C (visitedInit C mk g s) < 2 * N * N + 2 := by
  have hitems : ∀ a ∈ C.items (visitedInit C mk g s).frontier, a = mk s := by
    intro a ha
    have := (C.items_push C.empty (mk s)).mem_iff.mp ha
    rw [C.items_empty] at this
    simpa using this
  have hmem : mk s ∈ C.items (visitedInit C mk g s).frontier :=
    (C.items_push C.empty (mk s)).mem_iff.mpr (List.mem_cons_self _ _)
  have hvis : ∀ p, (visitedInit C mk g s).visited p = true ↔ p = s := by
    intro p
    show setAt (fun _ => false) s true p = true ↔ p = s
    rw [setAt_apply]
    by_cases hp : p = s <;> simp [hp]
  have hlen : (C.items (visitedInit C mk g s).frontier).length = 1 := by
    have := (C.items_push C.empty (mk s)).length_eq
    rw [C.items_empty] at this
    simpa using this
  refine ⟨⟨hs, (hvis s).mpr rfl, rfl, fun _ _ => rfl, ?_, ?_, ?_, ?_, ?_⟩, ⟨?_, ?_, ?_, ?_, ?_⟩,
    ⟨?_, ?_⟩, ?_⟩
  · intro p hp; rw [(hvis p).mp hp]; exact hs
  · intro p hp hps; exact absurd ((hvis p).mp hp) hps
  · intro a ha; rw [hitems a ha, hpos]; exact (hvis s).mpr rfl
  · intro p
    have : ¬ ((visitedInit C mk g s).visited p = true ∧ p ≠ s) := by
      rintro ⟨h1, h2⟩; exact h2 ((hvis p).mp h1)
    rw [if_neg this]; rfl
  · intro p _
    show 0 < visitedCount N (visitedInit C mk g s)
    unfold visitedCount
    rw [Finset.card_pos]
    exact ⟨s, by simp [mem_cells, hs, (hvis s).mpr rfl]⟩
  · intro p
    show p ∈ pushedCells [Event.push s] ↔ _
    rw [hvis p]
    simp [pushedCells]
  · show (pushedCells [Event.push s]).Nodup
    simp [pushedCells]
  · rfl
  · rfl
  · intro l1 l2 p heq
    change [Event.push s] = l1 ++ Event.visual p :: l2 at heq
    have : Event.visual p ∈ [Event.push s] := by rw [heq]; simp
    simp at this
  · intro p hp
    left
    exact ⟨mk s, hmem, by rw [hpos, (hvis p).mp hp]⟩
  · intro he
    exact ⟨mk s, hmem, by rw [hpos, (hvis e).mp he]⟩
  · unfold measureV
    rw [hlen]
    have := visitedCount_le (N := N) (visitedInit C mk g s)
    have h2 : 2 * N * N = 2 * (N * N) := by ring
    omega

/-- Every run of the common routine of `BFS`, `DFS` and `greedy` from a start
cell inside the grid returns, and its result is as `VResult` tells. -/
theorem visitedSearch_result (hpos : ∀ p, pos (mk p) = p) (g : Grid) {s : Pos}
    (hs : inBounds N s) (e : Pos) (X : (Pos → Nat) → VState C.σ → Prop)
    (hX0 : X (fun _ => 0) (visitedInit C mk g s))
    (hXturn : ∀ depth st a rest, VInv N C pos g s depth st → VTrace s st →
      VClosure N C pos g e none st → X depth st → C.pop st.frontier = some (a, rest) →
      pos a ≠ e →
      X (foldDepth N C mk (pos a) dirs4 (popV pos st a rest) depth)
        (dirs4.foldl (discover N C mk (pos a)) (popV pos st a rest))) :
    ∃ r, visitedSearch N C mk pos g s e = .ok r ∧ VResult N C pos g s e X r := by
  obtain ⟨i1, i2, i3, i4⟩ := visitedInit_inv (N := N) (C := C) hpos g hs e
  have rule := visitedLoop_rule (N := N) (C := C) mk pos s e
    (fun st => ∃ depth, VInv N C pos g s depth st ∧ VTrace s st ∧
      VClosure N C pos g e none st ∧ X depth st)
    (measureV N C)
    (fun st a rest hI hp he => by
      obtain ⟨depth, h1, h2, h3, h4⟩ := hI
      obtain ⟨t1, t2, t3, t4⟩ := turn_generic hpos h1 h2 h3 hp he
      exact ⟨⟨_, t1, t2, t3, hXturn depth st a rest h1 h2 h3 h4 hp he⟩, t4⟩)
    (2 * N * N + 2) (visitedInit C mk g s) ⟨_, i1, i2, i3, hX0⟩ i4
  obtain ⟨stF, ⟨depth, f1, f2, f3, f4⟩, hres⟩ := rule
  unfold visitedSearch
  rw [if_pos hs]
  rcases hres with ⟨hnone, hrun⟩ | ⟨a, rest, hp, he, hrun⟩
  · exact ⟨_, hrun, depth, stF, f1, f2, f3, f4, Or.inl ⟨(C.pop_none _).mp hnone, rfl⟩⟩
  · obtain ⟨q1, q2⟩ := popV_inv f1 a rest hp
    rw [he] at q2
    obtain ⟨g', hg1, hg2⟩ := finishV_ok q1 e q2
    rw [hrun, hg1]
    refine ⟨_, rfl, depth, stF, f1, f2, f3, f4,
      Or.inr ⟨⟨a, rest, hp, he⟩, q2, rfl, rfl, rfl, ?_, hg2⟩⟩
    show (stF.trace ++ [Event.pop (pos a)]) ++ _ = _
    rw [he]
    rfl

end VisitedResult

/-! ## Walks on the grid -/

theorem Walk.zero_eq {N : Nat} {g : Grid} {s p : Pos} (h : Walk N g s p 0) : p = s := by
  cases h; rfl

theorem Walk.succ_inv {N : Nat} {g : Grid} {s q : Pos} {k : Nat} (h : Walk N g s q (k + 1)) :
    ∃ p, Walk N g s p k ∧ manhattan p q = 1 ∧ inBounds N q ∧ g q ≠ CellType.Wall := by
  cases h with
  | step hw h1 h2 h3 => exact ⟨_, hw, h1, h2, h3⟩

theorem Walk.manhattan_le {N : Nat} {g : Grid} {s p : Pos} {k : Nat} (h : Walk N g s p k) :
    manhattan s p ≤ k := by
  induction h with
  | start => rw [manhattan_self]
  | @step p q k _ h1 _ _ ih =>
    have := manhattan_triangle s p q
    omega

/-- A walk never has fewer steps than the Manhattan distance to any cell. -/
theorem Walk.manhattan_to_le {N : Nat} {g : Grid} {s p : Pos} {k : Nat} (h : Walk N g s p k)
    (t : Pos) : manhattan s t ≤ k + manhattan p t := by
  have h1 := h.manhattan_le
  have h2 := manhattan_triangle s p t
  omega

/-- On a grid without walls every cell is reached by a walk of exactly the
Manhattan distance. -/
theorem walk_of_open {N : Nat} {g : Grid} {s : Pos} (hs : inBounds N s)
    (hopen : ∀ p, inBounds N p → g p ≠ CellType.Wall) :
    ∀ k p, inBounds N p → manhattan s p = k → Walk N g s p k := by
  intro k
  induction k with
  | zero =>
    intro p _ hk
    rw [← manhattan_eq_zero hk]
    exact Walk.start
  | succ k ih =>
    intro p hp hk
    unfold inBounds at hs hp
    unfold manhattan at hk
    by_cases hx : p.1 = s.1
    · by_cases hy : s.2 < p.2
      · have hq : inBounds N (p.1, p.2 - 1) := by
          unfold inBounds; simp only; omega
        have hm : manhattan s (p.1, p.2 - 1) = k := by
          unfold manhattan; simp only; omega
        refine Walk.step (ih _ hq hm) ?_ hp (hopen p hp)
        unfold manhattan; simp only; omega
      · have hq : inBounds N (p.1, p.2 + 1) := by
          unfold inBounds; simp only; omega
        have hm : manhattan s (p.1, p.2 + 1) = k := by
          unfold manhattan; simp only; omega
        refine Walk.step (ih _ hq hm) ?_ hp (hopen p hp)
        unfold manhattan; simp only; omega
    · by_cases hlt : s.1 < p.1
      · have hq : inBounds N (p.1 - 1, p.2) := by
          unfold inBounds; simp only; omega
        have hm : manhattan s (p.1 - 1, p.2) = k := by
          unfold manhattan; simp only; omega
        refine Walk.step (ih _ hq hm) ?_ hp (hopen p hp)
        unfold manhattan; simp only; omega
      · have hq : inBounds N (p.1 + 1, p.2) := by
          unfold inBounds; simp only; omega
        have hm : manhattan s (p.1 + 1, p.2) = k := by
          unfold manhattan; simp only; omega
        refine Walk.step (ih _ hq hm) ?_ hp (hopen p hp)
        unfold manhattan; simp only; omega

/-- On a grid without walls the shortest walk between two cells has as many
steps as their Manhattan distance. -/
theorem isDist_of_open {N : Nat} {g : Grid} {s e : Pos} (hs : inBounds N s)
    (he : inBounds N e) (hopen : ∀ p, inBounds N p → g p ≠ CellType.Wall) :
    IsDist N g s e (manhattan s e) :=
  ⟨walk_of_open hs hopen _ e he rfl, fun _ hj => hj.manhattan_le⟩

theorem IsDist.unique {N : Nat} {g : Grid} {s e : Pos} {k j : Nat} (h1 : IsDist N g s e k)
    (h2 : IsDist N g s e j) : k = j :=
  Nat.le_antisymm (h1.2 j h2.1) (h2.2 k h1.1)

/-- The cell before the last on a shortest walk is at distance one less. -/
theorem IsDist.pred {N : Nat} {g : Grid} {s q : Pos} {k : Nat} (h : IsDist N g s q (k + 1)) :
    ∃ p, IsDist N g s p k ∧ manhattan p q = 1 := by
  obtain ⟨p, hw, h1, h2, h3⟩ := h.1.succ_inv
  refine ⟨p, ⟨hw, ?_⟩, h1⟩
  intro j hj
  have := h.2 (j + 1) (Walk.step hj h1 h2 h3)
  omega

section VisitedWalk
variable {α : Type} {N : Nat} {C : Container α} {pos : α → Pos}

/-- A marked cell is reached by a walk of as many steps as its depth. -/
theorem VInv.walk {g0 : Grid} {s : Pos} {depth : Pos → Nat} {st : VState C.σ}
    (h : VInv N C pos g0 s depth st) :
    ∀ k p, st.visited p = true → depth p = k → Walk N g0 s p k := by
  intro k
  induction k with
  | zero =>
    intro p hp hk
    by_cases hps : p = s
    · rw [hps]; exact Walk.start
    · obtain ⟨_, _, _, h4⟩ := h.vis_par p hp hps
      omega
  | succ k ih =>
    intro p hp hk
    have hps : p ≠ s := by
      intro e; rw [e, h.depth_start] at hk; omega
    obtain ⟨h1, h2, h3, h4⟩ := h.vis_par p hp hps
    exact Walk.step (ih _ h1 (by omega)) h2 (h.vis_inb p hp) h3

/-- When the frontier is empty every cell that a walk reaches is marked. -/
theorem VClosure.all_marked {g0 : Grid} {s e : Pos} {depth : Pos → Nat} {st : VState C.σ}
    (hI : VInv N C pos g0 s depth st) (hC : VClosure N C pos g0 e none st)
    (hempty : C.items st.frontier = []) {p : Pos} {k : Nat} (hw : Walk N g0 s p k) :
    st.visited p = true := by
  induction hw with
  | start => exact hI.vis_start
  | step _ h1 h2 h3 ih =>
    rcases hC.closed _ ih with ⟨a, ha, _⟩ | hc | hx
    · rw [hempty] at ha; cases ha
    · cases hc
    · exact hx _ h1 h2 h3

end VisitedWalk

/-! ## BFS finds a shortest walk -/

section BFSOrder
theorem fifo_pop_eq {s : fifo.σ} {a : Pos} {rest : fifo.σ}
    (h : fifo.pop s = some (a, rest)) : fifo.items s = a :: fifo.items rest := by
  cases s with
  | nil => cases h
  | cons b l =>
    change some (b, l) = some (a, rest) at h
    simp only [Option.some.injEq, Prod.mk.injEq] at h
    obtain ⟨rfl, rfl⟩ := h
    rfl

variable {N : Nat}

theorem bfs_discover_mid {g0 : Grid} {s e : Pos} {depth : Pos → Nat} {st : VState fifo.σ}
    {cur : Pos} {m : Nat} (hI : VInv N fifo (fun p => p) g0 s depth st)
    (hC : VClosure N fifo (fun p => p) g0 e (some cur) st) (hB : BMid m depth st)
    (hm : depth cur = m) (hcur : st.visited cur = true) (d : Int × Int) :
    BMid m (stepDepth N cur st depth d) (discover N fifo (fun p => p) cur st d) ∧
      stepDepth N cur st depth d cur = m := by
  by_cases hc : fresh N st (cur.1 + d.1, cur.2 + d.2)
  · obtain ⟨hin, hv, hw, hns⟩ := fresh_facts hI hc
    rw [discover_pos hc]
    unfold stepDepth
    rw [if_pos hc]
    generalize (cur.1 + d.1, cur.2 + d.2) = n at *
    have hold : ∀ q, st.visited q = true → setAt depth n (depth cur + 1) q = depth q := by
      intro q hq
      apply setAt_other
      intro e1; rw [e1, hv] at hq; cases hq
    have hitem : ∀ q ∈ fifo.items st.frontier, setAt depth n (depth cur + 1) q = depth q :=
      fun q hq => hold q (hI.items_vis q hq)
    refine ⟨⟨?_, ?_, ?_, ?_⟩, ?_⟩
    · show List.Pairwise _ (fifo.items st.frontier ++ [n])
      rw [List.pairwise_append]
      refine ⟨?_, List.pairwise_singleton _ _, ?_⟩
      · apply hB.sorted.imp_of_mem
        intro a b ha hb hab
        rw [hitem a ha, hitem b hb]; exact hab
      · intro a ha b hb
        rw [List.mem_singleton] at hb
        rw [hb, hitem a ha, setAt_same]
        have := (hB.range a ha).2
        omega
    · intro q hq
      change q ∈ fifo.items st.frontier ++ [n] at hq
      rcases List.mem_append.mp hq with hq | hq
      · rw [hitem q hq]; exact hB.range q hq
      · rw [List.mem_singleton] at hq
        rw [hq, setAt_same]; omega
    · intro p hp
      change setAt st.visited n true p = true at hp
      by_cases hpn : p = n
      · rw [hpn, setAt_same]; omega
      · rw [setAt_other _ _ _ _ hpn] at hp
        rw [hold p hp]; exact hB.near p hp
    · intro p q hp hq hadj
      change setAt st.visited n true p = true at hp
      change setAt st.visited n true q = true at hq
      by_cases hpn : p = n
      · by_cases hqn : q = n
        · rw [hpn, hqn, manhattan_self] at hadj; omega
        · rw [setAt_other _ _ _ _ hqn] at hq
          rw [hpn, setAt_same, hold q hq]
          have := hB.near q hq
          omega
      · rw [setAt_other _ _ _ _ hpn] at hp
        by_cases hqn : q = n
        · rw [hqn, setAt_same, hold p hp]
          rcases hC.closed p hp with ⟨b, hb, hbp⟩ | hcp | hx
          · have hbp' : b = p := hbp
            rw [hbp'] at hb
            have := (hB.range p hb).1
            omega
          · have : cur = p := by simpa using hcp
            rw [this]
          · have := hx n (by rw [← hqn]; exact hadj) hin hw
            rw [hv] at this; cases this
        · rw [setAt_other _ _ _ _ hqn] at hq
          rw [hold p hp, hold q hq]
          exact hB.lip p q hp hq hadj
    · rw [hold cur hcur]; exact hm
  · rw [discover_neg hc]
    unfold stepDepth
    rw [if_neg hc]
    exact ⟨hB, hm⟩

/-- One turn of the loop of `BFS` keeps the order of the queue. -/
theorem bfs_turn {g0 : Grid} {s e : Pos} {depth : Pos → Nat} {st : VState fifo.σ}
    (hI : VInv N fifo (fun p => p) g0 s depth st)
    (hC : VClosure N fifo (fun p => p) g0 e none st) (hB : BInv depth st)
    {a : Pos} {rest : fifo.σ} (hp : fifo.pop st.frontier = some (a, rest)) (he : a ≠ e) :
    BInv (foldDepth N fifo (fun p => p) a dirs4 (popV (fun p => p) st a rest) depth)
      (dirs4.foldl (discover N fifo (fun p => p) a) (popV (fun p => p) st a rest)) := by
  have hpos : ∀ p : Pos, (fun p : Pos => p) ((fun p : Pos => p) p) = p := fun _ => rfl
  obtain ⟨hI1, hcur⟩ := popV_inv hI a rest hp
  have hC1 := popV_closure hC a rest hp he
  have hF := fifo_pop_eq hp
  have hsorted := hB.sorted
  rw [hF, List.pairwise_cons] at hsorted
  have hmid : BMid (depth a) depth (popV (fun p => p) st a rest) := by
    refine ⟨hsorted.2, ?_, ?_, hB.lip⟩
    · intro q hq
      refine ⟨hsorted.1 q hq, ?_⟩
      exact hB.span a (by rw [hF]; exact List.mem_cons_self _ _) q
        (by rw [hF]; exact List.mem_cons_of_mem _ hq)
    · intro p hpv
      exact hB.near p hpv a (by rw [hF]; exact List.mem_cons_self _ _)
  have key := foldl_discover_inv (N := N) (C := fifo) (fun p => p) a
    (fun dp x => VInv N fifo (fun p => p) g0 s dp x ∧ x.visited a = true ∧
      VClosure N fifo (fun p => p) g0 e (some a) x ∧ BMid (depth a) dp x ∧ dp a = depth a)
    (fun dp x d hd hx => by
      obtain ⟨b1, b2⟩ := bfs_discover_mid hx.1 hx.2.2.1 hx.2.2.2.1 hx.2.2.2.2 hx.2.1 d
      exact ⟨discover_inv hpos hx.1 hx.2.1 hd, discover_visited_mono hx.2.1,
        discover_closure hpos hx.2.2.1 _ _, b1, b2⟩)
    dirs4 (fun _ hd => hd) depth (popV (fun p => p) st a rest)
    ⟨hI1, hcur, hC1, hmid, rfl⟩
  obtain ⟨_, _, _, k4, _⟩ := key
  refine ⟨k4.sorted, ?_, ?_, k4.lip⟩
  · intro x hx y hy
    have h1 := k4.range x hx
    have h2 := k4.range y hy
    omega
  · intro p hpv q hq
    have h1 := k4.near p hpv
    have h2 := k4.range q hq
    omega

/-- With the queue of `BFS` in order, a walk of `k` steps ends on a marked
cell of depth at most `k`, unless a cell of depth below `k` still waits. -/
theorem bfs_walk_bound {g0 : Grid} {s e : Pos} {depth : Pos → Nat} {st : VState fifo.σ}
    (hI : VInv N fifo (fun p => p) g0 s depth st)
    (hC : VClosure N fifo (fun p => p) g0 e none st) (hB : BInv depth st)
    {t : Pos} {k : Nat} (hw : Walk N g0 s t k) :
    (st.visited t = true ∧ depth t ≤ k) ∨ ∃ q ∈ fifo.items st.frontier, depth q < k := by
  induction hw with
  | start => left; exact ⟨hI.vis_start, by rw [hI.depth_start]⟩
  | @step p q k _ h1 h2 h3 ih =>
    rcases ih with ⟨hv, hd⟩ | ⟨x, hx, hxd⟩
    · rcases hC.closed p hv with ⟨b, hb, hbp⟩ | hc | hx
      · right
        have hbp' : b = p := hbp
        exact ⟨p, by rw [← hbp']; exact hb, by omega⟩
      · cases hc
      · left
        have hq := hx q h1 h2 h3
        exact ⟨hq, by have := hB.lip p q hv hq h1; omega⟩
    · right; exact ⟨x, hx, by omega⟩

/-- Every run of `BFS` from a start cell inside the grid returns; its verdict
is `true` exactly when `endPos` is marked, and then the chain that
`reconstructPath` tags has as many cells as the shortest walk has steps. -/
theorem BFS_result (N : Nat) (g : Grid) {s : Pos} (hs : inBounds N s) (e : Pos) :
    ∃ r, BFS N g s e = .ok r ∧ VResult N fifo (fun p => p) g s e BInv r := by
  unfold BFS
  apply visitedSearch_result (fun _ => rfl) g hs e BInv
  · have hitems : fifo.items (visitedInit fifo (fun p => p) g s).frontier = [s] := rfl
    refine ⟨?_, ?_, ?_, ?_⟩
    · rw [hitems]; exact List.pairwise_singleton _ _
    · intro _ _ _ _; exact Nat.le_succ _
    · intro _ _ _ _; exact Nat.le_succ _
    · intro _ _ _ _ _; exact Nat.le_succ _
  · intro depth st a rest h1 _ h3 h4 hp he
    exact bfs_turn h1 h3 h4 hp he

end BFSOrder

/-! ## What every run guarantees -/

section ChainWalk
variable {N : Nat} {parent : Pos → Pos} {s : Pos} {good : Pos → Prop} {rank : Pos → Nat}

/-- The chain of parent links from a good cell is a walk from `s` read
backwards, when every link joins two neighbours and ends on a cell the search
may step on. -/
theorem chain_walk (h : ChainOK N parent s good rank) {g0 : Grid}
    (hadj : ∀ p, good p → p ≠ s → manhattan (parent p) p = 1 ∧ g0 p ≠ CellType.Wall) :
    ∀ k p, good p → rank p ≤ k → Walk N g0 s p (chainOf parent s (rank p) p).length := by
  intro k
  induction k with
  | zero =>
    intro p hp hk
    have hps : p = s := by
      by_contra hne
      have := (h.step p hp hne).2.2
      omega
    subst hps
    rw [chainOf_start]
    exact Walk.start
  | succ k ih =>
    intro p hp hk
    by_cases hps : p = s
    · subst hps
      rw [chainOf_start]
      exact Walk.start
    · obtain ⟨hin, hgp, hlt⟩ := h.step p hp hps
      obtain ⟨h1, h2⟩ := hadj p hp hps
      rw [chainOf_rank_cons h hp hps, List.length_cons]
      exact Walk.step (ih (parent p) hgp (by omega)) h1 hin h2

theorem chain_adjacent (h : ChainOK N parent s good rank) {g0 : Grid}
    (hadj : ∀ p, good p → p ≠ s → manhattan (parent p) p = 1 ∧ g0 p ≠ CellType.Wall)
    {p : Pos} (hp : good p) :
    List.Chain' (fun a b => manhattan a b = 1) (chainOf parent s (rank p) p) ∧
      ∀ l ∈ (chainOf parent s (rank p) p).getLast?, manhattan l s = 1 := by
  obtain ⟨h1, h2, _⟩ := chainOf_links h (rank p) p hp (le_refl _)
  constructor
  · rw [List.Chain'.iff_mem] at h1
    apply h1.imp
    rintro a b ⟨ha, _, hab⟩
    obtain ⟨hga, has, _⟩ := chainOf_mem h _ p hp a ha
    rw [hab, manhattan_comm]
    exact (hadj a hga has).1
  · intro l hl
    have hmem : l ∈ chainOf parent s (rank p) p := List.mem_of_mem_getLast? hl
    obtain ⟨hgl, hls, _⟩ := chainOf_mem h _ p hp l hmem
    rw [← h2 l hl, manhattan_comm]
    exact (hadj l hgl hls).1

theorem chain_head (h : ChainOK N parent s good rank) {p : Pos} (hp : good p) (hps : p ≠ s) :
    (chainOf parent s (rank p) p).head? = some p := by
  rw [chainOf_rank_cons h hp hps]
  rfl

end ChainWalk

@[simp] theorem pushedCells_single_pop (p : Pos) : pushedCells [Event.pop p] = [] := rfl

@[simp] theorem visualCells_single_pop (p : Pos) : visualCells [Event.pop p] = [] := rfl

@[simp] theorem pathCells_single_pop (p : Pos) : pathCells [Event.pop p] = [] := rfl

section VisitedSound
variable {α : Type} {N : Nat} {C : Container α} {pos : α → Pos}

theorem VInv.adjV {g0 : Grid} {s : Pos} {depth : Pos → Nat} {st : VState C.σ}
    (h : VInv N C pos g0 s depth st) :
    ∀ p, st.visited p = true → p ≠ s →
      manhattan (st.parent p) p = 1 ∧ g0 p ≠ CellType.Wall :=
  fun p hp hps => ⟨(h.vis_par p hp hps).2.1, (h.vis_par p hp hps).2.2.1⟩

/-- The result of a run of `BFS`, `DFS` or `greedy` is sound. -/
theorem VResult.soundV {g : Grid} {s e : Pos} {X : (Pos → Nat) → VState C.σ → Prop}
    {r : Bool × VState C.σ} (h : VResult N C pos g s e X r) :
    Sound N g s e (Outcome.ofV r) := by
  obtain ⟨depth, stF, hI, hT, hC, _, hcase⟩ := h
  rcases hcase with ⟨hempty, hr⟩ | ⟨_, hve, hr1, hr2, hr3, hr4, hr5⟩
  · subst hr
    have hnot : stF.visited e = false := by
      cases hv : stF.visited e with
      | false => rfl
      | true =>
        obtain ⟨a, ha, _⟩ := hC.end_item hv
        rw [hempty] at ha; cases ha
    have hunreach : ¬ Reachable N g s e := by
      rintro ⟨k, hw⟩
      rw [hC.all_marked hI hempty hw] at hnot
      cases hnot
    have hP : pathCells (Outcome.ofV (false, stF)).trace = [] := hT.no_path
    constructor
    · exact ⟨fun h => (by cases h), fun h => absurd h hunreach⟩
    · refine ⟨fun h => (by cases h), fun h => ?_⟩
      change stF.visited e = true at h
      rw [hnot] at h; cases h
    · intro _; exact hP
    · intro h; cases h
    · intro h; cases h
    · rw [hP]; exact List.chain'_nil
    · rw [hP]; exact List.chain'_nil
    · rw [hP]; intro l hl; cases hl
    · rw [hP]; intro p hp; cases hp
    · rw [hP]; exact List.nodup_nil
    · exact hI.vis_start
    · exact hI.vis_inb
    · exact fun p hp hps => (hI.vis_par p hp hps).2.2.1
    · exact hI.par_none
    · exact fun p hp hps => ⟨(hI.vis_par p hp hps).1, (hI.vis_par p hp hps).2.1⟩
    · intro p
      rw [hP]
      simp only [List.not_mem_nil, if_false]
      exact hI.grid_eq p
    · exact hT.pushes
    · exact hT.visuals
    · exact hT.paired
  · obtain ⟨b, st⟩ := r
    simp only at hr1 hr2 hr3 hr4 hr5
    subst hr1
    have hP : pathCells (Outcome.ofV (true, st)).trace = chainOf stF.parent s (depth e) e := by
      show pathCells st.trace = _
      rw [hr4]
      simp only [pathCells_append, pathCells_map_path, hT.no_path, List.nil_append]
      rfl
    have hpush : pushedCells (Outcome.ofV (true, st)).trace = pushedCells stF.trace := by
      show pushedCells st.trace = _
      rw [hr4]
      simp only [pushedCells_append, pushedCells_map_path, pushedCells_single_pop,
        List.append_nil]
    have hvis : visualCells (Outcome.ofV (true, st)).trace = visualCells stF.trace := by
      show visualCells st.trace = _
      rw [hr4]
      simp only [visualCells_append, visualCells_map_path, visualCells_single_pop,
        List.append_nil]
    have hck := hI.chainV
    obtain ⟨c1, c2⟩ := chain_adjacent hck hI.adjV (p := e) hve
    obtain ⟨l1, l2, _⟩ := chainOf_links hck (depth e) e hve (le_refl _)
    constructor
    · exact ⟨fun _ => ⟨_, hI.walk _ e hve rfl⟩, fun _ => rfl⟩
    · exact ⟨fun _ => (by show st.visited e = true; rw [hr2]; exact hve), fun _ => rfl⟩
    · intro h; cases h
    · intro _
      rw [hP]
      exact chain_walk hck hI.adjV _ e hve (le_refl _)
    · intro _ hes
      rw [hP]; exact chain_head hck hve hes
    · rw [hP]; exact c1
    · rw [hP]; show List.Chain' (fun a b => b = st.parent a) _; rw [hr3]; exact l1
    · rw [hP]; intro l hl
      exact ⟨c2 l hl, (by show st.parent l = s; rw [hr3]; exact l2 l hl)⟩
    · rw [hP]; intro p hp
      obtain ⟨h1, h2, _⟩ := chainOf_mem hck _ e hve p hp
      exact ⟨(by show st.visited p = true; rw [hr2]; exact h1), h2⟩
    · rw [hP]; exact chainOf_nodup hck _ e hve
    · show st.visited s = true; rw [hr2]; exact hI.vis_start
    · intro p hp
      change st.visited p = true at hp
      rw [hr2] at hp; exact hI.vis_inb p hp
    · intro p hp hps
      change st.visited p = true at hp
      rw [hr2] at hp; exact (hI.vis_par p hp hps).2.2.1
    · intro p hp
      show st.parent p = noParent
      change (st.visited p = false ∨ p = s) at hp
      rw [hr2] at hp; rw [hr3]; exact hI.par_none p hp
    · intro p hp hps
      change st.visited p = true at hp
      show st.visited (st.parent p) = true ∧ manhattan (st.parent p) p = 1
      rw [hr2] at hp ⊢
      rw [hr3]
      exact ⟨(hI.vis_par p hp hps).1, (hI.vis_par p hp hps).2.1⟩
    · intro p
      rw [hP]
      show st.grid p = if p ∈ _ then _ else if st.visited p = true ∧ p ≠ s then _ else _
      rw [hr5 p, hr2, hI.grid_eq p]
    · intro p
      rw [hpush]
      show _ ↔ st.visited p = true
      rw [hr2]; exact hT.pushes p
    · rw [hpush, hvis]; exact hT.visuals
    · show Paired st.trace
      rw [hr4, List.append_assoc]
      apply hT.paired.append_plain
      intro x hx q hq
      rw [hq] at hx
      simp at hx

end VisitedSound

/-! ## dijkstra, aStar: the structural invariant -/

section Relax
variable {α : Type} {N : Nat} {C : Container α} {mk : Pos → Nat → α} {pos : α → Pos}
  {gOf : α → Nat}

theorem relax_pos {cur : Pos} {gcur : Nat} {st : DState C.σ} {d : Int × Int}
    (hc : relaxable N st gcur (cur.1 + d.1, cur.2 + d.2)) :
    relax N C mk cur gcur st d =
      { grid := updateVisual st.grid (cur.1 + d.1, cur.2 + d.2)
        frontier := C.push st.frontier (mk (cur.1 + d.1, cur.2 + d.2) (gcur + 1))
        dist := setAt st.dist (cur.1 + d.1, cur.2 + d.2) (some (gcur + 1))
        parent := setAt st.parent (cur.1 + d.1, cur.2 + d.2) cur
        trace := st.trace ++ [Event.push (cur.1 + d.1, cur.2 + d.2),
          Event.visual (cur.1 + d.1, cur.2 + d.2)] } := by
  unfold relaxable at hc
  unfold relax
  simp only []
  rw [if_pos hc.1, if_pos hc.2]

theorem relax_neg {cur : Pos} {gcur : Nat} {st : DState C.σ} {d : Int × Int}
    (hc : ¬ relaxable N st gcur (cur.1 + d.1, cur.2 + d.2)) :
    relax N C mk cur gcur st d = st := by
  unfold relaxable at hc
  unfold relax
  simp only []
  by_cases h1 : inBounds N (cur.1 + d.1, cur.2 + d.2) ∧
      st.grid (cur.1 + d.1, cur.2 + d.2) ≠ CellType.Wall
  · rw [if_pos h1, if_neg (fun h2 => hc ⟨h1, h2⟩)]
  · rw [if_neg h1]

theorem reachedCount_le {σ : Type} (st : DState σ) : reachedCount N st ≤ N * N :=
  card_filter_le_cells N _

theorem relaxable_facts {g0 : Grid} {s : Pos} {st : DState C.σ}
    (h : DInv N C mk pos gOf g0 s st) {gcur : Nat} {n : Pos} (hc : relaxable N st gcur n) :
    inBounds N n ∧ g0 n ≠ CellType.Wall ∧ n ≠ s ∧
      (st.dist n = none ∨ ∃ d0, st.dist n = some d0 ∧ gcur + 1 < d0) := by
  obtain ⟨⟨h1, h2⟩, h3⟩ := hc
  have hns : n ≠ s := by
    intro e
    rw [e, h.dist_start] at h3
    simp [ltInf] at h3
  have hd : st.dist n = none ∨ ∃ d0, st.dist n = some d0 ∧ gcur + 1 < d0 := by
    cases hdn : st.dist n with
    | none => left; rfl
    | some d0 =>
      right
      rw [hdn] at h3
      exact ⟨d0, rfl, by simpa [ltInf] using h3⟩
  refine ⟨h1, ?_, hns, hd⟩
  rcases hd with hd | ⟨d0, hd, _⟩
  · have := h.grid_eq n
    rw [hd] at this
    simp at this
    rwa [this] at h2
  · exact (h.dist_par n d0 hd hns).choose_spec.2.2.2

theorem reachedCount_mono {st st' : DState C.σ}
    (hmono : ∀ p, (st.dist p).isSome = true → (st'.dist p).isSome = true) :
    reachedCount N st ≤ reachedCount N st' := by
  unfold reachedCount
  apply Finset.card_le_card
  intro p hp
  simp only [Finset.mem_filter] at hp ⊢
  exact ⟨hp.1, hmono p hp.2⟩

theorem reachedCount_lt (st st' : DState C.σ) {n : Pos} (hn : inBounds N n)
    (hv : st.dist n = none) (hst : ∀ p, (st'.dist p).isSome = (setAt (fun q => (st.dist q).isSome)
      n true) p) :
    reachedCount N st < reachedCount N st' := by
  unfold reachedCount
  apply card_filter_lt_of_new _ _ n hn
  · simp [hv]
  · rw [hst, setAt_same]
  · intro p hp
    rw [hst, setAt_apply]
    split
    · rfl
    · exact hp

/-- One turn of the neighbour loop keeps the structural invariant. -/
theorem relax_inv (hpos : ∀ p d, pos (mk p d) = p) (hg : ∀ p d, gOf (mk p d) = d)
    {g0 : Grid} {s : Pos} {st : DState C.σ} (h : DInv N C mk pos gOf g0 s st)
    {cur : Pos} {gcur : Nat} (hcur : CurOK N g0 s st cur gcur)
    {d : Int × Int} (hd : d ∈ dirs4) :
    DInv N C mk pos gOf g0 s (relax N C mk cur gcur st d) ∧
      CurOK N g0 s (relax N C mk cur gcur st d) cur gcur := by
  by_cases hc : relaxable N st gcur (cur.1 + d.1, cur.2 + d.2)
  · obtain ⟨hin, hw, hns, hdn⟩ := relaxable_facts h hc
    have hadj : manhattan cur (cur.1 + d.1, cur.2 + d.2) = 1 := manhattan_step hd
    rw [relax_pos hc]
    generalize (cur.1 + d.1, cur.2 + d.2) = n at *
    have hnc : n ≠ cur := by
      intro e; rw [e, manhattan_self] at hadj; omega
    obtain ⟨dc, hdc, hdcle⟩ := hcur.dist_le
    set st' : DState C.σ :=
      { grid := updateVisual st.grid n
        frontier := C.push st.frontier (mk n (gcur + 1))
        dist := setAt st.dist n (some (gcur + 1))
        parent := setAt st.parent n cur
        trace := st.trace ++ [Event.push n, Event.visual n] } with hst'
    have hmonoK : reachedCount N st ≤ reachedCount N st' := by
      apply reachedCount_mono
      intro p hp
      show (setAt st.dist n (some (gcur + 1)) p).isSome = true
      rw [setAt_apply]; split
      · rfl
      · exact hp
    have hnewK : gcur + 1 < reachedCount N st' := by
      rcases hdn with hnone | ⟨d0, hd0, hlt⟩
      · have : reachedCount N st < reachedCount N st' := by
          apply reachedCount_lt st st' hin hnone
          intro p
          show (setAt st.dist n (some (gcur + 1)) p).isSome = _
          rw [setAt_apply, setAt_apply]
          split <;> rfl
        have := hcur.lt
        omega
      · have := h.dist_lt n d0 hd0
        omega
    have hwalk : Walk N g0 s n (gcur + 1) := Walk.step hcur.walk hadj hin hw
    have hdist' : ∀ p dp, st'.dist p = some dp →
        (p = n ∧ dp = gcur + 1) ∨ (p ≠ n ∧ st.dist p = some dp) := by
      intro p dp hp
      change setAt st.dist n (some (gcur + 1)) p = some dp at hp
      by_cases hpn : p = n
      · left
        rw [hpn, setAt_same] at hp
        exact ⟨hpn, by simpa using hp.symm⟩
      · right
        rw [setAt_other _ _ _ _ hpn] at hp
        exact ⟨hpn, hp⟩
    have hdown : ∀ p dp, st.dist p = some dp → ∃ dp', st'.dist p = some dp' ∧ dp' ≤ dp := by
      intro p dp hp
      show ∃ dp', setAt st.dist n (some (gcur + 1)) p = some dp' ∧ dp' ≤ dp
      by_cases hpn : p = n
      · rw [hpn, setAt_same]
        rcases hdn with hnone | ⟨d0, hd0, hlt⟩
        · rw [hpn, hnone] at hp; cases hp
        · rw [hpn, hd0] at hp
          have : d0 = dp := by simpa using hp
          exact ⟨gcur + 1, rfl, by omega⟩
      · rw [setAt_other _ _ _ _ hpn]
        exact ⟨dp, hp, le_refl _⟩
    refine ⟨⟨h.start_inb, ?_, ?_, ?_, ?_, ?_, ?_, ?_, ?_, ?_, ?_, ?_⟩, ⟨?_, hcur.walk, ?_⟩⟩
    · show setAt st.dist n (some (gcur + 1)) s = some 0
      rw [setAt_other _ _ _ _ (Ne.symm hns)]; exact h.dist_start
    · intro p hp
      show setAt st.parent n cur p = noParent
      have hpn : p ≠ n := by
        rcases hp with hp | hp
        · intro e
          change setAt st.dist n (some (gcur + 1)) p = none at hp
          rw [e, setAt_same] at hp; cases hp
        · rw [hp]; exact Ne.symm hns
      rw [setAt_other _ _ _ _ hpn]
      apply h.par_none
      rcases hp with hp | hp
      · left
        change setAt st.dist n (some (gcur + 1)) p = none at hp
        rwa [setAt_other _ _ _ _ hpn] at hp
      · right; exact hp
    · intro p dp hp
      rcases hdist' p dp hp with ⟨hpn, _⟩ | ⟨_, hold⟩
      · rw [hpn]; exact hin
      · exact h.dist_inb p dp hold
    · intro p dp hp hps
      show ∃ d', setAt st.dist n (some (gcur + 1)) (setAt st.parent n cur p) = some d' ∧
        d' + 1 ≤ dp ∧ manhattan (setAt st.parent n cur p) p = 1 ∧ g0 p ≠ CellType.Wall
      rcases hdist' p dp hp with ⟨hpn, hdp⟩ | ⟨hpn, hold⟩
      · rw [hpn, setAt_same, setAt_other _ _ _ _ (Ne.symm hnc)]
        exact ⟨dc, hdc, by omega, hadj, hw⟩
      · rw [setAt_other _ _ _ _ hpn]
        obtain ⟨d', h1, h2, h3, h4⟩ := h.dist_par p dp hold hps
        obtain ⟨d'', h5, h6⟩ := hdown _ _ h1
        exact ⟨d'', h5, by omega, h3, h4⟩
    · intro p dp hp
      rcases hdist' p dp hp with ⟨hpn, hdp⟩ | ⟨_, hold⟩
      · rw [hpn, hdp]; exact hwalk
      · exact h.dist_walk p dp hold
    · intro p dp hp
      rcases hdist' p dp hp with ⟨hpn, hdp⟩ | ⟨_, hold⟩
      · rw [hdp]; exact hnewK
      · have := h.dist_lt p dp hold
        omega
    · intro a ha
      rcases List.mem_cons.mp ((C.items_push _ _).mem_iff.mp ha) with e | hmem
      · rw [e, hpos, hg]
        exact ⟨gcur + 1, setAt_same _ _ _, le_refl _⟩
      · obtain ⟨da, h1, h2⟩ := h.items_dist a hmem
        obtain ⟨da', h3, h4⟩ := hdown _ _ h1
        exact ⟨da', h3, by omega⟩
    · intro a ha
      rcases List.mem_cons.mp ((C.items_push _ _).mem_iff.mp ha) with e | hmem
      · rw [e, hpos, hg]
      · exact h.items_mk a hmem
    · intro a ha
      rcases List.mem_cons.mp ((C.items_push _ _).mem_iff.mp ha) with e | hmem
      · rw [e, hpos, hg]; exact hwalk
      · exact h.items_walk a hmem
    · intro a ha
      rcases List.mem_cons.mp ((C.items_push _ _).mem_iff.mp ha) with e | hmem
      · rw [e, hg]; exact hnewK
      · have := h.items_lt a hmem
        omega
    · intro p
      show updateVisual st.grid n p =
        if (setAt st.dist n (some (gcur + 1)) p).isSome = true ∧ p ≠ s
          then visTag (g0 p) else g0 p
      rw [updateVisual_apply]
      by_cases hpn : p = n
      · rw [hpn, setAt_same, h.grid_eq n]
        simp only [if_true, Option.isSome_some, true_and, hns, ne_eq, not_false_eq_true]
        split
        · exact visTag_idem _
        · rfl
      · rw [if_neg hpn, setAt_other _ _ _ _ hpn]
        exact h.grid_eq p
    · exact ⟨dc, by
        show setAt st.dist n (some (gcur + 1)) cur = some dc
        rw [setAt_other _ _ _ _ (Ne.symm hnc)]; exact hdc, hdcle⟩
    · have := hcur.lt
      omega
  · rw [relax_neg hc]
    exact ⟨h, hcur⟩

end Relax

section RelaxLoop
variable {α : Type} {N : Nat} {C : Container α} {mk : Pos → Nat → α} {pos : α → Pos}
  {gOf : α → Nat}

theorem relaxLoop_none (stale : Bool) (deltas : List (Int × Int)) (s e : Pos) (fuel : Nat)
    (st : DState C.σ) (h : C.pop st.frontier = none) :
    relaxLoop N C mk pos gOf stale deltas s e (fuel + 1) st = .ok (false, st) := by
  simp only [relaxLoop, h]

theorem relaxLoop_end (stale : Bool) (deltas : List (Int × Int)) (s e : Pos) (fuel : Nat)
    (st : DState C.σ) (a : α) (rest : C.σ)
    (h : C.pop st.frontier = some (a, rest)) (he : pos a = e) :
    relaxLoop N C mk pos gOf stale deltas s e (fuel + 1) st
      = finishD N s e (popD pos st a rest) := by
  simp only [relaxLoop, h, he, if_true, popD]

theorem relaxLoop_step (stale : Bool) (deltas : List (Int × Int)) (hdel : deltas = dirs4)
    (s e : Pos) (fuel : Nat) (st : DState C.σ) (a : α) (rest : C.σ)
    (h : C.pop st.frontier = some (a, rest)) (he : pos a ≠ e) :
    relaxLoop N C mk pos gOf stale deltas s e (fuel + 1) st =
      relaxLoop N C mk pos gOf stale deltas s e fuel (nextD N C mk pos gOf stale st a rest) := by
  subst hdel
  simp only [relaxLoop, h, he, if_false, nextD, popD]
  split <;> rfl

/-- The loop rule for `dijkstra` and `aStar`: when every turn of the loop
keeps `Inv` and lowers the measure `μ`, a run with enough fuel ends in a state
`stF` that satisfies `Inv`, either with an empty queue and the verdict `false`,
or with `endPos` popped and the exit through `reconstructPath`. -/
theorem relaxLoop_rule (mk : Pos → Nat → α) (pos : α → Pos) (gOf : α → Nat) (stale : Bool)
    (deltas : List (Int × Int)) (hdel : deltas = dirs4)
    (s e : Pos) (Inv : DState C.σ → Prop) (μ : DState C.σ → Nat)
    (hturn : ∀ st a rest, Inv st → C.pop st.frontier = some (a, rest) → pos a ≠ e →
      Inv (nextD N C mk pos gOf stale st a rest) ∧
      μ (nextD N C mk pos gOf stale st a rest) < μ st) :
    ∀ fuel st, Inv st → μ st < fuel →
      ∃ stF, Inv stF ∧
        ((C.pop stF.frontier = none ∧
            relaxLoop N C mk pos gOf stale deltas s e fuel st = .ok (false, stF)) ∨
         (∃ a rest, C.pop stF.frontier = some (a, rest) ∧ pos a = e ∧
            relaxLoop N C mk pos gOf stale deltas s e fuel st
              = finishD N s e (popD pos stF a rest))) := by
  intro fuel
  induction fuel with
  | zero => intro st _ hμ; omega
  | succ fuel ih =>
    intro st hI hμ
    cases hp : C.pop st.frontier with
    | none => exact ⟨st, hI, Or.inl ⟨hp, relaxLoop_none stale deltas s e fuel st hp⟩⟩
    | some ar =>
      obtain ⟨a, rest⟩ := ar
      by_cases he : pos a = e
      · exact ⟨st, hI, Or.inr ⟨a, rest, hp, he,
          relaxLoop_end stale deltas s e fuel st a rest hp he⟩⟩
      · obtain ⟨hI', hμ'⟩ := hturn st a rest hI hp he
        obtain ⟨stF, hF, hres⟩ := ih _ hI' (by omega)
        rw [← relaxLoop_step stale deltas hdel s e fuel st a rest hp he] at hres
        exact ⟨stF, hF, hres⟩

/-- A property kept by every turn of the neighbour loop holds after it. -/
theorem foldl_relax_inv (mk : Pos → Nat → α) (cur : Pos) (gcur : Nat)
    (P : DState C.σ → Prop)
    (hstep : ∀ st d, d ∈ dirs4 → P st → P (relax N C mk cur gcur st d)) :
    ∀ ds : List (Int × Int), (∀ d ∈ ds, d ∈ dirs4) → ∀ st, P st →
      P (ds.foldl (relax N C mk cur gcur) st) := by
  intro ds
  induction ds with
  | nil => intro _ st h; exact h
  | cons d ds ih =>
    intro hsub st h
    simp only [List.foldl_cons]
    exact ih (fun x hx => hsub x (List.mem_cons_of_mem _ hx)) _
      (hstep st d (hsub d (List.mem_cons_self _ _)) h)

/-- A property established by the turn for the pair `d` and kept by the later
turns holds for every pair after the neighbour loop. -/
theorem foldl_relax_all (mk : Pos → Nat → α) (cur : Pos) (gcur : Nat)
    (Inv : DState C.σ → Prop)
    (Q : Int × Int → DState C.σ → Prop)
    (hinv : ∀ st d, d ∈ dirs4 → Inv st → Inv (relax N C mk cur gcur st d))
    (hest : ∀ st d, d ∈ dirs4 → Inv st → Q d (relax N C mk cur gcur st d))
    (hkeep : ∀ st d d', d' ∈ dirs4 → Inv st → Q d st → Q d (relax N C mk cur gcur st d')) :
    ∀ ds : List (Int × Int), (∀ d ∈ ds, d ∈ dirs4) → ∀ st, Inv st →
      ∀ d ∈ ds, Q d (ds.foldl (relax N C mk cur gcur) st) := by
  have keepAll : ∀ ds : List (Int × Int), (∀ d ∈ ds, d ∈ dirs4) → ∀ st d, Inv st → Q d st →
      Q d (ds.foldl (relax N C mk cur gcur) st) := by
    intro ds
    induction ds with
    | nil => intro _ st d _ h; exact h
    | cons d' ds ih =>
      intro hsub st d hI h
      simp only [List.foldl_cons]
      exact ih (fun x hx => hsub x (List.mem_cons_of_mem _ hx)) _ d
        (hinv st d' (hsub d' (List.mem_cons_self _ _)) hI)
        (hkeep st d d' (hsub d' (List.mem_cons_self _ _)) hI h)
  intro ds
  induction ds with
  | nil => intro _ st _ d hd; simp at hd
  | cons d' ds ih =>
    intro hsub st hI d hd
    have hd' := hsub d' (List.mem_cons_self _ _)
    have hsub' : ∀ x ∈ ds, x ∈ dirs4 := fun x hx => hsub x (List.mem_cons_of_mem _ hx)
    simp only [List.foldl_cons]
    rcases List.mem_cons.mp hd with e | hmem
    · subst e
      exact keepAll ds hsub' _ d (hinv st d hd' hI) (hest st d hd' hI)
    · exact ih hsub' _ (hinv st d' hd' hI) d hmem

theorem measureD_relax {g0 : Grid} {s : Pos} {st : DState C.σ}
    (h : DInv N C mk pos gOf g0 s st) {cur : Pos} {gcur : Nat}
    (hcur : CurOK N g0 s st cur gcur) (d : Int × Int) :
    measureD N C (relax N C mk cur gcur st d) ≤ measureD N C st := by
  by_cases hc : relaxable N st gcur (cur.1 + d.1, cur.2 + d.2)
  · obtain ⟨hin, hw, hns, hdn⟩ := relaxable_facts h hc
    rw [relax_pos hc]
    generalize (cur.1 + d.1, cur.2 + d.2) = n at *
    have hlen : (C.items (C.push st.frontier (mk n (gcur + 1)))).length
        = (C.items st.frontier).length + 1 := by
      simpa using (C.items_push st.frontier (mk n (gcur + 1))).length_eq
    have hnew : gcur + 1 < distWeight N (st.dist n) := by
      rcases hdn with hnone | ⟨d0, hd0, hlt⟩
      · rw [hnone]
        show gcur + 1 < N * N
        have h1 : reachedCount N st < N * N := by
          have := reachedCount_lt (N := N) st
            { st with dist := setAt st.dist n (some 0) } hin hnone (by
              intro p
              show (setAt st.dist n (some 0) p).isSome = _
              rw [setAt_apply, setAt_apply]
              split <;> rfl)
          have h2 := reachedCount_le (N := N) { st with dist := setAt st.dist n (some 0) }
          omega
        have := hcur.lt
        omega
      · rw [hd0]; exact hlt
    have hpot : potential N
        ({ grid := updateVisual st.grid n
           frontier := C.push st.frontier (mk n (gcur + 1))
           dist := setAt st.dist n (some (gcur + 1))
           parent := setAt st.parent n cur
           trace := st.trace ++ [Event.push n, Event.visual n] } : DState C.σ)
        < potential N st := by
      unfold potential
      apply Finset.sum_lt_sum
      · intro p _
        show distWeight N (setAt st.dist n (some (gcur + 1)) p) ≤ _
        by_cases hpn : p = n
        · rw [hpn, setAt_same]
          exact le_of_lt hnew
        · rw [setAt_other _ _ _ _ hpn]
      · refine ⟨n, mem_cells.mpr hin, ?_⟩
        show distWeight N (setAt st.dist n (some (gcur + 1)) n) < _
        rw [setAt_same]
        exact hnew
    unfold measureD
    rw [hlen]
    omega
  · rw [relax_neg hc]

theorem measureD_popD (pos : α → Pos) (st : DState C.σ) (a : α) (rest : C.σ)
    (hp : C.pop st.frontier = some (a, rest)) :
    measureD N C (popD pos st a rest) + 1 = measureD N C st := by
  have := (C.pop_some _ _ _ hp).length_eq
  simp only [List.length_cons] at this
  unfold measureD
  rw [this]
  rfl

theorem popD_inv {g0 : Grid} {s : Pos} {st : DState C.σ}
    (h : DInv N C mk pos gOf g0 s st) (a : α) (rest : C.σ)
    (hp : C.pop st.frontier = some (a, rest)) :
    DInv N C mk pos gOf g0 s (popD pos st a rest) ∧
      CurOK N g0 s (popD pos st a rest) (pos a) (gOf a) := by
  have hperm := C.pop_some _ _ _ hp
  have hsub : ∀ b ∈ C.items rest, b ∈ C.items st.frontier :=
    fun b hb => hperm.mem_iff.mpr (List.mem_cons_of_mem _ hb)
  have ha : a ∈ C.items st.frontier := hperm.mem_iff.mpr (List.mem_cons_self _ _)
  refine ⟨⟨h.start_inb, h.dist_start, h.par_none, h.dist_inb, h.dist_par, h.dist_walk,
    h.dist_lt, fun b hb => h.items_dist b (hsub b hb), fun b hb => h.items_mk b (hsub b hb),
    fun b hb => h.items_walk b (hsub b hb), fun b hb => h.items_lt b (hsub b hb),
    h.grid_eq⟩, ⟨h.items_dist a ha, h.items_walk a ha, h.items_lt a ha⟩⟩

end RelaxLoop

/-! ## dijkstra, aStar: traces and the frontier property -/

section RelaxClosure
variable {α : Type} {N : Nat} {C : Container α} {mk : Pos → Nat → α} {pos : α → Pos}
  {gOf : α → Nat}

theorem relax_trace {s : Pos} {st : DState C.σ} (h : DTrace s st) (cur : Pos) (gcur : Nat)
    (d : Int × Int) : DTrace s (relax N C mk cur gcur st d) := by
  by_cases hc : relaxable N st gcur (cur.1 + d.1, cur.2 + d.2)
  · rw [relax_pos hc]
    generalize (cur.1 + d.1, cur.2 + d.2) = n at *
    have e1 : pushedCells [Event.push n, Event.visual n] = [n] := rfl
    have e2 : visualCells [Event.push n, Event.visual n] = [n] := rfl
    have e3 : pathCells [Event.push n, Event.visual n] = [] := rfl
    constructor
    · intro p
      show p ∈ pushedCells (st.trace ++ _) ↔ (setAt st.dist n (some (gcur + 1)) p).isSome = true
      rw [pushedCells_append, e1, List.mem_append, h.pushes p, setAt_apply]
      by_cases hpn : p = n
      · simp [hpn]
      · simp [hpn]
    · show pushedCells (st.trace ++ _) = s :: visualCells (st.trace ++ _)
      rw [pushedCells_append, visualCells_append, e1, e2, h.visuals]
      rfl
    · show pathCells (st.trace ++ _) = []
      rw [pathCells_append, e3, h.no_path]
      rfl
    · exact h.paired.append_push_visual n
  · rw [relax_neg hc]; exact h

theorem popD_trace (pos : α → Pos) {s : Pos} {st : DState C.σ} (h : DTrace s st) (a : α)
    (rest : C.σ) :
    DTrace s (popD pos st a rest) := by
  constructor
  · intro p
    show p ∈ pushedCells (st.trace ++ _) ↔ _
    rw [pushedCells_append, pushedCells_single_pop, List.append_nil]
    exact h.pushes p
  · show pushedCells (st.trace ++ _) = s :: visualCells (st.trace ++ _)
    rw [pushedCells_append, visualCells_append, pushedCells_single_pop,
      visualCells_single_pop, List.append_nil, List.append_nil]
    exact h.visuals
  · show pathCells (st.trace ++ _) = []
    rw [pathCells_append, pathCells_single_pop, List.append_nil]
    exact h.no_path
  · exact h.paired.append_one (fun p hp => by cases hp)

theorem relax_items_mono {cur : Pos} {gcur : Nat} {st : DState C.σ} {d : Int × Int} {b : α}
    (hb : b ∈ C.items st.frontier) : b ∈ C.items (relax N C mk cur gcur st d).frontier := by
  by_cases hc : relaxable N st gcur (cur.1 + d.1, cur.2 + d.2)
  · rw [relax_pos hc]
    exact (C.items_push _ _).mem_iff.mpr (List.mem_cons_of_mem _ hb)
  · rw [relax_neg hc]; exact hb

/-- A turn of the neighbour loop either leaves the distance of a cell as it
is, or lowers it and pushes an entry with the new distance. -/
theorem relax_dist_cases (hpos : ∀ p d, pos (mk p d) = p) (hg : ∀ p d, gOf (mk p d) = d)
    (cur : Pos) (gcur : Nat) (st : DState C.σ) (d : Int × Int) (p : Pos) :
    (relax N C mk cur gcur st d).dist p = st.dist p ∨
    ((relax N C mk cur gcur st d).dist p = some (gcur + 1) ∧
      ltInf (gcur + 1) (st.dist p) = true ∧
      ∃ a ∈ C.items (relax N C mk cur gcur st d).frontier, pos a = p ∧ gOf a = gcur + 1) := by
  by_cases hc : relaxable N st gcur (cur.1 + d.1, cur.2 + d.2)
  · rw [relax_pos hc]
    by_cases hpn : p = (cur.1 + d.1, cur.2 + d.2)
    · right
      refine ⟨by rw [hpn]; exact setAt_same _ _ _, by rw [hpn]; exact hc.2, ?_⟩
      exact ⟨mk (cur.1 + d.1, cur.2 + d.2) (gcur + 1),
        (C.items_push _ _).mem_iff.mpr (List.mem_cons_self _ _), by rw [hpos, hpn], hg _ _⟩
    · left
      exact setAt_other _ _ _ _ hpn
  · rw [relax_neg hc]; left; rfl

theorem relax_dist_down (hpos : ∀ p d, pos (mk p d) = p) (hg : ∀ p d, gOf (mk p d) = d)
    (cur : Pos) (gcur : Nat) (st : DState C.σ) (d : Int × Int) {p : Pos} {dp : Nat}
    (hp : st.dist p = some dp) :
    ∃ dp', (relax N C mk cur gcur st d).dist p = some dp' ∧ dp' ≤ dp := by
  rcases relax_dist_cases (N := N) (C := C) hpos hg cur gcur st d p with h | ⟨h1, h2, _⟩
  · exact ⟨dp, by rw [h, hp], le_refl _⟩
  · rw [hp] at h2
    exact ⟨gcur + 1, h1, by
      have : gcur + 1 < dp := by simpa [ltInf] using h2
      omega⟩

theorem relax_settled_mono (hpos : ∀ p d, pos (mk p d) = p) (hg : ∀ p d, gOf (mk p d) = d)
    {g0 : Grid} (cur : Pos) (gcur : Nat) (st : DState C.σ) (d : Int × Int) {v : Pos} {dv : Nat}
    (h : Settled N g0 st v dv) : Settled N g0 (relax N C mk cur gcur st d) v dv := by
  intro n h1 h2 h3
  obtain ⟨d', h4, h5⟩ := h n h1 h2 h3
  obtain ⟨d'', h6, h7⟩ := relax_dist_down (N := N) (C := C) hpos hg cur gcur st d h4
  exact ⟨d'', h6, by omega⟩

theorem relax_closure (hpos : ∀ p d, pos (mk p d) = p) (hg : ∀ p d, gOf (mk p d) = d)
    {g0 : Grid} {s e : Pos} {c : Option (Pos × Nat)} {st : DState C.σ}
    (h : DClosure N C pos gOf g0 s e c st) (cur : Pos) (gcur : Nat) (d : Int × Int) :
    DClosure N C pos gOf g0 s e c (relax N C mk cur gcur st d) := by
  constructor
  · intro v dv hv hmin
    rcases relax_dist_cases (N := N) (C := C) hpos hg cur gcur st d v with hsame | ⟨h1, _, h3⟩
    · rw [hsame] at hv
      rcases h.closed v dv hv hmin with ⟨b, hb, hbp⟩ | hc | hx
      · left; exact ⟨b, relax_items_mono hb, hbp⟩
      · right; left; exact hc
      · right; right; exact relax_settled_mono hpos hg cur gcur st d hx
    · left
      rw [h1] at hv
      have : gcur + 1 = dv := by simpa using hv
      rw [← this]; exact h3
  · intro hv
    rcases relax_dist_cases (N := N) (C := C) hpos hg cur gcur st d e with hsame | ⟨_, _, h3⟩
    · rw [hsame] at hv
      obtain ⟨b, hb, hbe⟩ := h.end_item hv
      exact ⟨b, relax_items_mono hb, hbe⟩
    · obtain ⟨a, ha, hae, _⟩ := h3
      exact ⟨a, ha, hae⟩

/-- After the turn for the pair `d` the neighbour `cur + d` has a distance of
at most `gcur + 1` if the search may step on it. -/
theorem relax_target {g0 : Grid} {s : Pos} {st : DState C.σ}
    (h : DInv N C mk pos gOf g0 s st) (cur : Pos) (gcur : Nat) (d : Int × Int)
    (hin : inBounds N (cur.1 + d.1, cur.2 + d.2))
    (hw : g0 (cur.1 + d.1, cur.2 + d.2) ≠ CellType.Wall) :
    ∃ d', (relax N C mk cur gcur st d).dist (cur.1 + d.1, cur.2 + d.2) = some d' ∧
      d' ≤ gcur + 1 := by
  by_cases hc : relaxable N st gcur (cur.1 + d.1, cur.2 + d.2)
  · rw [relax_pos hc]
    exact ⟨gcur + 1, setAt_same _ _ _, le_refl _⟩
  · rw [relax_neg hc]
    have hgrid : st.grid (cur.1 + d.1, cur.2 + d.2) ≠ CellType.Wall := by
      rw [h.grid_eq]
      split
      · exact visTag_ne_wall _
      · exact hw
    cases hdn : st.dist (cur.1 + d.1, cur.2 + d.2) with
    | none =>
      exfalso
      apply hc
      refine ⟨⟨hin, hgrid⟩, ?_⟩
      rw [hdn]; rfl
    | some d0 =>
      refine ⟨d0, rfl, ?_⟩
      by_contra hlt
      apply hc
      refine ⟨⟨hin, hgrid⟩, ?_⟩
      rw [hdn]
      simp only [ltInf, decide_eq_true_eq]
      omega

end RelaxClosure

/-! ## dijkstra, aStar: the result of a run -/

section RelaxResult
variable {α : Type} {N : Nat} {C : Container α} {mk : Pos → Nat → α} {pos : α → Pos}
  {gOf : α → Nat}

/-- One turn of the main loop of `dijkstra` or `aStar` keeps the structural
invariant, the shape of the trace and the frontier property, and lowers the
measure. -/
theorem turn_relax (hpos : ∀ p d, pos (mk p d) = p) (hg : ∀ p d, gOf (mk p d) = d)
    (stale : Bool) {g0 : Grid} {s e : Pos} {st : DState C.σ}
    (hI : DInv N C mk pos gOf g0 s st) (hT : DTrace s st)
    (hC : DClosure N C pos gOf g0 s e none st) {a : α} {rest : C.σ}
    (hp : C.pop st.frontier = some (a, rest)) (he : pos a ≠ e) :
    DInv N C mk pos gOf g0 s (nextD N C mk pos gOf stale st a rest) ∧
      DTrace s (nextD N C mk pos gOf stale st a rest) ∧
      DClosure N C pos gOf g0 s e none (nextD N C mk pos gOf stale st a rest) ∧
      measureD N C (nextD N C mk pos gOf stale st a rest) < measureD N C st := by
  obtain ⟨hI1, hcur⟩ := popD_inv hI a rest hp
  have hT1 := popD_trace pos hT a rest
  have hm1 := measureD_popD (N := N) pos st a rest hp
  have hperm := C.pop_some _ _ _ hp
  unfold nextD
  split
  · rename_i hstale
    refine ⟨hI1, hT1, ⟨?_, ?_⟩, by omega⟩
    · intro v d hv hmin
      rcases hC.closed v d hv hmin with ⟨b, hb, hbp, hbg⟩ | hc | hx
      · rcases List.mem_cons.mp (hperm.mem_iff.mp hb) with e1 | hmem
        · exfalso
          rw [e1] at hbp hbg
          rw [hbp, hbg] at hstale
          change st.dist v = some d at hv
          rw [hv] at hstale
          simp [gtInf] at hstale
        · left; exact ⟨b, hmem, hbp, hbg⟩
      · cases hc
      · right; right; exact hx
    · intro hv
      obtain ⟨b, hb, hbe⟩ := hC.end_item hv
      rcases List.mem_cons.mp (hperm.mem_iff.mp hb) with e1 | hmem
      · rw [e1] at hbe; exact absurd hbe he
      · exact ⟨b, hmem, hbe⟩
  · have hC1 : DClosure N C pos gOf g0 s e (some (pos a, gOf a)) (popD pos st a rest) := by
      constructor
      · intro v d hv hmin
        rcases hC.closed v d hv hmin with ⟨b, hb, hbp, hbg⟩ | hc | hx
        · rcases List.mem_cons.mp (hperm.mem_iff.mp hb) with e1 | hmem
          · right; left; rw [← hbp, ← hbg, e1]
          · left; exact ⟨b, hmem, hbp, hbg⟩
        · cases hc
        · right; right; exact hx
      · intro hv
        obtain ⟨b, hb, hbe⟩ := hC.end_item hv
        rcases List.mem_cons.mp (hperm.mem_iff.mp hb) with e1 | hmem
        · rw [e1] at hbe; exact absurd hbe he
        · exact ⟨b, hmem, hbe⟩
    have key := foldl_relax_inv (N := N) (C := C) mk (pos a) (gOf a)
      (fun x => DInv N C mk pos gOf g0 s x ∧ CurOK N g0 s x (pos a) (gOf a) ∧ DTrace s x ∧
        DClosure N C pos gOf g0 s e (some (pos a, gOf a)) x ∧
        measureD N C x ≤ measureD N C (popD pos st a rest))
      (fun x d hd hx =>
        ⟨(relax_inv hpos hg hx.1 hx.2.1 hd).1, (relax_inv hpos hg hx.1 hx.2.1 hd).2,
          relax_trace hx.2.2.1 _ _ _, relax_closure hpos hg hx.2.2.2.1 _ _ _,
          le_trans (measureD_relax hx.1 hx.2.1 _) hx.2.2.2.2⟩)
      dirs4 (fun _ hd => hd) (popD pos st a rest) ⟨hI1, hcur, hT1, hC1, le_refl _⟩
    obtain ⟨k1, _, k3, k4, k5⟩ := key
    have hall := foldl_relax_all (N := N) (C := C) mk (pos a) (gOf a)
      (fun x => DInv N C mk pos gOf g0 s x ∧ CurOK N g0 s x (pos a) (gOf a))
      (fun d x => inBounds N ((pos a).1 + d.1, (pos a).2 + d.2) →
        g0 ((pos a).1 + d.1, (pos a).2 + d.2) ≠ CellType.Wall →
        ∃ d', x.dist ((pos a).1 + d.1, (pos a).2 + d.2) = some d' ∧ d' ≤ gOf a + 1)
      (fun x d hd hx => relax_inv hpos hg hx.1 hx.2 hd)
      (fun x d _ hx => fun hin hw => relax_target hx.1 (pos a) (gOf a) d hin hw)
      (fun x d d' _ _ hq => fun hin hw => by
        obtain ⟨d1, h1, h2⟩ := hq hin hw
        obtain ⟨d2, h3, h4⟩ := relax_dist_down (N := N) (C := C) hpos hg (pos a) (gOf a) x d' h1
        exact ⟨d2, h3, by omega⟩)
      dirs4 (fun _ hd => hd) (popD pos st a rest) ⟨hI1, hcur⟩
    refine ⟨k1, k3, ⟨?_, k4.end_item⟩, by omega⟩
    intro v d hv hmin
    rcases k4.closed v d hv hmin with hx | hx | hx
    · left; exact hx
    · right; right
      have hva : pos a = v ∧ gOf a = d := by simpa using hx
      obtain ⟨e1, e2⟩ := hva
      subst e1; subst e2
      intro n h1 h2 h3
      obtain ⟨dd, hd, hnd⟩ := exists_delta h1
      subst hnd
      exact hall dd hd h2 h3
    · right; right; exact hx

theorem DInv.chainD {g0 : Grid} {s : Pos} {st : DState C.σ}
    (h : DInv N C mk pos gOf g0 s st) :
    ChainOK N st.parent s (fun p => (st.dist p).isSome = true) (rankD st) :=
  ⟨fun p hp hps => by
    obtain ⟨d, hd⟩ := Option.isSome_iff_exists.mp hp
    obtain ⟨d', h1, h2, _, _⟩ := h.dist_par p d hd hps
    refine ⟨h.dist_inb p d hd, by rw [h1]; rfl, ?_⟩
    unfold rankD
    rw [h1, hd]
    simp only [Option.getD_some]
    omega⟩

theorem DInv.adjD {g0 : Grid} {s : Pos} {st : DState C.σ}
    (h : DInv N C mk pos gOf g0 s st) :
    ∀ p, (st.dist p).isSome = true → p ≠ s →
      manhattan (st.parent p) p = 1 ∧ g0 p ≠ CellType.Wall := by
  intro p hp hps
  obtain ⟨d, hd⟩ := Option.isSome_iff_exists.mp hp
  obtain ⟨d', _, _, h3, h4⟩ := h.dist_par p d hd hps
  exact ⟨h3, h4⟩

/-- A cell with a stored distance is joined to the start cell by parent
links: the exit through `reconstructPath` returns, with the chain tagged. -/
theorem finishD_ok {g0 : Grid} {s : Pos} {st : DState C.σ}
    (h : DInv N C mk pos gOf g0 s st) (e : Pos) (he : (st.dist e).isSome = true) :
    ∃ g', finishD N s e st = .ok (true, { st with
          grid := g'
          trace := st.trace ++ List.map Event.path (chainOf st.parent s (rankD st e) e) }) ∧
      ∀ p, g' p =
        if p ∈ chainOf st.parent s (rankD st e) e then CellType.Path else st.grid p := by
  have hfuel : rankD st e ≤ N * N := by
    obtain ⟨d, hd⟩ := Option.isSome_iff_exists.mp he
    have h1 := h.dist_lt e d hd
    have h2 := reachedCount_le (N := N) st
    unfold rankD
    rw [hd]
    simp only [Option.getD_some]
    omega
  obtain ⟨g', hg1, hg2⟩ := reconstructLoop_ok h.chainD (N * N) e st.grid [] he hfuel
  refine ⟨g', ?_, hg2⟩
  unfold finishD reconstructPath
  rw [hg1]
  rfl

theorem relaxInit_inv (hpos : ∀ p d, pos (mk p d) = p) (hg : ∀ p d, gOf (mk p d) = d)
    (g : Grid) {s : Pos} (hs : inBounds N s) (e : Pos) :
    DInv N C mk pos gOf g s (relaxInit C mk g s) ∧ DTrace s (relaxInit C mk g s) ∧
      DClosure N C pos gOf g s e none (relaxInit C mk g s) ∧
      measureD N C (relaxInit C mk g s) < 2 * (N * N) * (N * N) + 2 := by
  have hitems : ∀ a ∈ C.items (relaxInit C mk g s).frontier, a = mk s 0 := by
    intro a ha
    have := (C.items_push C.empty (mk s 0)).mem_iff.mp ha
    rw [C.items_empty] at this
    simpa using this
  have hmem : mk s 0 ∈ C.items (relaxInit C mk g s).frontier :=
    (C.items_push C.empty (mk s 0)).mem_iff.mpr (List.mem_cons_self _ _)
  have hdist : ∀ p d, (relaxInit C mk g s).dist p = some d → p = s ∧ d = 0 := by
    intro p d hp
    change setAt (fun _ => none) s (some 0) p = some d at hp
    rw [setAt_apply] at hp
    by_cases hps : p = s
    · rw [if_pos hps] at hp
      exact ⟨hps, by simpa using hp.symm⟩
    · rw [if_neg hps] at hp; cases hp
  have hds : (relaxInit C mk g s).dist s = some 0 := by
    show setAt (fun _ => none) s (some 0) s = some 0
    exact setAt_same _ _ _
  have hsome : ∀ p, ((relaxInit C mk g s).dist p).isSome = true → p = s := by
    intro p hp
    obtain ⟨d, hd⟩ := Option.isSome_iff_exists.mp hp
    exact (hdist p d hd).1
  have hlen : (C.items (relaxInit C mk g s).frontier).length = 1 := by
    have := (C.items_push C.empty (mk s 0)).length_eq
    rw [C.items_empty] at this
    simpa using this
  have hK : 0 < reachedCount N (relaxInit C mk g s) := by
    unfold reachedCount
    rw [Finset.card_pos]
    exact ⟨s, by simp [mem_cells, hs, hds]⟩
  refine ⟨⟨hs, hds, fun _ _ => rfl, ?_, ?_, ?_, ?_, ?_, ?_, ?_, ?_, ?_⟩, ⟨?_, rfl, rfl, ?_⟩,
    ⟨?_, ?_⟩, ?_⟩
  · intro p d hp; rw [(hdist p d hp).1]; exact hs
  · intro p d hp hps; exact absurd (hdist p d hp).1 hps
  · intro p d hp
    obtain ⟨h1, h2⟩ := hdist p d hp
    rw [h1, h2]; exact Walk.start
  · intro p d hp
    rw [(hdist p d hp).2]; exact hK
  · intro a ha
    rw [hitems a ha, hpos, hg]
    exact ⟨0, hds, le_refl _⟩
  · intro a ha; rw [hitems a ha, hpos, hg]
  · intro a ha; rw [hitems a ha, hpos, hg]; exact Walk.start
  · intro a ha; rw [hitems a ha, hg]; exact hK
  · intro p
    have : ¬ (((relaxInit C mk g s).dist p).isSome = true ∧ p ≠ s) := by
      rintro ⟨h1, h2⟩; exact h2 (hsome p h1)
    rw [if_neg this]; rfl
  · intro p
    show p ∈ pushedCells [Event.push s] ↔ _
    constructor
    · intro hp
      have : p = s := by simpa [pushedCells] using hp
      rw [this, hds]; rfl
    · intro hp
      rw [hsome p hp]
      simp [pushedCells]
  · intro l1 l2 p heq
    change [Event.push s] = l1 ++ Event.visual p :: l2 at heq
    have : Event.visual p ∈ [Event.push s] := by rw [heq]; simp
    simp at this
  · intro v d hv _
    left
    obtain ⟨h1, h2⟩ := hdist v d hv
    exact ⟨mk s 0, hmem, by rw [hpos, h1], by rw [hg, h2]⟩
  · intro he
    exact ⟨mk s 0, hmem, by rw [hpos, hsome e he]⟩
  · have hpot : potential N (relaxInit C mk g s) ≤ (N * N) * (N * N) := by
      unfold potential
      have := Finset.sum_le_card_nsmul (cells N)
        (fun p => distWeight N ((relaxInit C mk g s).dist p)) (N * N) (by
          intro p _
          show distWeight N (setAt (fun _ => none) s (some 0) p) ≤ N * N
          rw [setAt_apply]
          split
          · exact Nat.zero_le _
          · exact le_refl _)
      rw [card_cells] at this
      simpa using this
    unfold measureD
    rw [hlen]
    have h2 : 2 * (N * N) * (N * N) = 2 * ((N * N) * (N * N)) := by ring
    omega

end RelaxResult

section RelaxSound
variable {α : Type} {N : Nat} {C : Container α} {mk : Pos → Nat → α} {pos : α → Pos}
  {gOf : α → Nat}

/-- Every run of the common routine of `dijkstra` and `aStar` from a start
cell inside the grid returns, and its result is as `DResult` tells. -/
theorem relaxSearch_result (hpos : ∀ p d, pos (mk p d) = p) (hg : ∀ p d, gOf (mk p d) = d)
    (stale : Bool) (deltas : List (Int × Int)) (hdel : deltas = dirs4) (g : Grid) {s : Pos}
    (hs : inBounds N s) (e : Pos) (X : DState C.σ → Prop)
    (hX0 : X (relaxInit C mk g s))
    (hXturn : ∀ st a rest, DInv N C mk pos gOf g s st → DTrace s st →
      DClosure N C pos gOf g s e none st → X st → C.pop st.frontier = some (a, rest) →
      pos a ≠ e → X (nextD N C mk pos gOf stale st a rest)) :
    ∃ r, relaxSearch N C mk pos gOf stale deltas g s e = .ok r ∧
      DResult N C mk pos gOf g s e X r := by
  obtain ⟨i1, i2, i3, i4⟩ := relaxInit_inv (N := N) (C := C) hpos hg g hs e
  have rule := relaxLoop_rule (N := N) (C := C) mk pos gOf stale deltas hdel s e
    (fun st => DInv N C mk pos gOf g s st ∧ DTrace s st ∧
      DClosure N C pos gOf g s e none st ∧ X st)
    (measureD N C)
    (fun st a rest hI hp he => by
      obtain ⟨h1, h2, h3, h4⟩ := hI
      obtain ⟨t1, t2, t3, t4⟩ := turn_relax hpos hg stale h1 h2 h3 hp he
      exact ⟨⟨t1, t2, t3, hXturn st a rest h1 h2 h3 h4 hp he⟩, t4⟩)
    (2 * (N * N) * (N * N) + 2) (relaxInit C mk g s) ⟨i1, i2, i3, hX0⟩ i4
  obtain ⟨stF, ⟨f1, f2, f3, f4⟩, hres⟩ := rule
  unfold relaxSearch
  rw [if_pos hs]
  rcases hres with ⟨hnone, hrun⟩ | ⟨a, rest, hp, he, hrun⟩
  · exact ⟨_, hrun, stF, f1, f2, f3, f4, Or.inl ⟨(C.pop_none _).mp hnone, rfl⟩⟩
  · obtain ⟨q1, q2⟩ := popD_inv f1 a rest hp
    have hsome : (stF.dist e).isSome = true := by
      obtain ⟨d, hd, _⟩ := q2.dist_le
      change stF.dist (pos a) = some d at hd
      rw [← he, hd]; rfl
    obtain ⟨g', hg1, hg2⟩ := finishD_ok q1 e hsome
    rw [hrun, hg1]
    refine ⟨_, rfl, stF, f1, f2, f3, f4,
      Or.inr ⟨⟨a, rest, hp, he⟩, hsome, rfl, rfl, rfl, ?_, hg2⟩⟩
    show (stF.trace ++ [Event.pop (pos a)]) ++ _ = _
    rw [he]
    rfl

theorem exists_isDist {g : Grid} {s e : Pos} (h : Reachable N g s e) :
    ∃ k, IsDist N g s e k := by
  classical
  exact ⟨Nat.find h, Nat.find_spec h, fun j hj => Nat.find_min' h hj⟩

/-- The frontier property at work: a cell at distance `k` from the start has
the stored distance `k`, unless the queue holds an entry whose key `g + h` is
at most `k` plus the heuristic of the cell (`h` changes by at most one along a
step). -/
theorem relax_frontier_bound {g0 : Grid} {s e : Pos} {st : DState C.σ}
    (hI : DInv N C mk pos gOf g0 s st) (hC : DClosure N C pos gOf g0 s e none st)
    (h : Pos → Nat) (hcons : ∀ p q, manhattan p q = 1 → h p ≤ h q + 1) :
    ∀ k t, IsDist N g0 s t k →
      st.dist t = some k ∨ ∃ b ∈ C.items st.frontier, gOf b + h (pos b) ≤ k + h t := by
  intro k
  induction k with
  | zero =>
    intro t ht
    left
    rw [ht.1.zero_eq]; exact hI.dist_start
  | succ k ih =>
    intro t ht
    obtain ⟨p, hp, hadj⟩ := ht.pred
    obtain ⟨_, _, _, hin, hw⟩ := ht.1.succ_inv
    have hhp := hcons p t hadj
    rcases ih p hp with hdp | ⟨b, hb, hbk⟩
    · rcases hC.closed p k hdp hp.2 with ⟨b, hb, hbp, hbg⟩ | hc | hx
      · right
        exact ⟨b, hb, by rw [hbp, hbg]; omega⟩
      · cases hc
      · left
        obtain ⟨d', h1, h2⟩ := hx t hadj hin hw
        have h3 := ht.2 d' (hI.dist_walk t d' h1)
        have : d' = k + 1 := by omega
        rw [h1, this]
    · right
      exact ⟨b, hb, by omega⟩

/-- The result of a run of `dijkstra` or `aStar` is sound. -/
theorem DResult.soundD {g : Grid} {s e : Pos} {X : DState C.σ → Prop}
    {r : Bool × DState C.σ} (h : DResult N C mk pos gOf g s e X r) :
    Sound N g s e (Outcome.ofD r) := by
  obtain ⟨stF, hI, hT, hC, _, hcase⟩ := h
  have hparsome : ∀ p, (stF.dist p).isSome = true → p ≠ s →
      (stF.dist (stF.parent p)).isSome = true ∧ manhattan (stF.parent p) p = 1 := by
    intro p hp hps
    obtain ⟨d, hd⟩ := Option.isSome_iff_exists.mp hp
    obtain ⟨d', h1, _, h3, _⟩ := hI.dist_par p d hd hps
    exact ⟨by rw [h1]; rfl, h3⟩
  have hparnone : ∀ p, ((stF.dist p).isSome = false ∨ p = s) → stF.parent p = noParent := by
    intro p hp
    apply hI.par_none
    rcases hp with hp | hp
    · left
      cases hd : stF.dist p with
      | none => rfl
      | some d => rw [hd] at hp; cases hp
    · right; exact hp
  have hinb : ∀ p, (stF.dist p).isSome = true → inBounds N p := by
    intro p hp
    obtain ⟨d, hd⟩ := Option.isSome_iff_exists.mp hp
    exact hI.dist_inb p d hd
  have hstart : (stF.dist s).isSome = true := by rw [hI.dist_start]; rfl
  rcases hcase with ⟨hempty, hr⟩ | ⟨_, hve, hr1, hr2, hr3, hr4, hr5⟩
  · subst hr
    have hnot : (stF.dist e).isSome = false := by
      cases hv : (stF.dist e).isSome with
      | false => rfl
      | true =>
        obtain ⟨a, ha, _⟩ := hC.end_item hv
        rw [hempty] at ha; cases ha
    have hunreach : ¬ Reachable N g s e := by
      intro hre
      obtain ⟨k, hk⟩ := exists_isDist hre
      rcases relax_frontier_bound hI hC (fun _ => 0) (fun _ _ _ => Nat.zero_le _) k e hk
        with hd | ⟨b, hb, _⟩
      · rw [hd] at hnot; cases hnot
      · rw [hempty] at hb; cases hb
    have hP : pathCells (Outcome.ofD (false, stF)).trace = [] := hT.no_path
    constructor
    · exact ⟨fun h => (by cases h), fun h => absurd h hunreach⟩
    · refine ⟨fun h => (by cases h), fun h => ?_⟩
      change (stF.dist e).isSome = true at h
      rw [hnot] at h; cases h
    · intro _; exact hP
    · intro h; cases h
    · intro h; cases h
    · rw [hP]; exact List.chain'_nil
    · rw [hP]; exact List.chain'_nil
    · rw [hP]; intro l hl; cases hl
    · rw [hP]; intro p hp; cases hp
    · rw [hP]; exact List.nodup_nil
    · exact hstart
    · exact hinb
    · exact fun p hp hps => (hI.adjD p hp hps).2
    · exact hparnone
    · exact hparsome
    · intro p
      rw [hP]
      simp only [List.not_mem_nil, if_false]
      exact hI.grid_eq p
    · exact hT.pushes
    · exact hT.visuals
    · exact hT.paired
  · obtain ⟨b, st⟩ := r
    simp only at hr1 hr2 hr3 hr4 hr5
    subst hr1
    have hP : pathCells (Outcome.ofD (true, st)).trace
        = chainOf stF.parent s (rankD stF e) e := by
      show pathCells st.trace = _
      rw [hr4]
      simp only [pathCells_append, pathCells_map_path, hT.no_path, List.nil_append,
        pathCells_single_pop]
    have hpush : pushedCells (Outcome.ofD (true, st)).trace = pushedCells stF.trace := by
      show pushedCells st.trace = _
      rw [hr4]
      simp only [pushedCells_append, pushedCells_map_path, pushedCells_single_pop,
        List.append_nil]
    have hvis : visualCells (Outcome.ofD (true, st)).trace = visualCells stF.trace := by
      show visualCells st.trace = _
      rw [hr4]
      simp only [visualCells_append, visualCells_map_path, visualCells_single_pop,
        List.append_nil]
    have hck := hI.chainD
    obtain ⟨c1, c2⟩ := chain_adjacent hck hI.adjD (p := e) hve
    obtain ⟨l1, l2, _⟩ := chainOf_links hck (rankD stF e) e hve (le_refl _)
    have hwalk := chain_walk hck hI.adjD _ e hve (le_refl _)
    constructor
    · exact ⟨fun _ => ⟨_, hwalk⟩, fun _ => rfl⟩
    · exact ⟨fun _ => (by show (st.dist e).isSome = true; rw [hr2]; exact hve), fun _ => rfl⟩
    · intro h; cases h
    · intro _
      rw [hP]
      exact hwalk
    · intro _ hes
      rw [hP]; exact chain_head hck hve hes
    · rw [hP]; exact c1
    · rw [hP]; show List.Chain' (fun a b => b = st.parent a) _; rw [hr3]; exact l1
    · rw [hP]; intro l hl
      exact ⟨c2 l hl, (by show st.parent l = s; rw [hr3]; exact l2 l hl)⟩
    · rw [hP]; intro p hp
      obtain ⟨h1, h2, _⟩ := chainOf_mem hck _ e hve p hp
      exact ⟨(by show (st.dist p).isSome = true; rw [hr2]; exact h1), h2⟩
    · rw [hP]; exact chainOf_nodup hck _ e hve
    · show (st.dist s).isSome = true; rw [hr2]; exact hstart
    · intro p hp
      change (st.dist p).isSome = true at hp
      rw [hr2] at hp; exact hinb p hp
    · intro p hp hps
      change (st.dist p).isSome = true at hp
      rw [hr2] at hp; exact (hI.adjD p hp hps).2
    · intro p hp
      show st.parent p = noParent
      change ((st.dist p).isSome = false ∨ p = s) at hp
      rw [hr2] at hp; rw [hr3]; exact hparnone p hp
    · intro p hp hps
      change (st.dist p).isSome = true at hp
      show (st.dist (st.parent p)).isSome = true ∧ manhattan (st.parent p) p = 1
      rw [hr2] at hp ⊢
      rw [hr3]
      exact hparsome p hp hps
    · intro p
      rw [hP]
      show st.grid p = if p ∈ _ then _ else if (st.dist p).isSome = true ∧ p ≠ s then _ else _
      rw [hr5 p, hr2, hI.grid_eq p]
    · intro p
      rw [hpush]
      show _ ↔ (st.dist p).isSome = true
      rw [hr2]; exact hT.pushes p
    · rw [hpush, hvis]; exact hT.visuals
    · show Paired st.trace
      rw [hr4, List.append_assoc]
      apply hT.paired.append_plain
      intro x hx q hq
      rw [hq] at hx
      simp at hx

/-- When the queue hands out an entry of least key `g + h`, with `h` changing
by at most one along a step, the chain tagged by a successful run of
`dijkstra` or `aStar` has as many cells as the shortest walk has steps. -/
theorem DResult.shortest {g : Grid} {s e : Pos} {X : DState C.σ → Prop}
    {r : Bool × DState C.σ} (hr : DResult N C mk pos gOf g s e X r)
    (h : Pos → Nat) (hcons : ∀ p q, manhattan p q = 1 → h p ≤ h q + 1)
    (hmin : ∀ q a rest, C.pop q = some (a, rest) → ∀ b ∈ C.items q,
      a = mk (pos a) (gOf a) → b = mk (pos b) (gOf b) →
      gOf a + h (pos a) ≤ gOf b + h (pos b))
    (hfound : r.1 = true) :
    IsDist N g s e (pathCells r.2.trace).length := by
  obtain ⟨stF, hI, hT, hC, _, hcase⟩ := hr
  rcases hcase with ⟨_, hr⟩ | ⟨⟨a, rest, hp, hae⟩, hve, _, _, _, hr4, _⟩
  · rw [hr] at hfound; cases hfound
  · have hP : pathCells r.2.trace = chainOf stF.parent s (rankD stF e) e := by
      rw [hr4]
      simp only [pathCells_append, pathCells_map_path, hT.no_path, List.nil_append,
        pathCells_single_pop]
    have hck := hI.chainD
    have hwalk := chain_walk hck hI.adjD _ e hve (le_refl _)
    have ha : a ∈ C.items stF.frontier :=
      (C.pop_some _ _ _ hp).mem_iff.mpr (List.mem_cons_self _ _)
    obtain ⟨de, hde, hdea⟩ := hI.items_dist a ha
    rw [hae] at hde
    obtain ⟨k, hk⟩ := exists_isDist (N := N) (g := g) (s := s) (e := e) ⟨_, hwalk⟩
    have hdk : de = k := by
      have h1 := hk.2 de (hI.dist_walk e de hde)
      rcases relax_frontier_bound hI hC h hcons k e hk with hd | ⟨b, hb, hbk⟩
      · rw [hde] at hd
        simpa using hd
      · have := hmin _ a rest hp b hb (hI.items_mk a ha) (hI.items_mk b hb)
        rw [hae] at this
        omega
    have hlen : (chainOf stF.parent s (rankD stF e) e).length ≤ k := by
      have := chainOf_length_le stF.parent s (rankD stF e) e
      unfold rankD at this
      rw [hde] at this
      simp only [Option.getD_some] at this
      unfold rankD
      rw [hde]
      simp only [Option.getD_some]
      omega
    rw [hP]
    have hge := hk.2 _ hwalk
    have : (chainOf stF.parent s (rankD stF e) e).length = k := by omega
    rw [this]
    exact hk

end RelaxSound

/-! ## The five routines -/

theorem DFS_result (N : Nat) (g : Grid) {s : Pos} (hs : inBounds N s) (e : Pos) :
    ∃ r, DFS N g s e = .ok r ∧ VResult N lifo (fun p => p) g s e (fun _ _ => True) r := by
  unfold DFS
  exact visitedSearch_result (fun _ => rfl) g hs e (fun _ _ => True) trivial
    (fun _ _ _ _ _ _ _ _ _ _ => trivial)

theorem greedy_result (N : Nat) (g : Grid) {s : Pos} (hs : inBounds N s) (e : Pos) :
    ∃ r, greedy N g s e = .ok r ∧
      VResult N pairPQ.toContainer (fun a => a.2) g s e (fun _ _ => True) r := by
  unfold greedy
  exact visitedSearch_result (fun _ => rfl) g hs e (fun _ _ => True) trivial
    (fun _ _ _ _ _ _ _ _ _ _ => trivial)

theorem dijkstra_result (N : Nat) (g : Grid) {s : Pos} (hs : inBounds N s) (e : Pos) :
    ∃ r, dijkstra N g s e = .ok r ∧
      DResult N pairPQ.toContainer (fun p d => (d, p)) (fun a => a.2) (fun a => a.1) g s e
        (fun _ => True) r := by
  unfold dijkstra
  exact relaxSearch_result (fun _ _ => rfl) (fun _ _ => rfl) true orthoDeltas orthoDeltas_eq
    g hs e (fun _ => True) trivial (fun _ _ _ _ _ _ _ _ _ => trivial)

theorem aStar_result (N : Nat) (pq : MinQueue Node nodeGt) (g : Grid) {s : Pos}
    (hs : inBounds N s) (e : Pos) :
    ∃ r, aStar N pq g s e = .ok r ∧
      DResult N pq.toContainer (fun p d => Node.mk p.1 p.2 d (manhattan p e))
        (fun a => (a.x, a.y)) (fun a => a.g) g s e (fun _ => True) r := by
  unfold aStar
  exact relaxSearch_result (fun _ _ => rfl) (fun _ _ => rfl) false aStarDeltas aStarDeltas_eq
    g hs e (fun _ => True) trivial (fun _ _ _ _ _ _ _ _ _ => trivial)

/-- Every run of `findPath` from a start cell inside the grid returns a
verdict, and what it leaves behind is sound, whatever the end cell and the
tags of the grid. -/
theorem findPath_sound (algo : Algorithm) (N : Nat) (pq : MinQueue Node nodeGt) (g : Grid)
    {s : Pos} (hs : inBounds N s) (e : Pos) :
    ∃ r, findPath algo N pq g s e = .ok r ∧ Sound N g s e r := by
  cases algo with
  | BFS =>
    obtain ⟨r, h1, h2⟩ := BFS_result N g hs e
    exact ⟨Outcome.ofV r, by simp only [findPath, h1]; rfl, h2.soundV⟩
  | DFS =>
    obtain ⟨r, h1, h2⟩ := DFS_result N g hs e
    exact ⟨Outcome.ofV r, by simp only [findPath, h1]; rfl, h2.soundV⟩
  | AStar =>
    obtain ⟨r, h1, h2⟩ := aStar_result N pq g hs e
    exact ⟨Outcome.ofD r, by simp only [findPath, h1]; rfl, h2.soundD⟩
  | Dijkstra =>
    obtain ⟨r, h1, h2⟩ := dijkstra_result N g hs e
    exact ⟨Outcome.ofD r, by simp only [findPath, h1]; rfl, h2.soundD⟩
  | Greedy =>
    obtain ⟨r, h1, h2⟩ := greedy_result N g hs e
    exact ⟨Outcome.ofV r, by simp only [findPath, h1]; rfl, h2.soundV⟩

/-- A successful run of `BFS` tags a chain with as many cells as the shortest
walk from the start cell to the end cell has steps. -/
theorem BFS_shortest {N : Nat} {g : Grid} {s e : Pos} {r : Bool × VState fifo.σ}
    (hr : VResult N fifo (fun p => p) g s e BInv r) (hfound : r.1 = true) :
    IsDist N g s e (pathCells r.2.trace).length := by
  obtain ⟨depth, stF, hI, hT, hC, hB, hcase⟩ := hr
  rcases hcase with ⟨_, hr⟩ | ⟨⟨a, rest, hp, hae⟩, hve, _, _, _, hr4, _⟩
  · rw [hr] at hfound; cases hfound
  · have hP : pathCells r.2.trace = chainOf stF.parent s (depth e) e := by
      rw [hr4]
      simp only [pathCells_append, pathCells_map_path, hT.no_path, List.nil_append,
        pathCells_single_pop]
    rw [hP, hI.chain_length _ e hve rfl]
    refine ⟨hI.walk _ e hve rfl, ?_⟩
    intro j hj
    have hF := fifo_pop_eq hp
    have hae' : a = e := hae
    rw [hae'] at hF
    have hsorted := hB.sorted
    rw [hF, List.pairwise_cons] at hsorted
    rcases bfs_walk_bound hI hC hB hj with ⟨_, hd⟩ | ⟨q, hq, hqd⟩
    · exact hd
    · rw [hF] at hq
      rcases List.mem_cons.mp hq with e1 | hmem
      · rw [e1] at hqd; omega
      · have := hsorted.1 q hmem
        omega

/-- A successful run of `dijkstra` tags a chain with as many cells as the
shortest walk has steps. -/
theorem dijkstra_shortest {N : Nat} {g : Grid} {s e : Pos} {r : Bool × DState pairPQ.σ}
    (hr : DResult N pairPQ.toContainer (fun p d => (d, p)) (fun a => a.2) (fun a => a.1)
      g s e (fun _ => True) r) (hfound : r.1 = true) :
    IsDist N g s e (pathCells r.2.trace).length := by
  apply hr.shortest (fun _ => 0) (fun _ _ _ => Nat.zero_le _) _ hfound
  intro q a rest hp b hb _ _
  have := pairPQ.pop_min q a rest hp b hb
  unfold pairGt at this
  simp only [decide_eq_false_iff_not] at this
  show a.1 + 0 ≤ b.1 + 0
  omega

/-- A successful run of `aStar` tags a chain with as many cells as the
shortest walk has steps, whichever lawful open set it is given. -/
theorem aStar_shortest {N : Nat} {pq : MinQueue Node nodeGt} {g : Grid} {s e : Pos}
    {r : Bool × DState pq.σ}
    (hr : DResult N pq.toContainer (fun p d => Node.mk p.1 p.2 d (manhattan p e))
      (fun a => (a.x, a.y)) (fun a => a.g) g s e (fun _ => True) r) (hfound : r.1 = true) :
    IsDist N g s e (pathCells r.2.trace).length := by
  apply hr.shortest (fun p => manhattan p e) _ _ hfound
  · intro p q hpq
    have := manhattan_triangle p q e
    show manhattan p e ≤ manhattan q e + 1
    omega
  · intro q a rest hp b hb ha hb'
    have := pq.pop_min q a rest hp b hb
    unfold nodeGt at this
    simp only [decide_eq_false_iff_not] at this
    have h1 : a.h = manhattan (a.x, a.y) e := by
      conv_lhs => rw [ha]
    have h2 : b.h = manhattan (b.x, b.y) e := by
      conv_lhs => rw [hb']
    show a.g + manhattan (a.x, a.y) e ≤ b.g + manhattan (b.x, b.y) e
    omega

/-! ## Facts shared by the properties below -/

theorem findPath_outOfBounds (algo : Algorithm) (N : Nat) (pq : MinQueue Node nodeGt) (g : Grid)
    {s : Pos} (hs : ¬ inBounds N s) (e : Pos) :
    findPath algo N pq g s e = .error Fault.outOfBounds := by
  cases algo <;>
    simp only [findPath, BFS, DFS, greedy, dijkstra, aStar, visitedSearch, relaxSearch,
      if_neg hs] <;> rfl

theorem findPath_inBounds {algo : Algorithm} {N : Nat} {pq : MinQueue Node nodeGt} {g : Grid}
    {s e : Pos} {r : Outcome} (h : findPath algo N pq g s e = .ok r) : inBounds N s := by
  by_contra hs
  rw [findPath_outOfBounds algo N pq g hs e] at h
  cases h

/-- A run that returns is sound. -/
theorem findPath_ok_sound {algo : Algorithm} {N : Nat} {pq : MinQueue Node nodeGt} {g : Grid}
    {s e : Pos} {r : Outcome} (h : findPath algo N pq g s e = .ok r) : Sound N g s e r := by
  obtain ⟨r', h1, h2⟩ := findPath_sound algo N pq g (findPath_inBounds h) e
  rw [h] at h1
  cases h1
  exact h2

/-- The runs of `BFS`, `dijkstra` and `aStar` that find the end cell tag a
chain with as many cells as the shortest walk has steps. -/
theorem findPath_shortest {algo : Algorithm} (halgo : algo = Algorithm.BFS ∨
    algo = Algorithm.Dijkstra ∨ algo = Algorithm.AStar) {N : Nat}
    {pq : MinQueue Node nodeGt} {g : Grid} {s e : Pos} {r : Outcome}
    (h : findPath algo N pq g s e = .ok r) (hfound : r.found = true) :
    IsDist N g s e (pathCells r.trace).length := by
  have hs := findPath_inBounds h
  rcases halgo with rfl | rfl | rfl
  · obtain ⟨r', h1, h2⟩ := BFS_result N g hs e
    simp only [findPath, h1] at h
    cases h
    exact BFS_shortest h2 hfound
  · obtain ⟨r', h1, h2⟩ := dijkstra_result N g hs e
    simp only [findPath, h1] at h
    cases h
    exact dijkstra_shortest h2 hfound
  · obtain ⟨r', h1, h2⟩ := aStar_result N pq g hs e
    simp only [findPath, h1] at h
    cases h
    exact aStar_shortest h2 hfound

theorem mem_pushedCells {tr : List Event} {p : Pos} :
    p ∈ pushedCells tr ↔ Event.push p ∈ tr := by
  unfold pushedCells
  rw [List.mem_filterMap]
  constructor
  · rintro ⟨ev, hev, h⟩
    cases ev <;> simp at h
    subst h; exact hev
  · intro h; exact ⟨_, h, rfl⟩

theorem mem_visualCells {tr : List Event} {p : Pos} :
    p ∈ visualCells tr ↔ Event.visual p ∈ tr := by
  unfold visualCells
  rw [List.mem_filterMap]
  constructor
  · rintro ⟨ev, hev, h⟩
    cases ev <;> simp at h
    subst h; exact hev
  · intro h; exact ⟨_, h, rfl⟩

theorem mem_pathCells {tr : List Event} {p : Pos} :
    p ∈ pathCells tr ↔ Event.path p ∈ tr := by
  unfold pathCells
  rw [List.mem_filterMap]
  constructor
  · rintro ⟨ev, hev, h⟩
    cases ev <;> simp at h
    subst h; exact hev
  · intro h; exact ⟨_, h, rfl⟩

theorem count_push (tr : List Event) (p : Pos) :
    tr.count (Event.push p) = (pushedCells tr).countP (fun q => decide (q = p)) := by
  induction tr with
  | nil => rfl
  | cons ev tr ih =>
    cases ev with
    | push q =>
      have : pushedCells (Event.push q :: tr) = q :: pushedCells tr := rfl
      rw [this, List.count_cons, List.countP_cons, ih]
      by_cases hq : q = p
      · subst hq; simp
      · have : ¬ Event.push q = Event.push p := by simpa using hq
        simp [hq, this]
    | pop q =>
      have : pushedCells (Event.pop q :: tr) = pushedCells tr := rfl
      rw [this, List.count_cons, ih]; simp
    | visual q =>
      have : pushedCells (Event.visual q :: tr) = pushedCells tr := rfl
      rw [this, List.count_cons, ih]; simp
    | path q =>
      have : pushedCells (Event.path q :: tr) = pushedCells tr := rfl
      rw [this, List.count_cons, ih]; simp

theorem count_visual (tr : List Event) (p : Pos) :
    tr.count (Event.visual p) = (visualCells tr).countP (fun q => decide (q = p)) := by
  induction tr with
  | nil => rfl
  | cons ev tr ih =>
    cases ev with
    | visual q =>
      have : visualCells (Event.visual q :: tr) = q :: visualCells tr := rfl
      rw [this, List.count_cons, List.countP_cons, ih]
      by_cases hq : q = p
      · subst hq; simp
      · have : ¬ Event.visual q = Event.visual p := by simpa using hq
        simp [hq, this]
    | pop q =>
      have : visualCells (Event.pop q :: tr) = visualCells tr := rfl
      rw [this, List.count_cons, ih]; simp
    | push q =>
      have : visualCells (Event.push q :: tr) = visualCells tr := rfl
      rw [this, List.count_cons, ih]; simp
    | path q =>
      have : visualCells (Event.path q :: tr) = visualCells tr := rfl
      rw [this, List.count_cons, ih]; simp

/-- A walk from a start cell that the search may step on stays on such
cells. -/
theorem Walk.passable {N : Nat} {g : Grid} {s p : Pos} {k : Nat} (h : Walk N g s p k)
    (hs : inBounds N s) (hw : g s ≠ CellType.Wall) : inBounds N p ∧ g p ≠ CellType.Wall := by
  cases h with
  | start => exact ⟨hs, hw⟩
  | step _ _ h2 h3 => exact ⟨h2, h3⟩

theorem visTag_eq_path {t : CellType} (h : visTag t = CellType.Path) : t = CellType.Path := by
  cases t <;> simp [visTag] at h ⊢

/-- The cells handed to the visual update by a sound run are distinct from
the start cell, lie in the grid, and so number at most `N * N`. -/
theorem Sound.visual_card {N : Nat} {g : Grid} {s e : Pos} {r : Outcome}
    (h : Sound N g s e r) : (visualCells r.trace).toFinset.card ≤ N * N := by
  rw [← card_cells]
  apply Finset.card_le_card
  intro p hp
  rw [List.mem_toFinset] at hp
  rw [mem_cells]
  apply h.reached_inb
  rw [← h.pushed_iff, h.visuals]
  exact List.mem_cons_of_mem _ hp

/-! ## Properties of the specification -/

theorem gridOpen5_open : ∀ p, inBounds 5 p → gridOpen5 p ≠ CellType.Wall := by
  intro p _
  unfold gridOpen5
  split
  · simp
  · split <;> simp

/-- C1: on a grid without `Wall` cells, with start and end cell inside the
grid, `BFS`, `dijkstra` and `aStar` each return `found = true`, the number of
cells tagged by `reconstructPath` is the Manhattan distance
`|start.x - end.x| + |start.y - end.y|`, and the cells handed to the visual
update number at most `N * N`. -/
theorem C1_open_grid_manhattan (algo : Algorithm)
    (halgo : algo = Algorithm.BFS ∨ algo = Algorithm.Dijkstra ∨ algo = Algorithm.AStar)
    (N : Nat) (pq : MinQueue Node nodeGt) (g : Grid) (s e : Pos)
    (hs : inBounds N s) (he : inBounds N e)
    (hopen : ∀ p, inBounds N p → g p ≠ CellType.Wall) :
    ∃ r, findPath algo N pq g s e = .ok r ∧ r.found = true ∧
      (pathCells r.trace).length = manhattan s e ∧
      (visualCells r.trace).toFinset.card ≤ N * N := by
  obtain ⟨r, hr, hS⟩ := findPath_sound algo N pq g hs e
  have hdist := isDist_of_open hs he hopen
  have hfound : r.found = true := hS.found_iff.mpr ⟨_, hdist.1⟩
  exact ⟨r, hr, hfound, (findPath_shortest halgo hr hfound).unique hdist, hS.visual_card⟩

/-- The scenario of C1: on the 5 x 5 grid without walls, from `(0, 0)` to
`(4, 4)`, `BFS` reports `found = true`, tags 8 cells and hands at most 25
cells to the visual update. -/
theorem C1_open_grid_manhattan_witness :
    inBounds 5 (0, 0) ∧ inBounds 5 (4, 4) ∧
    ∃ r, findPath Algorithm.BFS 5 nodePQ gridOpen5 (0, 0) (4, 4) = .ok r ∧ r.found = true ∧
      (pathCells r.trace).length = 8 ∧ (visualCells r.trace).toFinset.card ≤ 25 :=
  ⟨by decide, by decide,
    C1_open_grid_manhattan Algorithm.BFS (Or.inl rfl) 5 nodePQ gridOpen5 (0, 0) (4, 4)
      (by decide) (by decide) gridOpen5_open⟩

/-- C2: whenever `dijkstra` returns `found = true`, `DFS` and `greedy` return
`found = true` on the same grid and endpoints, and the chain tagged by
`dijkstra` has at most as many cells as the chain tagged by `DFS` and as the
chain tagged by `greedy`. -/
theorem C2_dijkstra_le_dfs_greedy (N : Nat) (pq : MinQueue Node nodeGt) (g : Grid)
    (s e : Pos) (rd : Outcome) (hrun : findPath Algorithm.Dijkstra N pq g s e = .ok rd)
    (hfound : rd.found = true) :
    ∃ r1 r2, findPath Algorithm.DFS N pq g s e = .ok r1 ∧ r1.found = true ∧
      findPath Algorithm.Greedy N pq g s e = .ok r2 ∧ r2.found = true ∧
      (pathCells rd.trace).length ≤ (pathCells r1.trace).length ∧
      (pathCells rd.trace).length ≤ (pathCells r2.trace).length := by
  have hs := findPath_inBounds hrun
  have hreach := (findPath_ok_sound hrun).found_iff.mp hfound
  have hmin := findPath_shortest (Or.inr (Or.inl rfl)) hrun hfound
  obtain ⟨r1, h1, hS1⟩ := findPath_sound Algorithm.DFS N pq g hs e
  obtain ⟨r2, h2, hS2⟩ := findPath_sound Algorithm.Greedy N pq g hs e
  have f1 : r1.found = true := hS1.found_iff.mpr hreach
  have f2 : r2.found = true := hS2.found_iff.mpr hreach
  exact ⟨r1, r2, h1, f1, h2, f2, hmin.2 _ (hS1.path_walk f1), hmin.2 _ (hS2.path_walk f2)⟩

/-- An instance of C2: on the 5 x 5 grid with the wall column, `dijkstra`
finds the end cell, and so do `DFS` and `greedy`, with chains at least as
long. -/
theorem C2_dijkstra_le_dfs_greedy_witness :
    ∃ rd, findPath Algorithm.Dijkstra 5 nodePQ gridGap5 (0, 0) (4, 4) = .ok rd ∧
      rd.found = true ∧
      ∃ r1 r2, findPath Algorithm.DFS 5 nodePQ gridGap5 (0, 0) (4, 4) = .ok r1 ∧
        r1.found = true ∧
        findPath Algorithm.Greedy 5 nodePQ gridGap5 (0, 0) (4, 4) = .ok r2 ∧
        r2.found = true ∧
        (pathCells rd.trace).length ≤ (pathCells r1.trace).length ∧
        (pathCells rd.trace).length ≤ (pathCells r2.trace).length := by
  obtain ⟨rd, hrun, _⟩ := findPath_sound Algorithm.Dijkstra 5 nodePQ gridGap5
    (s := (0, 0)) (by decide) (4, 4)
  have hf : foundOf (findPath Algorithm.Dijkstra 5 nodePQ gridGap5 (0, 0) (4, 4)) = some true := by
    decide
  rw [hrun] at hf
  have hfound : rd.found = true := by simpa [foundOf] using hf
  exact ⟨rd, hrun, hfound,
    C2_dijkstra_le_dfs_greedy 5 nodePQ gridGap5 (0, 0) (4, 4) rd hrun hfound⟩

/-- C3: on every grid, from a start cell inside the grid, `aStar` and
`dijkstra` return the same verdict; when it is `found = true` the chains they
tag have the same number of cells, the number of steps of a shortest walk from
the start cell to the end cell over cells that are not `Wall`.  This holds for
every lawful open set, though `aStar` skips no popped entry and expands with
the `g` of the popped node. -/
theorem C3_astar_agrees_with_dijkstra (N : Nat) (pq : MinQueue Node nodeGt) (g : Grid)
    (s e : Pos) (hs : inBounds N s) :
    ∃ ra rd, findPath Algorithm.AStar N pq g s e = .ok ra ∧
      findPath Algorithm.Dijkstra N pq g s e = .ok rd ∧ ra.found = rd.found ∧
      (ra.found = true →
        (pathCells ra.trace).length = (pathCells rd.trace).length ∧
        IsDist N g s e (pathCells ra.trace).length) := by
  obtain ⟨ra, ha, hSa⟩ := findPath_sound Algorithm.AStar N pq g hs e
  obtain ⟨rd, hd, hSd⟩ := findPath_sound Algorithm.Dijkstra N pq g hs e
  have hiff : ra.found = true ↔ rd.found = true := hSa.found_iff.trans hSd.found_iff.symm
  refine ⟨ra, rd, ha, hd, ?_, ?_⟩
  · cases hfa : ra.found with
    | true => exact (hiff.mp hfa).symm
    | false =>
      cases hfd : rd.found with
      | false => rfl
      | true => rw [hiff.mpr hfd] at hfa; cases hfa
  · intro hfa
    have ia := findPath_shortest (Or.inr (Or.inr rfl)) ha hfa
    have id := findPath_shortest (Or.inr (Or.inl rfl)) hd (hiff.mp hfa)
    exact ⟨ia.unique id, ia⟩

/-- An instance of C3: on the 5 x 5 grid with the wall column both routines
find the end cell and tag chains of the same length, that of a shortest
walk. -/
theorem C3_astar_agrees_with_dijkstra_witness :
    inBounds 5 (0, 0) ∧
    ∃ ra rd, findPath Algorithm.AStar 5 nodePQ gridGap5 (0, 0) (4, 4) = .ok ra ∧
      findPath Algorithm.Dijkstra 5 nodePQ gridGap5 (0, 0) (4, 4) = .ok rd ∧
      ra.found = rd.found ∧ ra.found = true ∧
      (pathCells ra.trace).length = (pathCells rd.trace).length ∧
      IsDist 5 gridGap5 (0, 0) (4, 4) (pathCells ra.trace).length := by
  refine ⟨by decide, ?_⟩
  obtain ⟨ra, rd, h1, h2, h3, h4⟩ :=
    C3_astar_agrees_with_dijkstra 5 nodePQ gridGap5 (0, 0) (4, 4) (by decide)
  have hf : foundOf (findPath Algorithm.AStar 5 nodePQ gridGap5 (0, 0) (4, 4)) = some true := by
    decide
  rw [h1] at hf
  have hfa : ra.found = true := by simpa [foundOf] using hf
  exact ⟨ra, rd, h1, h2, h3, hfa, (h4 hfa).1, (h4 hfa).2⟩

/-- C4: when every neighbour of the end cell inside the grid is a `Wall` (the
start cell lies in the grid, is not a `Wall` and is not the end cell), each of
the five routines returns `found = false`, no cell is tagged by
`reconstructPath`, and every cell tagged `Path` after the run was tagged
`Path` before it. -/
theorem C4_enclosed_end_not_found (algo : Algorithm) (N : Nat) (pq : MinQueue Node nodeGt)
    (g : Grid) (s e : Pos) (hs : inBounds N s) (hsw : g s ≠ CellType.Wall) (hne : s ≠ e)
    (hwall : ∀ n, manhattan e n = 1 → inBounds N n → g n = CellType.Wall) :
    ∃ r, findPath algo N pq g s e = .ok r ∧ r.found = false ∧ pathCells r.trace = [] ∧
      (∀ p, Event.path p ∉ r.trace) ∧ ∀ p, r.grid p = CellType.Path → g p = CellType.Path := by
  obtain ⟨r, hr, hS⟩ := findPath_sound algo N pq g hs e
  have hunreach : ¬ Reachable N g s e := by
    rintro ⟨k, hw⟩
    cases hw with
    | start => exact hne rfl
    | step hw' h1 _ _ =>
      obtain ⟨hin, hnw⟩ := hw'.passable hs hsw
      exact hnw (hwall _ (by rw [manhattan_comm]; exact h1) hin)
  have hfound : r.found = false := by
    cases hf : r.found with
    | false => rfl
    | true => exact absurd (hS.found_iff.mp hf) hunreach
  have hP := hS.path_nil hfound
  refine ⟨r, hr, hfound, hP, ?_, ?_⟩
  · intro p hp
    rw [← mem_pathCells, hP] at hp
    cases hp
  · intro p hp
    rw [hS.grid_eq p, hP] at hp
    simp only [List.not_mem_nil, if_false] at hp
    split at hp
    · exact visTag_eq_path hp
    · exact hp

/-- An instance of C4: the 5 x 5 grid with the end cell walled in, searched by
`DFS`. -/
theorem C4_enclosed_end_not_found_witness :
    inBounds 5 (0, 0) ∧ gridEnclosed5 (0, 0) ≠ CellType.Wall ∧
    (∀ n, manhattan (4, 4) n = 1 → inBounds 5 n → gridEnclosed5 n = CellType.Wall) ∧
    ∃ r, findPath Algorithm.DFS 5 nodePQ gridEnclosed5 (0, 0) (4, 4) = .ok r ∧
      r.found = false ∧ pathCells r.trace = [] ∧ (∀ p, Event.path p ∉ r.trace) ∧
      ∀ p, r.grid p = CellType.Path → gridEnclosed5 p = CellType.Path := by
  have hwall : ∀ n, manhattan (4, 4) n = 1 → inBounds 5 n → gridEnclosed5 n = CellType.Wall := by
    intro n h1 h2
    unfold manhattan at h1
    unfold inBounds at h2
    simp only at h1
    have hn : n = (3, 4) ∨ n = (4, 3) := by
      have : (n.1 = 3 ∧ n.2 = 4) ∨ (n.1 = 4 ∧ n.2 = 3) := by omega
      rcases this with ⟨a, b⟩ | ⟨a, b⟩
      · left; exact Prod.ext a b
      · right; exact Prod.ext a b
    rcases hn with rfl | rfl <;> decide
  exact ⟨by decide, by decide, hwall,
    C4_enclosed_end_not_found Algorithm.DFS 5 nodePQ gridEnclosed5 (0, 0) (4, 4)
      (by decide) (by decide) (by decide) hwall⟩

/-- In every run that finds an end cell other than the start cell, the end
cell is tagged `Path` by `reconstructPath`, whatever its tag was. -/
theorem end_tagged_path {algo : Algorithm} {N : Nat} {pq : MinQueue Node nodeGt} {g : Grid}
    {s e : Pos} {r : Outcome} (h : findPath algo N pq g s e = .ok r) (hfound : r.found = true)
    (hne : s ≠ e) : r.grid e = CellType.Path := by
  have hS := findPath_ok_sound h
  have hhead := hS.path_head hfound (Ne.symm hne)
  have hmem : e ∈ pathCells r.trace := List.mem_of_mem_head? hhead
  rw [hS.grid_eq e, if_pos hmem]

/-- The start cell keeps its tag in every run, and the end cell keeps its tag
in every run that does not find it. -/
theorem start_tag_kept {algo : Algorithm} {N : Nat} {pq : MinQueue Node nodeGt} {g : Grid}
    {s e : Pos} {r : Outcome} (h : findPath algo N pq g s e = .ok r) :
    r.grid s = g s ∧ (r.found = false → r.grid e = g e) := by
  have hS := findPath_ok_sound h
  constructor
  · rw [hS.grid_eq s]
    have h1 : s ∉ pathCells r.trace := fun hm => (hS.path_mem s hm).2 rfl
    rw [if_neg h1, if_neg (fun hc => hc.2 rfl)]
  · intro hf
    rw [hS.grid_eq e, hS.path_nil hf]
    simp only [List.not_mem_nil, if_false]
    have : ¬ (r.reached e = true ∧ e ≠ s) := by
      rintro ⟨h1, _⟩
      rw [hS.found_reached.mpr h1] at hf
      cases hf
    rw [if_neg this]

/-- C5, the run that breaks it: on the 40 x 40 grid with `Start` at `(0, 0)`
and `End` at `(1, 0)`, `BFS` returns `found = true`; the start cell is still
tagged `Start`, but the end cell, tagged `End` before the run, is tagged `Path`
after it. -/
theorem C5_end_cell_overwritten :
    gridAdjacent (0, 0) = CellType.Start ∧ gridAdjacent (1, 0) = CellType.End ∧
    foundOf (findPath Algorithm.BFS GRID_SIZE nodePQ gridAdjacent (0, 0) (1, 0)) = some true ∧
    tagOf (findPath Algorithm.BFS GRID_SIZE nodePQ gridAdjacent (0, 0) (1, 0)) (0, 0)
      = some CellType.Start ∧
    tagOf (findPath Algorithm.BFS GRID_SIZE nodePQ gridAdjacent (0, 0) (1, 0)) (1, 0)
      = some CellType.Path := by
  decide

/-- C6: in every run from a start cell that lies in the grid and is not a
`Wall`, a cell that is a `Wall` when the run begins is never pushed on the
frontier, never handed to the visual update, ends without mark (not visited,
distance `INFINITY`), keeps the sentinel `(-1, -1)` as parent, and is still a
`Wall` when the run ends. -/
theorem C6_walls_untouched (algo : Algorithm) (N : Nat) (pq : MinQueue Node nodeGt)
    (g : Grid) (s e : Pos) (hs : inBounds N s) (hsw : g s ≠ CellType.Wall) :
    ∃ r, findPath algo N pq g s e = .ok r ∧
      ∀ p, g p = CellType.Wall →
        Event.push p ∉ r.trace ∧ Event.visual p ∉ r.trace ∧ r.reached p = false ∧
        r.parent p = noParent ∧ r.grid p = CellType.Wall := by
  obtain ⟨r, hr, hS⟩ := findPath_sound algo N pq g hs e
  refine ⟨r, hr, ?_⟩
  intro p hp
  have hps : p ≠ s := by
    intro h; rw [h] at hp; exact hsw hp
  have hnot : r.reached p = false := by
    cases hv : r.reached p with
    | false => rfl
    | true => exact absurd hp (hS.reached_open p hv hps)
  have hpush : Event.push p ∉ r.trace := by
    intro h
    rw [← mem_pushedCells, hS.pushed_iff, hnot] at h
    cases h
  refine ⟨hpush, ?_, hnot, hS.parent_none p (Or.inl hnot), ?_⟩
  · intro h
    apply hpush
    rw [← mem_pushedCells, hS.visuals]
    exact List.mem_cons_of_mem _ (mem_visualCells.mpr h)
  · rw [hS.grid_eq p]
    have h1 : p ∉ pathCells r.trace := by
      intro hm
      rw [(hS.path_mem p hm).1] at hnot
      cases hnot
    rw [if_neg h1, if_neg (fun hc => by rw [hc.1] at hnot; cases hnot)]
    exact hp

/-- An instance of C6: `aStar` on the 5 x 5 grid with the wall column. -/
theorem C6_walls_untouched_witness :
    inBounds 5 (0, 0) ∧ gridGap5 (0, 0) ≠ CellType.Wall ∧ gridGap5 (2, 0) = CellType.Wall ∧
    ∃ r, findPath Algorithm.AStar 5 nodePQ gridGap5 (0, 0) (4, 4) = .ok r ∧
      ∀ p, gridGap5 p = CellType.Wall →
        Event.push p ∉ r.trace ∧ Event.visual p ∉ r.trace ∧ r.reached p = false ∧
        r.parent p = noParent ∧ r.grid p = CellType.Wall :=
  ⟨by decide, by decide, by decide,
    C6_walls_untouched Algorithm.AStar 5 nodePQ gridGap5 (0, 0) (4, 4) (by decide) (by decide)⟩

/-- C7: in every run that returns `found = true` for an end cell other than
the start cell, the cells tagged `Path`, in the order of tagging, start with
the end cell, end with a neighbour of the start cell, leave out the start
cell, go from neighbour to neighbour (Manhattan distance 1), lie in the grid,
hold no cell that was a `Wall`, and repeat no cell. -/
theorem C7_path_shape (algo : Algorithm) (N : Nat) (pq : MinQueue Node nodeGt) (g : Grid)
    (s e : Pos) (r : Outcome) (hrun : findPath algo N pq g s e = .ok r)
    (hfound : r.found = true) (hne : s ≠ e) :
    (pathCells r.trace).head? = some e ∧
    (∀ l ∈ (pathCells r.trace).getLast?, manhattan l s = 1) ∧
    s ∉ pathCells r.trace ∧
    List.Chain' (fun a b => manhattan a b = 1) (pathCells r.trace) ∧
    (∀ p ∈ pathCells r.trace, inBounds N p ∧ g p ≠ CellType.Wall) ∧
    (pathCells r.trace).Nodup := by
  have hS := findPath_ok_sound hrun
  refine ⟨hS.path_head hfound (Ne.symm hne), fun l hl => (hS.path_last l hl).1,
    fun hm => (hS.path_mem s hm).2 rfl, hS.path_adj, ?_, hS.path_nodup⟩
  intro p hp
  obtain ⟨h1, h2⟩ := hS.path_mem p hp
  exact ⟨hS.reached_inb p h1, hS.reached_open p h1 h2⟩

/-- A list of cells that goes from neighbour to neighbour, starts at a column
`x >= 2` and ends at a column `x <= 2`, holds a cell of the column `x = 2`. -/
theorem crosses_column : ∀ (l : List Pos) (a : Pos),
    List.Chain' (fun a b => manhattan a b = 1) (a :: l) → 2 ≤ a.1 →
    (∀ z ∈ (a :: l).getLast?, z.1 ≤ 2) → ∃ p ∈ a :: l, p.1 = 2 := by
  intro l
  induction l with
  | nil =>
    intro a _ h1 h2
    have := h2 a (by simp)
    exact ⟨a, List.mem_cons_self _ _, by omega⟩
  | cons b l ih =>
    intro a hc h1 h2
    by_cases ha : a.1 = 2
    · exact ⟨a, List.mem_cons_self _ _, ha⟩
    · rw [List.chain'_cons] at hc
      have hb : 2 ≤ b.1 := by
        have := hc.1
        unfold manhattan at this
        omega
      obtain ⟨p, hp, hp2⟩ := ih b hc.2 hb (by
        intro z hz
        apply h2 z
        rw [List.getLast?_cons_cons]
        exact hz)
      exact ⟨p, List.mem_cons_of_mem _ hp, hp2⟩

/-- The scenario of C7: on the 5 x 5 grid with a column of walls at `x = 2`
and the single gap `(2, 2)`, from `(0, 0)` to `(4, 4)`, every routine (with
every lawful open set for `aStar`) returns `found = true`, its path has the
shape that C7 tells, and the path holds `(2, 2)`. -/
theorem C7_path_shape_witness :
    (∀ algo pq, ∃ r, findPath algo 5 pq gridGap5 (0, 0) (4, 4) = .ok r ∧ r.found = true ∧
      ((pathCells r.trace).head? = some (4, 4) ∧
       (∀ l ∈ (pathCells r.trace).getLast?, manhattan l (0, 0) = 1) ∧
       (0, 0) ∉ pathCells r.trace ∧
       List.Chain' (fun a b => manhattan a b = 1) (pathCells r.trace) ∧
       (∀ p ∈ pathCells r.trace, inBounds 5 p ∧ gridGap5 p ≠ CellType.Wall) ∧
       (pathCells r.trace).Nodup) ∧
      (2, 2) ∈ pathCells r.trace) ∧
    (pathOf (findPath Algorithm.BFS 5 nodePQ gridGap5 (0, 0) (4, 4))).map
      (fun l => decide ((2, 2) ∈ l)) = some true := by
  refine ⟨?_, by decide⟩
  intro algo pq
  obtain ⟨r, hr, hS⟩ := findPath_sound algo 5 pq gridGap5 (s := (0, 0)) (by decide) (4, 4)
  have hreach : Reachable 5 gridGap5 (0, 0) (4, 4) := by
    obtain ⟨rb, hb, hSb⟩ := findPath_sound Algorithm.BFS 5 nodePQ gridGap5 (s := (0, 0))
      (by decide) (4, 4)
    have hf : foundOf (findPath Algorithm.BFS 5 nodePQ gridGap5 (0, 0) (4, 4)) = some true := by
      decide
    rw [hb] at hf
    exact hSb.found_iff.mp (by simpa [foundOf] using hf)
  have hfound : r.found = true := hS.found_iff.mpr hreach
  have hshape := C7_path_shape algo 5 pq gridGap5 (0, 0) (4, 4) r hr hfound (by decide)
  refine ⟨r, hr, hfound, hshape, ?_⟩
  obtain ⟨h1, h2, _, h4, h5, _⟩ := hshape
  cases hP : pathCells r.trace with
  | nil => rw [hP] at h1; cases h1
  | cons a l =>
    rw [hP] at h1 h2 h4 h5
    have ha : a = (4, 4) := by simpa using h1
    obtain ⟨p, hp, hp2⟩ := crosses_column l a h4 (by rw [ha]; decide) (by
      intro z hz
      have := h2 z hz
      unfold manhattan at this
      simp only at this
      omega)
    have hw := (h5 p hp).2
    have hp22 : p = (2, 2) := by
      by_contra hne
      apply hw
      unfold gridGap5
      have hy : p.2 ≠ 2 := fun hy => hne (Prod.ext hp2 hy)
      have h00 : p ≠ (0, 0) := by
        intro h; rw [h] at hp2; simp at hp2
      have h44 : p ≠ (4, 4) := by
        intro h; rw [h] at hp2; simp at hp2
      rw [if_neg h00, if_neg h44, if_pos ⟨hp2, hy⟩]
    rw [← hp22]
    exact hp

/-- C8 fails on the code: with `endPos` unset (`(-1, -1)`), `findPath` does
not report a failure.  On the 40 x 40 grid `gridNoEnd`, `BFS` from `(0, 0)`
returns the verdict `found = false`, and the cell `(1, 0)`, `Empty` before the
call, is tagged `Visited` after it. -/
theorem C8_no_precondition_check_counterexample :
    gridNoEnd (1, 0) = CellType.Empty ∧
    foundOf (findPath Algorithm.BFS GRID_SIZE nodePQ gridNoEnd (0, 0) noParent) = some false ∧
    tagOf (findPath Algorithm.BFS GRID_SIZE nodePQ gridNoEnd (0, 0) noParent) (1, 0)
      = some CellType.Visited := by
  decide

theorem reconstructLoop_start (N : Nat) (parent : Pos → Pos) (s : Pos) (fuel : Nat) (g : Grid)
    (acc : List Pos) : reconstructLoop N parent s fuel s g acc = .ok (g, acc) := by
  cases fuel <;> simp [reconstructLoop]

/-- The only entry of a frontier into which one entry was pushed. -/
theorem pop_single {α : Type} (C : Container α) (x : α) :
    ∃ rest, C.pop (C.push C.empty x) = some (x, rest) := by
  have hitems : C.items (C.push C.empty x) = [x] := by
    have := C.items_push C.empty x
    rw [C.items_empty] at this
    exact List.perm_singleton.mp this
  cases hp : C.pop (C.push C.empty x) with
  | none =>
    rw [(C.pop_none _).mp hp] at hitems
    cases hitems
  | some ar =>
    obtain ⟨a, rest⟩ := ar
    have := C.pop_some _ _ _ hp
    rw [hitems] at this
    have h2 := List.singleton_perm.mp this
    simp only [List.cons.injEq] at h2
    rw [h2.1]
    exact ⟨rest, rfl⟩

/-- When the end cell is the start cell, `BFS`, `DFS` and `greedy` pop it in
the first turn and return `found = true` with the grid as it was. -/
theorem visitedSearch_same {α : Type} (N : Nat) (C : Container α) (mk : Pos → α)
    (pos : α → Pos) (hpos : ∀ p, pos (mk p) = p) (g : Grid) {s : Pos} (hs : inBounds N s) :
    ∃ r, visitedSearch N C mk pos g s s = .ok r ∧ r.1 = true ∧ r.2.grid = g := by
  obtain ⟨rest, hp⟩ := pop_single C (mk s)
  unfold visitedSearch
  rw [if_pos hs]
  have h2 : 2 * N * N + 2 = (2 * N * N + 1) + 1 := rfl
  rw [h2, visitedLoop_end s s _ (visitedInit C mk g s) (mk s) rest hp (hpos s)]
  unfold finishV reconstructPath
  rw [reconstructLoop_start]
  exact ⟨_, rfl, rfl, rfl⟩

/-- When the end cell is the start cell, `dijkstra` and `aStar` pop it in the
first turn and return `found = true` with the grid as it was. -/
theorem relaxSearch_same {α : Type} (N : Nat) (C : Container α) (mk : Pos → Nat → α)
    (pos : α → Pos) (gOf : α → Nat) (hpos : ∀ p d, pos (mk p d) = p) (stale : Bool)
    (deltas : List (Int × Int)) (g : Grid) {s : Pos} (hs : inBounds N s) :
    ∃ r, relaxSearch N C mk pos gOf stale deltas g s s = .ok r ∧ r.1 = true ∧ r.2.grid = g := by
  obtain ⟨rest, hp⟩ := pop_single C (mk s 0)
  unfold relaxSearch
  rw [if_pos hs]
  have h2 : 2 * (N * N) * (N * N) + 2 = (2 * (N * N) * (N * N) + 1) + 1 := rfl
  rw [h2, relaxLoop_end stale deltas s s _ (relaxInit C mk g s) (mk s 0) rest hp (hpos s 0)]
  unfold finishD reconstructPath
  rw [reconstructLoop_start]
  exact ⟨_, rfl, rfl, rfl⟩

/-- C8 as amended: `findPath` checks no precondition.  From every start
position inside the grid, whatever the end position and the tags of the grid,
every routine returns a verdict, never a failure; when the end position is the
start position the verdict is `found = true` and the grid after the call is
the grid before it. -/
theorem C8_no_precondition_check (algo : Algorithm) (N : Nat) (pq : MinQueue Node nodeGt)
    (g : Grid) (s e : Pos) (hs : inBounds N s) :
    ∃ r, findPath algo N pq g s e = .ok r ∧ (s = e → r.found = true ∧ r.grid = g) := by
  obtain ⟨r, hr, _⟩ := findPath_sound algo N pq g hs e
  refine ⟨r, hr, ?_⟩
  intro hse
  subst hse
  cases algo with
  | BFS =>
    obtain ⟨r', h1, h2, h3⟩ := visitedSearch_same N fifo (fun p => p) (fun p => p)
      (fun _ => rfl) g hs
    simp only [findPath, BFS, h1] at hr
    cases hr
    exact ⟨h2, h3⟩
  | DFS =>
    obtain ⟨r', h1, h2, h3⟩ := visitedSearch_same N lifo (fun p => p) (fun p => p)
      (fun _ => rfl) g hs
    simp only [findPath, DFS, h1] at hr
    cases hr
    exact ⟨h2, h3⟩
  | AStar =>
    obtain ⟨r', h1, h2, h3⟩ := relaxSearch_same N pq.toContainer
      (fun p d => Node.mk p.1 p.2 d (manhattan p s)) (fun a => (a.x, a.y)) (fun a => a.g)
      (fun _ _ => rfl) false aStarDeltas g hs
    simp only [findPath, aStar, h1] at hr
    cases hr
    exact ⟨h2, h3⟩
  | Dijkstra =>
    obtain ⟨r', h1, h2, h3⟩ := relaxSearch_same N pairPQ.toContainer
      (fun p d => (d, p)) (fun a => a.2) (fun a => a.1) (fun _ _ => rfl) true orthoDeltas g hs
    simp only [findPath, dijkstra, h1] at hr
    cases hr
    exact ⟨h2, h3⟩
  | Greedy =>
    obtain ⟨r', h1, h2, h3⟩ := visitedSearch_same N pairPQ.toContainer
      (fun p => (manhattan p s, p)) (fun a => a.2) (fun _ => rfl) g hs
    simp only [findPath, greedy, h1] at hr
    cases hr
    exact ⟨h2, h3⟩

/-- An instance of amended C8: `dijkstra` on the grid of the source with the
end position on the start position `(0, 0)`. -/
theorem C8_no_precondition_check_witness :
    inBounds GRID_SIZE (0, 0) ∧
    ∃ r, findPath Algorithm.Dijkstra GRID_SIZE nodePQ gridAdjacent (0, 0) (0, 0) = .ok r ∧
      r.found = true ∧ r.grid = gridAdjacent := by
  refine ⟨by decide, ?_⟩
  obtain ⟨r, h1, h2⟩ :=
    C8_no_precondition_check Algorithm.Dijkstra GRID_SIZE nodePQ gridAdjacent (0, 0) (0, 0)
      (by decide)
  exact ⟨r, h1, h2 rfl⟩

theorem VResult.pushes_nodup {α : Type} {N : Nat} {C : Container α} {pos : α → Pos} {g : Grid}
    {s e : Pos} {X : (Pos → Nat) → VState C.σ → Prop} {r : Bool × VState C.σ}
    (h : VResult N C pos g s e X r) : (pushedCells r.2.trace).Nodup := by
  obtain ⟨depth, stF, _, hT, _, _, hcase⟩ := h
  rcases hcase with ⟨_, hr⟩ | ⟨_, _, _, _, _, hr4, _⟩
  · rw [hr]; exact hT.nodup
  · rw [hr4]
    simp only [pushedCells_append, pushedCells_map_path, pushedCells_single_pop,
      List.append_nil]
    exact hT.nodup

theorem countP_eq_le_one {l : List Pos} (h : l.Nodup) (p : Pos) :
    l.countP (fun q => decide (q = p)) ≤ 1 := by
  induction l with
  | nil => simp
  | cons a l ih =>
    rw [List.nodup_cons] at h
    rw [List.countP_cons]
    by_cases hap : a = p
    · subst hap
      have : l.countP (fun q => decide (q = a)) = 0 := by
        rw [List.countP_eq_zero]
        intro x hx
        simp only [decide_eq_true_eq]
        intro hxa
        rw [hxa] at hx
        exact h.1 hx
      rw [this]
      simp
    · have := ih h.2
      simp [hap]
      exact this

/-- In a run of `BFS`, `DFS` or `greedy` no cell is pushed twice. -/
theorem findPath_pushes_nodup {algo : Algorithm} (halgo : algo = Algorithm.BFS ∨
    algo = Algorithm.DFS ∨ algo = Algorithm.Greedy) {N : Nat} {pq : MinQueue Node nodeGt}
    {g : Grid} {s e : Pos} {r : Outcome} (h : findPath algo N pq g s e = .ok r) :
    (pushedCells r.trace).Nodup := by
  have hs := findPath_inBounds h
  rcases halgo with rfl | rfl | rfl
  · obtain ⟨r', h1, h2⟩ := BFS_result N g hs e
    simp only [findPath, h1] at h
    cases h
    exact h2.pushes_nodup
  · obtain ⟨r', h1, h2⟩ := DFS_result N g hs e
    simp only [findPath, h1] at h
    cases h
    exact h2.pushes_nodup
  · obtain ⟨r', h1, h2⟩ := greedy_result N g hs e
    simp only [findPath, h1] at h
    cases h
    exact h2.pushes_nodup

/-- C9: in a run of `BFS`, `DFS` or `greedy` every cell is pushed on the
frontier at most once and handed to the visual update at most once, and every
call of the visual update comes right after the push of the same cell, at its
discovery, not at its pop. -/
theorem C9_discovered_once (algo : Algorithm)
    (halgo : algo = Algorithm.BFS ∨ algo = Algorithm.DFS ∨ algo = Algorithm.Greedy)
    (N : Nat) (pq : MinQueue Node nodeGt) (g : Grid) (s e : Pos) (hs : inBounds N s) :
    ∃ r, findPath algo N pq g s e = .ok r ∧
      (∀ p, r.trace.count (Event.push p) ≤ 1 ∧ r.trace.count (Event.visual p) ≤ 1) ∧
      ∀ l1 l2 p, r.trace = l1 ++ Event.visual p :: l2 → ∃ l0, l1 = l0 ++ [Event.push p] := by
  obtain ⟨r, hr, hS⟩ := findPath_sound algo N pq g hs e
  have hnd := findPath_pushes_nodup halgo hr
  refine ⟨r, hr, ?_, hS.paired⟩
  intro p
  constructor
  · rw [count_push]
    exact countP_eq_le_one hnd p
  · rw [count_visual]
    rw [hS.visuals] at hnd
    exact countP_eq_le_one (List.nodup_cons.mp hnd).2 p

/-- An instance of C9: `greedy` on the 5 x 5 grid with the wall column; the
cell `(1, 0)` is pushed once and handed to the visual update once. -/
theorem C9_discovered_once_witness :
    inBounds 5 (0, 0) ∧
    (∃ r, findPath Algorithm.Greedy 5 nodePQ gridGap5 (0, 0) (4, 4) = .ok r ∧
      (∀ p, r.trace.count (Event.push p) ≤ 1 ∧ r.trace.count (Event.visual p) ≤ 1) ∧
      ∀ l1 l2 p, r.trace = l1 ++ Event.visual p :: l2 → ∃ l0, l1 = l0 ++ [Event.push p]) ∧
    (pathOf (findPath Algorithm.Greedy 5 nodePQ gridGap5 (0, 0) (4, 4))).isSome = true :=
  ⟨by decide,
    C9_discovered_once Algorithm.Greedy (Or.inr (Or.inr rfl)) 5 nodePQ gridGap5 (0, 0) (4, 4)
      (by decide), by decide⟩

/-- C10: on a grid whose only `Start` cell is the start cell and whose only
`End` cell is the end cell, after a run every discovered cell (parent other
than the sentinel `(-1, -1)`) that is not the start cell, not the end cell and
not on the reconstructed path is tagged `Visited`, and every cell that was
never discovered has the tag it had before the run. -/
theorem C10_visited_frame (algo : Algorithm) (N : Nat) (pq : MinQueue Node nodeGt) (g : Grid)
    (s e : Pos) (hs : inBounds N s) (hS : ∀ p, g p = CellType.Start → p = s)
    (hE : ∀ p, g p = CellType.End → p = e) :
    ∃ r, findPath algo N pq g s e = .ok r ∧
      (∀ p, r.parent p ≠ noParent → p ≠ s → p ≠ e → p ∉ pathCells r.trace →
        r.grid p = CellType.Visited) ∧
      (∀ p, r.parent p = noParent → r.grid p = g p) := by
  obtain ⟨r, hr, hSd⟩ := findPath_sound algo N pq g hs e
  refine ⟨r, hr, ?_, ?_⟩
  · intro p hpar hps hpe hpath
    have hreach : r.reached p = true := by
      cases hv : r.reached p with
      | true => rfl
      | false => exact absurd (hSd.parent_none p (Or.inl hv)) hpar
    rw [hSd.grid_eq p, if_neg hpath, if_pos ⟨hreach, hps⟩]
    unfold visTag
    rw [if_pos ⟨fun h => hps (hS p h), fun h => hpe (hE p h)⟩]
  · intro p hpar
    have hnot : ¬ (r.reached p = true ∧ p ≠ s) := by
      rintro ⟨h1, h2⟩
      have h3 := hSd.reached_inb _ (hSd.parent_some p h1 h2).1
      rw [hpar] at h3
      exact noParent_not_inBounds N h3
    have hpath : p ∉ pathCells r.trace := fun hm => hnot (hSd.path_mem p hm)
    rw [hSd.grid_eq p, if_neg hpath, if_neg hnot]

theorem gridGap5_start : ∀ p, gridGap5 p = CellType.Start → p = (0, 0) := by
  intro p hp
  by_contra hne
  unfold gridGap5 at hp
  rw [if_neg hne] at hp
  split at hp
  · cases hp
  · split at hp <;> cases hp

theorem gridGap5_end : ∀ p, gridGap5 p = CellType.End → p = (4, 4) := by
  intro p hp
  by_contra hne
  unfold gridGap5 at hp
  split at hp
  · cases hp
  · split at hp <;> cases hp

/-- An instance of C10: `BFS` on the 5 x 5 grid with the wall column; the
cell `(1, 0)`, discovered and off the path, ends tagged `Visited`. -/
theorem C10_visited_frame_witness :
    inBounds 5 (0, 0) ∧
    (∃ r, findPath Algorithm.BFS 5 nodePQ gridGap5 (0, 0) (4, 4) = .ok r ∧
      (∀ p, r.parent p ≠ noParent → p ≠ (0, 0) → p ≠ (4, 4) → p ∉ pathCells r.trace →
        r.grid p = CellType.Visited) ∧
      (∀ p, r.parent p = noParent → r.grid p = gridGap5 p)) ∧
    tagOf (findPath Algorithm.BFS 5 nodePQ gridGap5 (0, 0) (4, 4)) (1, 0)
      = some CellType.Visited :=
  ⟨by decide,
    C10_visited_frame Algorithm.BFS 5 nodePQ gridGap5 (0, 0) (4, 4) (by decide)
      gridGap5_start gridGap5_end, by decide⟩

/-! ## The loop of `reconstructPath` on an arbitrary parent matrix -/

theorem chainCell_zero (parent : Pos → Pos) (e : Pos) : chainCell parent e 0 = e := rfl

theorem chainCell_succ (parent : Pos → Pos) (e : Pos) (k : Nat) :
    chainCell parent e (k + 1) = chainCell parent (parent e) k := rfl

theorem chainCell_add (parent : Pos → Pos) (e : Pos) (i t : Nat) :
    chainCell parent e (i + t) = chainCell parent (chainCell parent e i) t := by
  unfold chainCell
  rw [Nat.add_comm, Function.iterate_add_apply]

/-- When the loop of `reconstructPath` returns, it has followed the parent
links to the start cell over cells inside the grid, it has tagged the cells of
that chain and no other, and the chain does not depend on the grid. -/
theorem reconstructLoop_returns (N : Nat) (parent : Pos → Pos) (s : Pos) :
    ∀ (fuel : Nat) (cur : Pos) (g : Grid) (acc : List Pos) (g1 : Grid) (l1 : List Pos),
      reconstructLoop N parent s fuel cur g acc = .ok (g1, l1) →
      ∃ k, k ≤ fuel ∧ chainCell parent cur k = s ∧
        (∀ j, j < k → inBounds N (chainCell parent cur j) ∧ chainCell parent cur j ≠ s) ∧
        l1 = acc ++ chainOf parent s fuel cur ∧
        (chainOf parent s fuel cur).length = k ∧
        g1 = fun p => if p ∈ chainOf parent s fuel cur then CellType.Path else g p := by
  intro fuel
  induction fuel with
  | zero =>
    intro cur g acc g1 l1 h
    unfold reconstructLoop at h
    by_cases hc : cur = s
    · rw [if_pos hc] at h
      cases h
      refine ⟨0, le_refl _, hc, fun j hj => absurd hj (Nat.not_lt_zero _), ?_, ?_, ?_⟩
      · simp [chainOf]
      · simp [chainOf]
      · funext p; simp [chainOf]
    · rw [if_neg hc] at h
      cases h
  | succ fuel ih =>
    intro cur g acc g1 l1 h
    unfold reconstructLoop at h
    by_cases hc : cur = s
    · rw [if_pos hc] at h
      cases h
      refine ⟨0, Nat.zero_le _, hc, fun j hj => absurd hj (Nat.not_lt_zero _), ?_, ?_, ?_⟩
      · simp [chainOf, hc]
      · simp [chainOf, hc]
      · funext p; simp [chainOf, hc]
    · rw [if_neg hc] at h
      by_cases hb : inBounds N cur
      · rw [if_pos hb] at h
        obtain ⟨k, hk, hks, hin, hl, hlen, hg⟩ := ih _ _ _ _ _ h
        refine ⟨k + 1, Nat.succ_le_succ hk, hks, ?_, ?_, ?_, ?_⟩
        · intro j hj
          cases j with
          | zero => exact ⟨hb, hc⟩
          | succ j => exact hin j (Nat.lt_of_succ_lt_succ hj)
        · rw [hl]; simp [chainOf, hc]
        · simp [chainOf, hc, hlen]
        · rw [hg]
          funext p
          simp only [chainOf, if_neg hc, List.mem_cons, setAt]
          by_cases hp : p = cur
          · simp [hp]
          · simp [hp]
      · rw [if_neg hb] at h
        cases h

/-- When the chain of parent links from `cur` meets `s` after `k` links over
cells inside the grid, the loop of `reconstructPath` returns, given at least
`k` turns. -/
theorem reconstructLoop_reaches (N : Nat) (parent : Pos → Pos) (s : Pos) :
    ∀ (k : Nat) (fuel : Nat) (cur : Pos) (g : Grid) (acc : List Pos), k ≤ fuel →
      chainCell parent cur k = s →
      (∀ j, j < k → inBounds N (chainCell parent cur j)) →
      ∃ r, reconstructLoop N parent s fuel cur g acc = .ok r := by
  intro k
  induction k with
  | zero =>
    intro fuel cur g acc _ hk _
    have hc : cur = s := hk
    cases fuel with
    | zero => exact ⟨_, by unfold reconstructLoop; rw [if_pos hc]⟩
    | succ fuel => exact ⟨_, by unfold reconstructLoop; rw [if_pos hc]⟩
  | succ k ih =>
    intro fuel cur g acc hf hk hin
    cases fuel with
    | zero => omega
    | succ fuel =>
      by_cases hc : cur = s
      · exact ⟨_, by unfold reconstructLoop; rw [if_pos hc]⟩
      · have hb : inBounds N cur := hin 0 (Nat.succ_pos _)
        obtain ⟨r, hr⟩ := ih fuel (parent cur) (setAt g cur CellType.Path) (acc ++ [cur])
          (Nat.le_of_succ_le_succ hf) hk (fun j hj => hin (j + 1) (Nat.succ_lt_succ hj))
        exact ⟨r, by unfold reconstructLoop; rw [if_neg hc, if_pos hb]; exact hr⟩

/-- A chain that comes back to a cell it has met only ever meets the cells it
met before coming back. -/
theorem chainCell_periodic {parent : Pos → Pos} {e : Pos} {i k : Nat} (hik : i < k)
    (h : chainCell parent e i = chainCell parent e k) :
    ∀ j, ∃ j', j' < k ∧ chainCell parent e j = chainCell parent e j' := by
  intro j
  induction j using Nat.strong_induction_on with
  | _ j ih =>
    by_cases hj : j < k
    · exact ⟨j, hj, rfl⟩
    · have hj' : j = k + (j - k) := by omega
      have e1 : chainCell parent e j = chainCell parent e (i + (j - k)) := by
        conv_lhs => rw [hj']
        rw [chainCell_add, ← h, ← chainCell_add]
      obtain ⟨j', hj1, hj2⟩ := ih (i + (j - k)) (by omega)
      exact ⟨j', hj1, e1.trans hj2⟩

/-- A chain that meets a cycle before the start cell never meets the start
cell. -/
theorem MeetsCycle.never {parent : Pos → Pos} {s e : Pos} (h : MeetsCycle parent s e) :
    ∀ j, chainCell parent e j ≠ s := by
  obtain ⟨i, k, hik, heq, hne⟩ := h
  intro j
  obtain ⟨j', hj1, hj2⟩ := chainCell_periodic hik heq j
  rw [hj2]
  exact hne j' (Nat.le_of_lt hj1)

/-- The first time a chain meets the start cell comes after at most `N * N`
links, when the cells before it lie inside the grid. -/
theorem chain_first_le {N : Nat} {parent : Pos → Pos} {s e : Pos} {k : Nat}
    (hk : chainCell parent e k = s)
    (hin : ∀ j, j < k → inBounds N (chainCell parent e j) ∧ chainCell parent e j ≠ s) :
    k ≤ N * N := by
  have hinj : Set.InjOn (chainCell parent e) (Finset.range k : Set Nat) := by
    intro a ha b hb hab
    have ha' : a < k := by simpa using ha
    have hb' : b < k := by simpa using hb
    by_contra hne
    rcases Nat.lt_or_gt_of_ne hne with hlt | hlt
    · have hc : MeetsCycle parent s e :=
        ⟨a, b, hlt, hab, fun j hj => (hin j (by omega)).2⟩
      exact hc.never k hk
    · have hc : MeetsCycle parent s e :=
        ⟨b, a, hlt, hab.symm, fun j hj => (hin j (by omega)).2⟩
      exact hc.never k hk
  have hmaps : ∀ a ∈ Finset.range k, chainCell parent e a ∈ cells N := by
    intro a ha
    rw [mem_cells]
    exact (hin a (by simpa using ha)).1
  have := Finset.card_le_card_of_injOn (chainCell parent e) hmaps hinj
  rw [Finset.card_range, card_cells] at this
  exact this

/-- A chain that reaches the start cell over cells inside the grid reaches it
for the first time after at most `N * N` links. -/
theorem ReachesStart.first {N : Nat} {parent : Pos → Pos} {s e : Pos}
    (h : ReachesStart N parent s e) :
    ∃ k, k ≤ N * N ∧ chainCell parent e k = s ∧
      ∀ j, j < k → inBounds N (chainCell parent e j) ∧ chainCell parent e j ≠ s := by
  classical
  obtain ⟨k0, hk0, hin0⟩ := h
  have hex : ∃ k, chainCell parent e k = s := ⟨k0, hk0⟩
  have hk := Nat.find_spec hex
  have hle : Nat.find hex ≤ k0 := Nat.find_min' hex hk0
  have hin : ∀ j, j < Nat.find hex →
      inBounds N (chainCell parent e j) ∧ chainCell parent e j ≠ s :=
    fun j hj => ⟨hin0 j (by omega), Nat.find_min hex hj⟩
  exact ⟨Nat.find hex, chain_first_le hk hin, hk, hin⟩

/-- The routine `reconstructPath` returns exactly when the chain of parent
links from the end cell reaches the start cell over cells inside the grid. -/
theorem reconstructPath_returns_iff (N : Nat) (parent : Pos → Pos) (s e : Pos) (g : Grid) :
    (∃ r, reconstructPath N parent s e g = .ok r) ↔ ReachesStart N parent s e := by
  constructor
  · rintro ⟨⟨g1, l1⟩, h⟩
    obtain ⟨k, _, hk, hin, _⟩ := reconstructLoop_returns N parent s _ _ _ _ _ _ h
    exact ⟨k, hk, fun j hj => (hin j hj).1⟩
  · intro h
    obtain ⟨k, hkN, hk, hin⟩ := h.first
    exact reconstructLoop_reaches N parent s k _ _ _ _ hkN hk (fun j hj => (hin j hj).1)

/-- A chain that leaves the grid before it meets the start cell makes the loop
of `reconstructPath` index the matrices outside their range, given enough
turns to get there. -/
theorem reconstructLoop_leaves (N : Nat) (parent : Pos → Pos) (s : Pos) :
    ∀ (m : Nat) (fuel : Nat) (cur : Pos) (g : Grid) (acc : List Pos), m < fuel →
      (∀ j, j < m → inBounds N (chainCell parent cur j)) →
      (∀ j, j ≤ m → chainCell parent cur j ≠ s) →
      ¬ inBounds N (chainCell parent cur m) →
      reconstructLoop N parent s fuel cur g acc = .error Fault.outOfBounds := by
  intro m
  induction m with
  | zero =>
    intro fuel cur g acc hf _ hne hout
    cases fuel with
    | zero => omega
    | succ fuel =>
      have hc : cur ≠ s := hne 0 (le_refl _)
      have hb : ¬ inBounds N cur := hout
      unfold reconstructLoop
      rw [if_neg hc, if_neg hb]
  | succ m ih =>
    intro fuel cur g acc hf hin hne hout
    cases fuel with
    | zero => omega
    | succ fuel =>
      have hc : cur ≠ s := hne 0 (Nat.zero_le _)
      have hb : inBounds N cur := hin 0 (Nat.succ_pos _)
      unfold reconstructLoop
      rw [if_neg hc, if_pos hb]
      exact ih fuel (parent cur) _ _ (Nat.lt_of_succ_lt_succ hf)
        (fun j hj => hin (j + 1) (Nat.succ_lt_succ hj))
        (fun j hj => hne (j + 1) (Nat.succ_le_succ hj)) hout

/-- A chain that stays inside the grid and never meets the start cell keeps
the loop of `reconstructPath` running for as many turns as it is given. -/
theorem reconstructLoop_forever (N : Nat) (parent : Pos → Pos) (s : Pos) :
    ∀ (fuel : Nat) (cur : Pos) (g : Grid) (acc : List Pos),
      (∀ j, inBounds N (chainCell parent cur j) ∧ chainCell parent cur j ≠ s) →
      reconstructLoop N parent s fuel cur g acc = .error Fault.fuelExhausted := by
  intro fuel
  induction fuel with
  | zero =>
    intro cur g acc h
    have hc : cur ≠ s := (h 0).2
    unfold reconstructLoop
    rw [if_neg hc]
  | succ fuel ih =>
    intro cur g acc h
    have hc : cur ≠ s := (h 0).2
    have hb : inBounds N cur := (h 0).1
    unfold reconstructLoop
    rw [if_neg hc, if_pos hb]
    exact ih (parent cur) _ _ (fun j => h (j + 1))

/-- A chain that meets the sentinel or a cycle before the start cell never
lets the loop of `reconstructPath` return. -/
theorem reconstructLoop_broken {N : Nat} {parent : Pos → Pos} {s e : Pos}
    (h : MeetsSentinel parent s e ∨ MeetsCycle parent s e) (fuel : Nat) (g : Grid)
    (acc : List Pos) : ∃ f, reconstructLoop N parent s fuel e g acc = .error f := by
  cases hr : reconstructLoop N parent s fuel e g acc with
  | error f => exact ⟨f, rfl⟩
  | ok r =>
    exfalso
    obtain ⟨g1, l1⟩ := r
    obtain ⟨k, _, hk, hin, _⟩ := reconstructLoop_returns N parent s _ _ _ _ _ _ hr
    rcases h with ⟨k0, hk0, hne⟩ | hc
    · by_cases hlt : k ≤ k0
      · exact hne k hlt hk
      · have := (hin k0 (by omega)).1
        rw [hk0] at this
        exact noParent_not_inBounds N this
    · exact hc.never k hk

/-- The list of cells that `reconstructPath` tags: the cells of the chain up
to the first time it meets the start cell. -/
theorem chainOf_eq_map (parent : Pos → Pos) (s : Pos) :
    ∀ (k fuel : Nat) (cur : Pos), k ≤ fuel → chainCell parent cur k = s →
      (∀ j, j < k → chainCell parent cur j ≠ s) →
      chainOf parent s fuel cur = (List.range k).map (chainCell parent cur) := by
  intro k
  induction k with
  | zero =>
    intro fuel cur _ hk _
    have hc : cur = s := hk
    cases fuel <;> simp [chainOf, hc]
  | succ k ih =>
    intro fuel cur hf hk hne
    cases fuel with
    | zero => omega
    | succ fuel =>
      have hc : cur ≠ s := hne 0 (Nat.succ_pos _)
      rw [List.range_succ_eq_map, List.map_cons, List.map_map]
      simp only [chainOf, if_neg hc]
      rw [ih fuel (parent cur) (Nat.le_of_succ_le_succ hf) hk
        (fun j hj => hne (j + 1) (Nat.succ_lt_succ hj))]
      rfl

/-- A list of cells linked by `parent` is the chain of parent links from its
head. -/
theorem linked_eq_map (parent : Pos → Pos) :
    ∀ (l : List Pos) (e : Pos), l.head? = some e →
      List.Chain' (fun a b => b = parent a) l →
      l = (List.range l.length).map (chainCell parent e) := by
  intro l
  induction l with
  | nil => intro e h; simp at h
  | cons a l ih =>
    intro e h hch
    have hae : a = e := by simpa using h
    subst hae
    rw [List.length_cons, List.range_succ_eq_map, List.map_cons, List.map_map]
    cases l with
    | nil => simp [chainCell]
    | cons b l' =>
      rw [List.chain'_cons] at hch
      have hb : b = parent a := hch.1
      have := ih (parent a) (by simp [hb]) hch.2
      conv_lhs => rw [this]
      rfl

/-- C11: all five routines go through the neighbours of a cell in the same
way.  The filter of `aStar` (`dx == 0 && dy == 0` skipped, `abs(dx) + abs(dy)
== 2` skipped) lets through the same pairs, in the same order, as the filter
`abs(dx) + abs(dy) == 1` of the four other routines, namely `(-1, 0)`,
`(0, -1)`, `(0, 1)`, `(1, 0)`; each of them leads to a cell at distance one
(never a diagonal one); the loop bodies of both families leave the state as it
is when the candidate lies outside the grid; and in every run each pushed cell
lies inside the grid and each marked cell other than the start cell has an
orthogonal neighbour as parent. -/
theorem C11_neighbour_enumeration :
    aStarDeltas = orthoDeltas ∧
    orthoDeltas = [(-1, 0), (0, -1), (0, 1), (1, 0)] ∧
    (∀ (c : Pos) (d : Int × Int), d ∈ orthoDeltas →
      manhattan c (c.1 + d.1, c.2 + d.2) = 1 ∧
        ¬ ((d.1 = 1 ∨ d.1 = -1) ∧ (d.2 = 1 ∨ d.2 = -1))) ∧
    (∀ (α : Type) (N : Nat) (C : Container α) (mk : Pos → α) (cur : Pos) (st : VState C.σ)
      (d : Int × Int), ¬ inBounds N (cur.1 + d.1, cur.2 + d.2) →
        discover N C mk cur st d = st) ∧
    (∀ (α : Type) (N : Nat) (C : Container α) (mk : Pos → Nat → α) (cur : Pos) (gcur : Nat)
      (st : DState C.σ) (d : Int × Int), ¬ inBounds N (cur.1 + d.1, cur.2 + d.2) →
        relax N C mk cur gcur st d = st) ∧
    (∀ (algo : Algorithm) (N : Nat) (pq : MinQueue Node nodeGt) (g : Grid) (s e : Pos)
      (r : Outcome), findPath algo N pq g s e = .ok r →
        ∀ p ∈ pushedCells r.trace, inBounds N p ∧ (p ≠ s → manhattan (r.parent p) p = 1)) := by
  refine ⟨by decide, by decide, ?_, ?_, ?_, ?_⟩
  · intro c d hd
    rw [orthoDeltas_eq] at hd
    refine ⟨manhattan_step hd, ?_⟩
    simp only [dirs4, List.mem_cons, List.mem_singleton, List.not_mem_nil, or_false] at hd
    rcases hd with h | h | h | h <;> subst h <;> simp
  · intro α N C mk cur st d h
    exact discover_neg (fun hc => h hc.1)
  · intro α N C mk cur gcur st d h
    exact relax_neg (fun hc => h hc.1.1)
  · intro algo N pq g s e r h p hp
    have hS := findPath_ok_sound h
    have hr := (hS.pushed_iff p).mp hp
    exact ⟨hS.reached_inb p hr, fun hps => (hS.parent_some p hr hps).2⟩

/-- C11 on the grid of the source: the candidate `(-1, 0)` met from the cell
`(0, 0)` lies outside the 40 x 40 grid and changes nothing, in `BFS` as in
`dijkstra`. -/
theorem C11_neighbour_enumeration_witness :
    discover GRID_SIZE fifo (fun p => p) (0, 0) (visitedInit fifo (fun p => p) gridAdjacent (0, 0))
        (-1, 0) = visitedInit fifo (fun p => p) gridAdjacent (0, 0) ∧
      relax GRID_SIZE pairPQ.toContainer (fun p d => (d, p)) (0, 0) 0
        (relaxInit pairPQ.toContainer (fun p d => (d, p)) gridAdjacent (0, 0)) (-1, 0)
        = relaxInit pairPQ.toContainer (fun p d => (d, p)) gridAdjacent (0, 0) :=
  ⟨C11_neighbour_enumeration.2.2.2.1 _ _ _ _ _ _ _ (by decide),
   C11_neighbour_enumeration.2.2.2.2.1 _ _ _ _ _ _ _ _ (by decide)⟩

/-- C12, as stated, does not hold: `reconstructPath` has no check of the chain
and no failure to return.  On the 40 x 40 grid with the start cell `(0, 0)`
and the end cell `(1, 0)`, a parent matrix that holds the sentinel everywhere
makes it tag the end cell and then index the matrices at `(-1, -1)`, outside
their range; a parent matrix that sends `(1, 0)` to `(2, 0)` and back keeps
the loop running for as many turns as it is given. -/
theorem C12_broken_chain_counterexample :
    reconstructPath GRID_SIZE (fun _ => noParent) (0, 0) (1, 0) gridAdjacent
        = .error Fault.outOfBounds ∧
      ∀ fuel, reconstructLoop GRID_SIZE (fun p => if p = (1, 0) then (2, 0) else (1, 0))
        (0, 0) fuel (1, 0) gridAdjacent [] = .error Fault.fuelExhausted := by
  constructor
  · exact reconstructLoop_leaves GRID_SIZE _ _ 1 _ _ _ _ (by decide)
      (fun j hj => by
        have : j = 0 := by omega
        subst this; decide)
      (fun j hj => by
        have : j = 0 ∨ j = 1 := by omega
        rcases this with rfl | rfl <;> decide)
      (by decide)
  · intro fuel
    apply reconstructLoop_forever
    have key : ∀ j, chainCell (fun p : Pos => if p = (1, 0) then ((2, 0) : Pos) else (1, 0))
        (1, 0) j = (1, 0) ∨
        chainCell (fun p : Pos => if p = (1, 0) then ((2, 0) : Pos) else (1, 0))
          (1, 0) j = (2, 0) := by
      intro j
      induction j with
      | zero => left; rfl
      | succ j ih =>
        unfold chainCell at ih ⊢
        rw [Function.iterate_succ_apply']
        rcases ih with h | h
        · right; rw [h]; rfl
        · left; rw [h]; rfl
    intro j
    rcases key j with h | h <;> rw [h] <;> exact ⟨by decide, by decide⟩

/-- C12, amended: `reconstructPath` has no `BrokenChain` failure.  When the
chain of parent links from the end cell meets the sentinel or a cycle before
the start cell, the routine never returns, whatever the number of turns its
loop is given: if the chain meets the sentinel, the loop ends up indexing the
matrices outside their range (at the sentinel `(-1, -1)` at the latest); if
the chain stays inside the grid, the loop runs forever. -/
theorem C12_broken_chain_no_return (N : Nat) (parent : Pos → Pos) (s e : Pos) (g : Grid)
    (h : MeetsSentinel parent s e ∨ MeetsCycle parent s e) :
    (∃ f, reconstructPath N parent s e g = .error f) ∧
    (∀ fuel, ∃ f, reconstructLoop N parent s fuel e g [] = .error f) ∧
    (MeetsSentinel parent s e → ∃ fuel0, ∀ fuel, fuel0 ≤ fuel →
      reconstructLoop N parent s fuel e g [] = .error Fault.outOfBounds) ∧
    ((∀ j, inBounds N (chainCell parent e j)) → ∀ fuel,
      reconstructLoop N parent s fuel e g [] = .error Fault.fuelExhausted) := by
  classical
  refine ⟨reconstructLoop_broken h _ g [], fun fuel => reconstructLoop_broken h fuel g [],
    ?_, ?_⟩
  · rintro ⟨k0, hk0, hne⟩
    have hex : ∃ m, ¬ inBounds N (chainCell parent e m) :=
      ⟨k0, by rw [hk0]; exact noParent_not_inBounds N⟩
    have hm := Nat.find_spec hex
    have hle : Nat.find hex ≤ k0 := Nat.find_min' hex (by rw [hk0]; exact noParent_not_inBounds N)
    refine ⟨Nat.find hex + 1, fun fuel hf => ?_⟩
    exact reconstructLoop_leaves N parent s (Nat.find hex) fuel e g [] (by omega)
      (fun j hj => not_not.mp (Nat.find_min hex hj))
      (fun j hj => hne j (by omega)) hm
  · intro hin fuel
    apply reconstructLoop_forever
    intro j
    refine ⟨hin j, ?_⟩
    rcases h with ⟨k0, hk0, _⟩ | hc
    · exact absurd (hk0 ▸ hin k0) (noParent_not_inBounds N)
    · exact hc.never j

/-- C12, amended, on the 40 x 40 grid: with the sentinel everywhere in the
parent matrix and the end cell `(1, 0)` next to the start cell `(0, 0)`, the
chain meets the sentinel after one link and `reconstructPath` does not
return. -/
theorem C12_broken_chain_no_return_witness :
    (MeetsSentinel (fun _ => noParent) (0, 0) (1, 0) ∨
        MeetsCycle (fun _ => noParent) (0, 0) (1, 0)) ∧
      ∃ f, reconstructPath GRID_SIZE (fun _ => noParent) (0, 0) (1, 0) gridAdjacent
        = .error f :=
  have h : MeetsSentinel (fun _ => noParent) (0, 0) (1, 0) :=
    ⟨1, rfl, fun j hj => by
      have : j = 0 ∨ j = 1 := by omega
      rcases this with rfl | rfl <;> decide⟩
  ⟨Or.inl h,
    (C12_broken_chain_no_return GRID_SIZE (fun _ => noParent) (0, 0) (1, 0) gridAdjacent
      (Or.inl h)).1⟩

/-- C16: when the chain of parent links from the end cell reaches the start
cell over cells inside the grid, `reconstructPath` returns, and a second run
on the same parent matrix and end points, started on the grid the first run
left, tags the same cells in the same order and leaves that grid as it is.
The cells tagged are those of the chain, whatever the tags of the grid on
which the routine is run. -/
theorem C16_reconstruct_idempotent (N : Nat) (parent : Pos → Pos) (s e : Pos) (g : Grid)
    (h : ReachesStart N parent s e) :
    ∃ g1 l, reconstructPath N parent s e g = .ok (g1, l) ∧
      reconstructPath N parent s e g1 = .ok (g1, l) ∧
      ∀ g2 : Grid, ∃ g3, reconstructPath N parent s e g2 = .ok (g3, l) := by
  have run : ∀ g2 : Grid, reconstructPath N parent s e g2 =
      .ok (fun p => if p ∈ chainOf parent s (N * N) e then CellType.Path else g2 p,
        chainOf parent s (N * N) e) := by
    intro g2
    obtain ⟨⟨g3, l3⟩, hr⟩ := (reconstructPath_returns_iff N parent s e g2).mpr h
    obtain ⟨k, _, _, _, hl, _, hg⟩ := reconstructLoop_returns N parent s _ _ _ _ _ _ hr
    rw [hr, hl, hg]
    rfl
  refine ⟨_, _, run g, ?_, fun g2 => ⟨_, run g2⟩⟩
  rw [run]
  congr 2
  funext p
  by_cases hp : p ∈ chainOf parent s (N * N) e <;> simp [hp]

/-- C16 on the 40 x 40 grid: with every parent link pointing one cell to the
left, the chain from `(2, 0)` reaches the start cell `(0, 0)` after two links,
and the second run of `reconstructPath` repeats the first. -/
theorem C16_reconstruct_idempotent_witness :
    ReachesStart GRID_SIZE (fun p => (p.1 - 1, p.2)) (0, 0) (2, 0) ∧
      ∃ g1 l, reconstructPath GRID_SIZE (fun p => (p.1 - 1, p.2)) (0, 0) (2, 0) gridAdjacent
          = .ok (g1, l) ∧
        reconstructPath GRID_SIZE (fun p => (p.1 - 1, p.2)) (0, 0) (2, 0) g1 = .ok (g1, l) ∧
        ∀ g2 : Grid, ∃ g3,
          reconstructPath GRID_SIZE (fun p => (p.1 - 1, p.2)) (0, 0) (2, 0) g2 = .ok (g3, l) :=
  have h : ReachesStart GRID_SIZE (fun p => (p.1 - 1, p.2)) (0, 0) (2, 0) :=
    ⟨2, by decide, fun j hj => by
      have : j = 0 ∨ j = 1 := by omega
      rcases this with rfl | rfl <;> decide⟩
  ⟨h, C16_reconstruct_idempotent GRID_SIZE (fun p => (p.1 - 1, p.2)) (0, 0) (2, 0)
    gridAdjacent h⟩

/-- In a run that returned `true` for an end cell other than the start cell,
the parent matrix that the run leaves (the one it handed to `reconstructPath`)
holds the sentinel at the start cell, and the chain of parent links from the
end cell meets the start cell after `k` links, `0 < k ≤ N * N`, over cells
inside the grid, none of them the sentinel. -/
theorem found_parent_chain (algo : Algorithm) (N : Nat) (pq : MinQueue Node nodeGt)
    (g : Grid) (s e : Pos) (r : Outcome) (h : findPath algo N pq g s e = .ok r)
    (hfound : r.found = true) (hse : s ≠ e) :
    r.parent s = noParent ∧
    ∃ k, 0 < k ∧ k ≤ N * N ∧ chainCell r.parent e k = s ∧
      (∀ j, j < k → inBounds N (chainCell r.parent e j) ∧ chainCell r.parent e j ≠ s) ∧
      (∀ j, j ≤ k → chainCell r.parent e j ≠ noParent) ∧
      pathCells r.trace = (List.range k).map (chainCell r.parent e) ∧
      ∀ g2 : Grid, ∃ g3, reconstructPath N r.parent s e g2 = .ok (g3, pathCells r.trace) := by
  have hS := findPath_ok_sound h
  have hs := findPath_inBounds h
  have hhead := hS.path_head hfound (Ne.symm hse)
  have hmap := linked_eq_map r.parent _ e hhead hS.path_link
  have hpos : 0 < (pathCells r.trace).length := by
    cases hl : pathCells r.trace with
    | nil => rw [hl] at hhead; cases hhead
    | cons a l => simp
  have hin : ∀ j, j < (pathCells r.trace).length →
      inBounds N (chainCell r.parent e j) ∧ chainCell r.parent e j ≠ s := by
    intro j hj
    have hmem : chainCell r.parent e j ∈ pathCells r.trace := by
      rw [hmap]
      exact List.mem_map.mpr ⟨j, List.mem_range.mpr hj, rfl⟩
    have := hS.path_mem _ hmem
    exact ⟨hS.reached_inb _ this.1, this.2⟩
  have hk : chainCell r.parent e (pathCells r.trace).length = s := by
    have hlast : (pathCells r.trace).getLast? =
        some (chainCell r.parent e ((pathCells r.trace).length - 1)) := by
      conv_lhs => rw [hmap]
      rw [List.getLast?_eq_getElem?]
      simp only [List.length_map, List.length_range]
      rw [List.getElem?_map, List.getElem?_range (by omega)]
      rfl
    have := (hS.path_last _ (by rw [hlast]; exact rfl)).2
    have e1 : (pathCells r.trace).length = ((pathCells r.trace).length - 1) + 1 := by omega
    rw [e1]
    unfold chainCell
    rw [Function.iterate_succ_apply']
    exact this
  have hret : ∀ g2 : Grid, ∃ g3,
      reconstructPath N r.parent s e g2 = .ok (g3, pathCells r.trace) := by
    intro g2
    obtain ⟨⟨g3, l3⟩, hr⟩ := (reconstructPath_returns_iff N r.parent s e g2).mpr
      ⟨_, hk, fun j hj => (hin j hj).1⟩
    obtain ⟨k, _, _, _, hl, _, _⟩ := reconstructLoop_returns N r.parent s _ _ _ _ _ _ hr
    refine ⟨g3, ?_⟩
    rw [hr, hl, List.nil_append,
      chainOf_eq_map r.parent s _ _ e (chain_first_le hk hin) hk (fun j hj => (hin j hj).2),
      ← hmap]
  refine ⟨hS.parent_none s (Or.inr rfl), _, hpos, chain_first_le hk hin, hk, hin, ?_, hmap,
    hret⟩
  intro j hj
  by_cases hlt : j < (pathCells r.trace).length
  · intro hj'
    have := (hin j hlt).1
    rw [hj'] at this
    exact noParent_not_inBounds N this
  · have : j = (pathCells r.trace).length := by omega
    rw [this, hk]
    intro hs'
    rw [hs'] at hs
    exact noParent_not_inBounds N hs


/-- A run of `BFS`, `DFS` or `greedy` that returns `true` has popped the end
cell. -/
theorem VResult.found_popV {α : Type} {N : Nat} {C : Container α} {pos : α → Pos} {g : Grid}
    {s e : Pos} {X : (Pos → Nat) → VState C.σ → Prop} {r : Bool × VState C.σ}
    (h : VResult N C pos g s e X r) (hfound : r.1 = true) : Event.pop e ∈ r.2.trace := by
  obtain ⟨depth, stF, _, _, _, _, hcase⟩ := h
  rcases hcase with ⟨_, hr⟩ | ⟨_, _, _, _, _, hr4, _⟩
  · rw [hr] at hfound; cases hfound
  · rw [hr4]
    simp

/-- A run of `dijkstra` or `aStar` that returns `true` has popped an entry of
the end cell. -/
theorem DResult.found_popD {α : Type} {N : Nat} {C : Container α} {mk : Pos → Nat → α}
    {pos : α → Pos} {gOf : α → Nat} {g : Grid} {s e : Pos} {X : DState C.σ → Prop}
    {r : Bool × DState C.σ} (h : DResult N C mk pos gOf g s e X r) (hfound : r.1 = true) :
    Event.pop e ∈ r.2.trace := by
  obtain ⟨stF, _, _, _, _, hcase⟩ := h
  rcases hcase with ⟨_, hr⟩ | ⟨_, _, _, _, _, hr4, _⟩
  · rw [hr] at hfound; cases hfound
  · rw [hr4]
    simp

/-- A run that returns `true` has popped the end cell. -/
theorem findPath_found_pop {algo : Algorithm} {N : Nat} {pq : MinQueue Node nodeGt} {g : Grid}
    {s e : Pos} {r : Outcome} (h : findPath algo N pq g s e = .ok r) (hfound : r.found = true) :
    Event.pop e ∈ r.trace := by
  have hs := findPath_inBounds h
  cases algo with
  | BFS =>
    obtain ⟨r', h1, h2⟩ := BFS_result N g hs e
    simp only [findPath, h1] at h
    cases h
    exact h2.found_popV hfound
  | DFS =>
    obtain ⟨r', h1, h2⟩ := DFS_result N g hs e
    simp only [findPath, h1] at h
    cases h
    exact h2.found_popV hfound
  | Greedy =>
    obtain ⟨r', h1, h2⟩ := greedy_result N g hs e
    simp only [findPath, h1] at h
    cases h
    exact h2.found_popV hfound
  | Dijkstra =>
    obtain ⟨r', h1, h2⟩ := dijkstra_result N g hs e
    simp only [findPath, h1] at h
    cases h
    exact h2.found_popD hfound
  | AStar =>
    obtain ⟨r', h1, h2⟩ := aStar_result N pq g hs e
    simp only [findPath, h1] at h
    cases h
    exact h2.found_popD hfound

/-- C18: from a start cell inside the grid and for an end cell other than
the start cell, every run returns, with the verdict `true` exactly when the
end cell can be reached, that is, exactly when the run pops the end cell and
calls `reconstructPath`.  In that case the parent matrix handed to
`reconstructPath` (the one the run leaves) holds the sentinel at the start
cell, and the chain of parent links from the end cell meets the start cell
after `k` links, `0 < k ≤ N * N`; the cells met before lie inside the grid and
differ from the start cell, no cell of the chain is the sentinel, the cells
tagged `Path` are those met before the start cell, and `reconstructPath`
returns on that matrix whatever the tags of the grid.  This holds for
`dijkstra` and `aStar` as for the three other routines. -/
theorem C18_parent_chain_safe (algo : Algorithm) (N : Nat) (pq : MinQueue Node nodeGt)
    (g : Grid) (s e : Pos) (hs : inBounds N s) (hse : s ≠ e) :
    ∃ r, findPath algo N pq g s e = .ok r ∧
      (r.found = true ↔ Reachable N g s e) ∧
      (r.found = true →
        Event.pop e ∈ r.trace ∧ r.parent s = noParent ∧
        ∃ k, 0 < k ∧ k ≤ N * N ∧ chainCell r.parent e k = s ∧
          (∀ j, j < k → inBounds N (chainCell r.parent e j) ∧ chainCell r.parent e j ≠ s) ∧
          (∀ j, j ≤ k → chainCell r.parent e j ≠ noParent) ∧
          pathCells r.trace = (List.range k).map (chainCell r.parent e) ∧
          ∀ g2 : Grid, ∃ g3,
            reconstructPath N r.parent s e g2 = .ok (g3, pathCells r.trace)) := by
  obtain ⟨r, hr, hS⟩ := findPath_sound algo N pq g hs e
  refine ⟨r, hr, hS.found_iff, fun hfound => ?_⟩
  obtain ⟨h1, h2⟩ := found_parent_chain algo N pq g s e r hr hfound hse
  exact ⟨findPath_found_pop hr hfound, h1, h2⟩

/-- C18 on the 5 x 5 grid with the wall column, for `dijkstra`: the run
returns `true`, and the chain of parent links from the end cell is safe to
follow. -/
theorem C18_parent_chain_safe_witness :
    inBounds 5 ((0, 0) : Pos) ∧ ((0, 0) : Pos) ≠ (4, 4) ∧
    foundOf (findPath Algorithm.Dijkstra 5 nodePQ gridGap5 (0, 0) (4, 4)) = some true ∧
    ∃ r, findPath Algorithm.Dijkstra 5 nodePQ gridGap5 (0, 0) (4, 4) = .ok r ∧
      (r.found = true ↔ Reachable 5 gridGap5 (0, 0) (4, 4)) ∧
      (r.found = true →
        Event.pop (4, 4) ∈ r.trace ∧ r.parent (0, 0) = noParent ∧
        ∃ k, 0 < k ∧ k ≤ 5 * 5 ∧ chainCell r.parent (4, 4) k = (0, 0) ∧
          (∀ j, j < k → inBounds 5 (chainCell r.parent (4, 4) j) ∧
            chainCell r.parent (4, 4) j ≠ (0, 0)) ∧
          (∀ j, j ≤ k → chainCell r.parent (4, 4) j ≠ noParent) ∧
          pathCells r.trace = (List.range k).map (chainCell r.parent (4, 4)) ∧
          ∀ g2 : Grid, ∃ g3,
            reconstructPath 5 r.parent (0, 0) (4, 4) g2 = .ok (g3, pathCells r.trace)) :=
  ⟨by decide, by decide, by decide,
    C18_parent_chain_safe Algorithm.Dijkstra 5 nodePQ gridGap5 (0, 0) (4, 4)
      (by decide) (by decide)⟩

/-- C19: from a start cell inside the grid, each of the five routines returns,
and its verdict is `true` exactly when the end cell can be reached from the
start cell by orthogonal steps over cells inside the grid that are not `Wall`;
so any two routines (and `aStar` over any two lawful open sets) give the same
verdict on the same grid. -/
theorem C19_found_iff_reachable (algo : Algorithm) (N : Nat) (pq : MinQueue Node nodeGt)
    (g : Grid) (s e : Pos) (hs : inBounds N s) :
    ∃ r, findPath algo N pq g s e = .ok r ∧
      (r.found = true ↔ Reachable N g s e) ∧
      ∀ (algo' : Algorithm) (pq' : MinQueue Node nodeGt),
        foundOf (findPath algo' N pq' g s e) = some r.found := by
  obtain ⟨r, h1, h2⟩ := findPath_sound algo N pq g hs e
  refine ⟨r, h1, h2.found_iff, ?_⟩
  intro algo' pq'
  obtain ⟨r', h1', h2'⟩ := findPath_sound algo' N pq' g hs e
  rw [h1']
  show some r'.found = some r.found
  congr 1
  have h := h2'.found_iff.trans h2.found_iff.symm
  cases hr : r.found <;> cases hr' : r'.found <;> simp [hr, hr'] at h ⊢

/-- C19 on the 5 x 5 grid with the wall column: `BFS` finds the end cell, which
is reachable, and every routine gives the same verdict. -/
theorem C19_found_iff_reachable_witness :
    inBounds 5 ((0, 0) : Pos) ∧
      ∃ r, findPath Algorithm.BFS 5 nodePQ gridGap5 (0, 0) (4, 4) = .ok r ∧
        (r.found = true ↔ Reachable 5 gridGap5 (0, 0) (4, 4)) ∧
        ∀ (algo' : Algorithm) (pq' : MinQueue Node nodeGt),
          foundOf (findPath algo' 5 pq' gridGap5 (0, 0) (4, 4)) = some r.found :=
  ⟨by decide, C19_found_iff_reachable Algorithm.BFS 5 nodePQ gridGap5 (0, 0) (4, 4) (by decide)⟩

set_option maxRecDepth 100000 in
/-- C20: `greedy` is not optimal.  On the 40 x 40 grid `gridDetour`, which has
walls, a `Start` cell at the start position `(0, 2)` and an `End` cell at the
end position `(3, 1)`, `greedy` finds the end cell and tags a path of six
cells, while `dijkstra` finds it and tags a path of four cells. -/
theorem C20_greedy_not_optimal :
    ∃ (g : Grid) (s e : Pos), inBounds GRID_SIZE s ∧ inBounds GRID_SIZE e ∧
      g s = CellType.Start ∧ g e = CellType.End ∧ (∃ w, inBounds GRID_SIZE w ∧ g w = CellType.Wall) ∧
      ∀ pq : MinQueue Node nodeGt, ∃ rg rd,
        findPath Algorithm.Greedy GRID_SIZE pq g s e = .ok rg ∧
        findPath Algorithm.Dijkstra GRID_SIZE pq g s e = .ok rd ∧
        rg.found = true ∧ rd.found = true ∧
        pathCells rg.trace = [(3, 1), (3, 0), (2, 0), (1, 0), (1, 1), (0, 1)] ∧
        pathCells rd.trace = [(3, 1), (3, 2), (2, 2), (1, 2)] ∧
        (pathCells rd.trace).length < (pathCells rg.trace).length := by
  refine ⟨gridDetour, (0, 2), (3, 1), by decide, by decide, by decide, by decide,
    ⟨(2, 1), by decide, by decide⟩, ?_⟩
  intro pq
  have hg : pathOf ((greedy GRID_SIZE gridDetour (0, 2) (3, 1)).map Outcome.ofV)
      = some [(3, 1), (3, 0), (2, 0), (1, 0), (1, 1), (0, 1)] := by decide
  have hg' : foundOf ((greedy GRID_SIZE gridDetour (0, 2) (3, 1)).map Outcome.ofV)
      = some true := by decide
  have hd : pathOf ((dijkstra GRID_SIZE gridDetour (0, 2) (3, 1)).map Outcome.ofD)
      = some [(3, 1), (3, 2), (2, 2), (1, 2)] := by decide
  have hd' : foundOf ((dijkstra GRID_SIZE gridDetour (0, 2) (3, 1)).map Outcome.ofD)
      = some true := by decide
  obtain ⟨rg, h1, -⟩ := findPath_sound Algorithm.Greedy GRID_SIZE pq gridDetour
    (show inBounds GRID_SIZE ((0, 2) : Pos) by decide) (3, 1)
  obtain ⟨rd, h2, -⟩ := findPath_sound Algorithm.Dijkstra GRID_SIZE pq gridDetour
    (show inBounds GRID_SIZE ((0, 2) : Pos) by decide) (3, 1)
  have e1 : (greedy GRID_SIZE gridDetour (0, 2) (3, 1)).map Outcome.ofV = .ok rg := h1
  have e2 : (dijkstra GRID_SIZE gridDetour (0, 2) (3, 1)).map Outcome.ofD = .ok rd := h2
  rw [e1] at hg hg'
  rw [e2] at hd hd'
  simp only [pathOf, foundOf, Option.some.injEq] at hg hg' hd hd'
  refine ⟨rg, rd, h1, h2, hg', hd', hg, hd, ?_⟩
  rw [hg, hd]
  decide

/-! ## The number of pushes of a run -/

section Pushes
variable {α : Type} {N : Nat} {C : Container α} {mk : Pos → Nat → α} {pos : α → Pos}
  {gOf : α → Nat}

/-- A turn of the neighbour loop of `dijkstra` or `aStar` that pushes an entry
lowers the potential. -/
theorem pushBound_relax {g0 : Grid} {s : Pos} {st : DState C.σ}
    (h : DInv N C mk pos gOf g0 s st) {cur : Pos} {gcur : Nat}
    (hcur : CurOK N g0 s st cur gcur) (d : Int × Int) (hX : PushBound N st) :
    PushBound N (relax N C mk cur gcur st d) := by
  by_cases hc : relaxable N st gcur (cur.1 + d.1, cur.2 + d.2)
  · obtain ⟨hin, hw, hns, hdn⟩ := relaxable_facts h hc
    rw [relax_pos hc]
    generalize (cur.1 + d.1, cur.2 + d.2) = n at *
    have hnew : gcur + 1 < distWeight N (st.dist n) := by
      rcases hdn with hnone | ⟨d0, hd0, hlt⟩
      · rw [hnone]
        show gcur + 1 < N * N
        have h1 : reachedCount N st < N * N := by
          have := reachedCount_lt (N := N) st
            { st with dist := setAt st.dist n (some 0) } hin hnone (by
              intro p
              show (setAt st.dist n (some 0) p).isSome = _
              rw [setAt_apply, setAt_apply]
              split <;> rfl)
          have h2 := reachedCount_le (N := N) { st with dist := setAt st.dist n (some 0) }
          omega
        have := hcur.lt
        omega
      · rw [hd0]; exact hlt
    have hpot : potential N
        ({ grid := updateVisual st.grid n
           frontier := C.push st.frontier (mk n (gcur + 1))
           dist := setAt st.dist n (some (gcur + 1))
           parent := setAt st.parent n cur
           trace := st.trace ++ [Event.push n, Event.visual n] } : DState C.σ)
        < potential N st := by
      unfold potential
      apply Finset.sum_lt_sum
      · intro p _
        show distWeight N (setAt st.dist n (some (gcur + 1)) p) ≤ _
        by_cases hpn : p = n
        · rw [hpn, setAt_same]
          exact le_of_lt hnew
        · rw [setAt_other _ _ _ _ hpn]
      · refine ⟨n, mem_cells.mpr hin, ?_⟩
        show distWeight N (setAt st.dist n (some (gcur + 1)) n) < _
        rw [setAt_same]
        exact hnew
    unfold PushBound at hX ⊢
    have e1 : pushedCells [Event.push n, Event.visual n] = [n] := rfl
    show (pushedCells (st.trace ++ [Event.push n, Event.visual n])).length + _ ≤ _
    rw [pushedCells_append, e1, List.length_append, List.length_singleton]
    omega
  · rw [relax_neg hc]; exact hX

/-- One turn of the main loop of `dijkstra` or `aStar` keeps the bound on the
number of pushes. -/
theorem pushBound_turn (hpos : ∀ p d, pos (mk p d) = p) (hg : ∀ p d, gOf (mk p d) = d)
    (stale : Bool) {g0 : Grid} {s : Pos} {st : DState C.σ}
    (hI : DInv N C mk pos gOf g0 s st) (hX : PushBound N st) {a : α} {rest : C.σ}
    (hp : C.pop st.frontier = some (a, rest)) :
    PushBound N (nextD N C mk pos gOf stale st a rest) := by
  obtain ⟨hI1, hcur⟩ := popD_inv hI a rest hp
  have hX1 : PushBound N (popD pos st a rest) := by
    unfold PushBound at hX ⊢
    show (pushedCells (st.trace ++ [Event.pop (pos a)])).length + potential N st ≤ _
    rw [pushedCells_append, pushedCells_single_pop, List.append_nil]
    exact hX
  unfold nextD
  split
  · exact hX1
  · have := foldl_relax_inv (N := N) (C := C) mk (pos a) (gOf a)
      (fun st' => (DInv N C mk pos gOf g0 s st' ∧ CurOK N g0 s st' (pos a) (gOf a)) ∧
        PushBound N st')
      (fun st' d hd hP => ⟨relax_inv hpos hg hP.1.1 hP.1.2 hd,
        pushBound_relax hP.1.1 hP.1.2 d hP.2⟩)
      dirs4 (fun _ hd => hd) _ ⟨⟨hI1, hcur⟩, hX1⟩
    exact this.2

theorem pushBound_init (g : Grid) (s : Pos) : PushBound N (relaxInit C mk g s) := by
  unfold PushBound
  have h1 : pushedCells (relaxInit C mk g s).trace = [s] := rfl
  have h2 : potential N (relaxInit C mk g s) ≤ N * N * (N * N) := by
    unfold potential
    have := Finset.sum_le_card_nsmul (cells N)
      (fun p => distWeight N ((relaxInit C mk g s).dist p)) (N * N) (by
        intro p _
        show distWeight N (setAt (fun _ => none) s (some 0) p) ≤ N * N
        rw [setAt_apply]
        split
        · exact Nat.zero_le _
        · exact le_refl _)
    rw [card_cells, smul_eq_mul] at this
    exact this
  rw [h1, List.length_singleton]
  omega

/-- A run of `dijkstra` or `aStar` pushes at most `N * N * (N * N) + 1`
entries; it returns `false` with an empty queue, or `true` after the pop of an
entry of the end cell. -/
theorem DResult.finishedD {g : Grid} {s e : Pos} {r : Bool × DState C.σ}
    (h : DResult N C mk pos gOf g s e (PushBound N) r) :
    (pushedCells r.2.trace).length ≤ N * N * (N * N) + 1 ∧
      (r.1 = false → C.items r.2.frontier = []) ∧
      (r.1 = true → Event.pop e ∈ r.2.trace) := by
  obtain ⟨stF, _, _, _, hX, hcase⟩ := h
  unfold PushBound at hX
  rcases hcase with ⟨hempty, hr⟩ | ⟨_, _, hr1, _, _, hr4, _⟩
  · rw [hr]
    exact ⟨by show (pushedCells stF.trace).length ≤ _; omega, fun _ => hempty,
      fun h => by cases h⟩
  · refine ⟨?_, fun h => (by rw [hr1] at h; cases h), fun _ => ?_⟩
    · rw [hr4]
      simp only [pushedCells_append, pushedCells_map_path, pushedCells_single_pop,
        List.append_nil]
      omega
    · rw [hr4]
      simp

end Pushes

/-- A run of `BFS`, `DFS` or `greedy` pushes every cell at most once, hence at
most `N * N` entries; it returns `false` with an empty frontier, or `true`
after the pop of the end cell. -/
theorem VResult.finishedV {α : Type} {N : Nat} {C : Container α} {pos : α → Pos} {g : Grid}
    {s e : Pos} {X : (Pos → Nat) → VState C.σ → Prop} {r : Bool × VState C.σ}
    (h : VResult N C pos g s e X r) :
    ((pushedCells r.2.trace).Nodup ∧ (pushedCells r.2.trace).length ≤ N * N) ∧
      (r.1 = false → C.items r.2.frontier = []) ∧
      (r.1 = true → Event.pop e ∈ r.2.trace) := by
  have hnd := h.pushes_nodup
  have hS := h.soundV
  refine ⟨⟨hnd, ?_⟩, ?_⟩
  · rw [← List.toFinset_card_of_nodup hnd, ← card_cells]
    apply Finset.card_le_card
    intro p hp
    rw [List.mem_toFinset] at hp
    rw [mem_cells]
    exact hS.reached_inb p ((hS.pushed_iff p).mp hp)
  · obtain ⟨depth, stF, _, _, _, _, hcase⟩ := h
    rcases hcase with ⟨hempty, hr⟩ | ⟨_, _, hr1, _, _, hr4, _⟩
    · rw [hr]
      exact ⟨fun _ => hempty, fun h => by cases h⟩
    · refine ⟨fun h => (by rw [hr1] at h; cases h), fun _ => ?_⟩
      rw [hr4]
      simp

theorem dijkstra_pushes (N : Nat) (g : Grid) {s : Pos} (hs : inBounds N s) (e : Pos) :
    ∃ r, dijkstra N g s e = .ok r ∧
      DResult N pairPQ.toContainer (fun p d => (d, p)) (fun a => a.2) (fun a => a.1) g s e
        (PushBound N) r := by
  unfold dijkstra
  exact relaxSearch_result (fun _ _ => rfl) (fun _ _ => rfl) true orthoDeltas orthoDeltas_eq
    g hs e (PushBound N) (pushBound_init g s)
    (fun _ _ _ hI _ _ hX hp _ => pushBound_turn (fun _ _ => rfl) (fun _ _ => rfl) true hI hX hp)

theorem aStar_pushes (N : Nat) (pq : MinQueue Node nodeGt) (g : Grid) {s : Pos}
    (hs : inBounds N s) (e : Pos) :
    ∃ r, aStar N pq g s e = .ok r ∧
      DResult N pq.toContainer (fun p d => Node.mk p.1 p.2 d (manhattan p e))
        (fun a => (a.x, a.y)) (fun a => a.g) g s e (PushBound N) r := by
  unfold aStar
  exact relaxSearch_result (fun _ _ => rfl) (fun _ _ => rfl) false aStarDeltas aStarDeltas_eq
    g hs e (PushBound N) (pushBound_init g s)
    (fun _ _ _ hI _ _ hX hp _ => pushBound_turn (fun _ _ => rfl) (fun _ _ => rfl) false hI hX hp)

/-- C17: from a start cell inside the grid the main loop of each of the five
routines comes to an end, whatever the grid and the end cell: the run returns
(within the `2 * N * N + 2` turns given to `BFS`, `DFS` and `greedy`, and the
`2 * (N * N) * (N * N) + 2` turns given to `dijkstra` and `aStar`).  `BFS`,
`DFS` and `greedy` push every cell at most once, hence at most `N * N`
entries; a turn of the neighbour loop of `dijkstra` and `aStar` pushes an
entry only when the new distance is strictly below the stored one, and a run
pushes at most `N * N * (N * N) + 1` entries.  When the run returns `false`
its frontier is empty, and when it returns `true` it has popped the end
cell. -/
theorem C17_termination (algo : Algorithm) (N : Nat) (pq : MinQueue Node nodeGt)
    (g : Grid) (s e : Pos) (hs : inBounds N s) :
    (∃ r, findPath algo N pq g s e = .ok r ∧
      (pushedCells r.trace).length ≤ N * N * (N * N) + 1 ∧
      ((algo = Algorithm.BFS ∨ algo = Algorithm.DFS ∨ algo = Algorithm.Greedy) →
        (pushedCells r.trace).Nodup ∧ (pushedCells r.trace).length ≤ N * N) ∧
      (r.found = false → frontierLeft algo N pq g s e = some 0) ∧
      (r.found = true → Event.pop e ∈ r.trace)) ∧
    (∀ (α : Type) (C : Container α) (mk : Pos → Nat → α) (cur : Pos) (gcur : Nat)
      (st : DState C.σ) (d : Int × Int),
      relax N C mk cur gcur st d = st ∨
        (ltInf (gcur + 1) (st.dist (cur.1 + d.1, cur.2 + d.2)) = true ∧
          (relax N C mk cur gcur st d).dist (cur.1 + d.1, cur.2 + d.2) = some (gcur + 1) ∧
          (relax N C mk cur gcur st d).trace = st.trace ++
            [Event.push (cur.1 + d.1, cur.2 + d.2), Event.visual (cur.1 + d.1, cur.2 + d.2)])) ∧
    (∀ (α : Type) (C : Container α) (mk : Pos → α) (cur : Pos) (st : VState C.σ)
      (d : Int × Int),
      discover N C mk cur st d = st ∨
        (st.visited (cur.1 + d.1, cur.2 + d.2) = false ∧
          (discover N C mk cur st d).visited (cur.1 + d.1, cur.2 + d.2) = true ∧
          (discover N C mk cur st d).trace = st.trace ++
            [Event.push (cur.1 + d.1, cur.2 + d.2), Event.visual (cur.1 + d.1, cur.2 + d.2)])) := by
  have hNN : N * N ≤ N * N * (N * N) + 1 := by
    have := Nat.le_mul_self (N * N)
    omega
  refine ⟨?_, ?_, ?_⟩
  · cases algo with
    | BFS =>
      obtain ⟨r, h1, h2⟩ := BFS_result N g hs e
      obtain ⟨⟨f1, f2⟩, f3, f4⟩ := h2.finishedV
      refine ⟨Outcome.ofV r, by simp only [findPath, h1]; rfl, le_trans f2 hNN,
        fun _ => ⟨f1, f2⟩, fun hf => ?_, f4⟩
      simp only [frontierLeft, h1]
      rw [f3 hf]; rfl
    | DFS =>
      obtain ⟨r, h1, h2⟩ := DFS_result N g hs e
      obtain ⟨⟨f1, f2⟩, f3, f4⟩ := h2.finishedV
      refine ⟨Outcome.ofV r, by simp only [findPath, h1]; rfl, le_trans f2 hNN,
        fun _ => ⟨f1, f2⟩, fun hf => ?_, f4⟩
      simp only [frontierLeft, h1]
      rw [f3 hf]; rfl
    | Greedy =>
      obtain ⟨r, h1, h2⟩ := greedy_result N g hs e
      obtain ⟨⟨f1, f2⟩, f3, f4⟩ := h2.finishedV
      refine ⟨Outcome.ofV r, by simp only [findPath, h1]; rfl, le_trans f2 hNN,
        fun _ => ⟨f1, f2⟩, fun hf => ?_, f4⟩
      simp only [frontierLeft, h1]
      have := f3 hf
      simp only [MinQueue.toContainer] at this ⊢
      rw [this]; rfl
    | Dijkstra =>
      obtain ⟨r, h1, h2⟩ := dijkstra_pushes N g hs e
      obtain ⟨f2, f3, f4⟩ := h2.finishedD
      refine ⟨Outcome.ofD r, by simp only [findPath, h1]; rfl, f2,
        fun h => (by rcases h with h | h | h <;> cases h), fun hf => ?_, f4⟩
      simp only [frontierLeft, h1]
      have := f3 hf
      rw [this]; rfl
    | AStar =>
      obtain ⟨r, h1, h2⟩ := aStar_pushes N pq g hs e
      obtain ⟨f2, f3, f4⟩ := h2.finishedD
      refine ⟨Outcome.ofD r, by simp only [findPath, h1]; rfl, f2,
        fun h => (by rcases h with h | h | h <;> cases h), fun hf => ?_, f4⟩
      simp only [frontierLeft, h1]
      have := f3 hf
      rw [this]; rfl
  · intro α C mk cur gcur st d
    by_cases hc : relaxable N st gcur (cur.1 + d.1, cur.2 + d.2)
    · right
      rw [relax_pos hc]
      exact ⟨hc.2, setAt_same _ _ _, rfl⟩
    · left; exact relax_neg hc
  · intro α C mk cur st d
    by_cases hc : fresh N st (cur.1 + d.1, cur.2 + d.2)
    · right
      rw [discover_pos hc]
      exact ⟨hc.2.1, setAt_same _ _ _, rfl⟩
    · left; exact discover_neg hc

set_option maxRecDepth 100000 in
/-- C17 on the 5 x 5 grid with the wall column, for `aStar` over the list
open set: the run returns after at most `5 * 5 * (5 * 5) + 1` pushes. -/
theorem C17_termination_witness :
    inBounds 5 ((0, 0) : Pos) ∧
      ∃ r, findPath Algorithm.AStar 5 nodePQ gridGap5 (0, 0) (4, 4) = .ok r ∧
        (pushedCells r.trace).length ≤ 5 * 5 * (5 * 5) + 1 ∧
        ((Algorithm.AStar = Algorithm.BFS ∨ Algorithm.AStar = Algorithm.DFS ∨
            Algorithm.AStar = Algorithm.Greedy) →
          (pushedCells r.trace).Nodup ∧ (pushedCells r.trace).length ≤ 5 * 5) ∧
        (r.found = false →
          frontierLeft Algorithm.AStar 5 nodePQ gridGap5 (0, 0) (4, 4) = some 0) ∧
        (r.found = true → Event.pop (4, 4) ∈ r.trace) :=
  ⟨by decide,
    (C17_termination Algorithm.AStar 5 nodePQ gridGap5 (0, 0) (4, 4) (by decide)).1⟩

/-! ## The grid editor keeps one start cell and one end cell -/

theorem TagInv.first_unset {N : Nat} {g : Grid} {T : CellType} {pos : Pos}
    (h : TagInv N g T pos) (h1 : pos.1 = -1) : pos = (-1, -1) ∧ ∀ p, inBounds N p → g p ≠ T := by
  rcases h with h | ⟨hin, _⟩
  · exact h
  · have := hin.1
    omega

theorem TagInv.at_tag {N : Nat} {g : Grid} {T : CellType} {pos c : Pos}
    (h : TagInv N g T pos) (hc : inBounds N c) (hT : g c = T) :
    pos = c ∧ ∀ p, inBounds N p → (g p = T ↔ p = c) := by
  rcases h with ⟨_, hno⟩ | ⟨_, hiff⟩
  · exact absurd hT (hno c hc)
  · have := (hiff c hc).mp hT
    subst this
    exact ⟨rfl, hiff⟩

/-- Changing the tag of a cell from a tag other than `T` to a tag other than
`T` keeps the agreement for `T`. -/
theorem TagInv.retag {N : Nat} {g : Grid} {T : CellType} {pos c : Pos}
    (h : TagInv N g T pos) {t1 : CellType} (h0 : g c ≠ T) (h1 : t1 ≠ T) :
    TagInv N (setAt g c t1) T pos := by
  have key : ∀ p, setAt g c t1 p = T ↔ g p = T := by
    intro p
    rw [setAt_apply]
    split
    · rename_i hp
      rw [hp]
      exact ⟨fun h => absurd h h1, fun h => absurd h h0⟩
    · exact Iff.rfl
  rcases h with ⟨hp, hno⟩ | ⟨hin, hiff⟩
  · exact Or.inl ⟨hp, fun p hpin => by rw [Ne, key]; exact hno p hpin⟩
  · exact Or.inr ⟨hin, fun p hpin => by rw [key]; exact hiff p hpin⟩

/-- Tagging a cell `T` and recording its position brings the agreement for
`T`, when no cell was tagged `T`. -/
theorem TagInv.place {N : Nat} {g : Grid} {T : CellType} {c : Pos}
    (hno : ∀ p, inBounds N p → g p ≠ T) (hc : inBounds N c) :
    TagInv N (setAt g c T) T c := by
  refine Or.inr ⟨hc, fun p hpin => ?_⟩
  rw [setAt_apply]
  split
  · rename_i hp
    exact ⟨fun _ => hp, fun _ => rfl⟩
  · rename_i hp
    exact ⟨fun h => absurd h (hno p hpin), fun h => absurd h hp⟩

/-- Clearing the only cell tagged `T` and unsetting the position keeps the
agreement for `T`. -/
theorem TagInv.clear {N : Nat} {g : Grid} {T : CellType} {c : Pos}
    (hiff : ∀ p, inBounds N p → (g p = T ↔ p = c)) {t1 : CellType} (h1 : t1 ≠ T) :
    TagInv N (setAt g c t1) T (-1, -1) := by
  refine Or.inl ⟨rfl, fun p hpin => ?_⟩
  rw [setAt_apply]
  split
  · exact h1
  · rename_i hp
    exact fun h => hp ((hiff p hpin).mp h)

theorem TagInv.only_one {N : Nat} {g : Grid} {T : CellType} {pos : Pos}
    (h : TagInv N g T pos) {p q : Pos} (hp : inBounds N p) (hq : inBounds N q)
    (h1 : g p = T) (h2 : g q = T) : p = q := by
  rcases h with ⟨_, hno⟩ | ⟨_, hiff⟩
  · exact absurd h1 (hno p hp)
  · rw [(hiff p hp).mp h1, (hiff q hq).mp h2]

/-- A click on a cell of the grid keeps the invariant of the editor. -/
theorem clickCell_inv {N : Nat} {ed : Editor} (h : EditorInv N ed) {c : Pos}
    (hc : inBounds N c) (button : MouseButton) : EditorInv N (clickCell ed c button) := by
  obtain ⟨hS, hE⟩ := h
  have clearS : ed.grid c = CellType.Start →
      EditorInv N { ed with startPos := (-1, -1), grid := setAt ed.grid c CellType.Empty } :=
    fun hT => ⟨TagInv.clear (hS.at_tag hc hT).2 (by decide),
      hE.retag (by rw [hT]; decide) (by decide)⟩
  have clearE : ed.grid c = CellType.End →
      EditorInv N { ed with endPos := (-1, -1), grid := setAt ed.grid c CellType.Empty } :=
    fun hT => ⟨hS.retag (by rw [hT]; decide) (by decide),
      TagInv.clear (hE.at_tag hc hT).2 (by decide)⟩
  cases button with
  | Other => exact ⟨hS, hE⟩
  | Left =>
    unfold clickCell
    simp only []
    by_cases h0 : ed.grid c = CellType.Empty
    · rw [if_pos h0]
      by_cases h1 : ed.startPos.1 = -1
      · rw [if_pos h1]
        exact ⟨TagInv.place (hS.first_unset h1).2 hc,
          hE.retag (by rw [h0]; decide) (by decide)⟩
      · rw [if_neg h1]
        by_cases h2 : ed.endPos.1 = -1
        · rw [if_pos h2]
          exact ⟨hS.retag (by rw [h0]; decide) (by decide),
            TagInv.place (hE.first_unset h2).2 hc⟩
        · rw [if_neg h2]
          exact ⟨hS.retag (by rw [h0]; decide) (by decide),
            hE.retag (by rw [h0]; decide) (by decide)⟩
    · rw [if_neg h0]
      by_cases h1 : ed.grid c = CellType.Start
      · rw [if_pos h1]; exact clearS h1
      · rw [if_neg h1]
        by_cases h2 : ed.grid c = CellType.End
        · rw [if_pos h2]; exact clearE h2
        · rw [if_neg h2]; exact ⟨hS, hE⟩
  | Right =>
    unfold clickCell
    simp only []
    by_cases h0 : ed.grid c = CellType.Wall
    · rw [if_pos h0]
      exact ⟨hS.retag (by rw [h0]; decide) (by decide),
        hE.retag (by rw [h0]; decide) (by decide)⟩
    · rw [if_neg h0]
      by_cases h1 : ed.grid c = CellType.Start
      · rw [if_pos h1]; exact clearS h1
      · rw [if_neg h1]
        by_cases h2 : ed.grid c = CellType.End
        · rw [if_pos h2]; exact clearE h2
        · rw [if_neg h2]; exact ⟨hS, hE⟩

/-- C15: `handleMouseClick` keeps the invariant of the editor.  When
`startPos` agrees with the cells tagged `Start` (unset and no such cell, or
inside the grid and the only such cell) and `endPos` agrees in the same way
with the cells tagged `End`, the same holds after the handler has run, for
every position of the mouse and every button, and so for every click on a cell
of the grid with the left or the right button; after it at most one cell of
the grid is tagged `Start` and at most one is tagged `End`. -/
theorem C15_editor_invariant (N : Nat) (ed : Editor) (mousePos : Int × Int)
    (button : MouseButton) (h : EditorInv N ed) :
    EditorInv N (handleMouseClick N ed mousePos button) ∧
    (∀ c, inBounds N c → EditorInv N (clickCell ed c button)) ∧
    (∀ p q, inBounds N p → inBounds N q →
      (handleMouseClick N ed mousePos button).grid p = CellType.Start →
      (handleMouseClick N ed mousePos button).grid q = CellType.Start → p = q) ∧
    (∀ p q, inBounds N p → inBounds N q →
      (handleMouseClick N ed mousePos button).grid p = CellType.End →
      (handleMouseClick N ed mousePos button).grid q = CellType.End → p = q) := by
  have main : EditorInv N (handleMouseClick N ed mousePos button) := by
    unfold handleMouseClick
    split
    · exact h
    · split
      · exact h
      · simp only []
        split
        · exact h
        · rename_i hb
          apply clickCell_inv h
          unfold inBounds
          simp only [not_or, not_lt, ge_iff_le, not_le] at hb
          exact ⟨hb.1, hb.2.1, hb.2.2.1, hb.2.2.2⟩
  exact ⟨main, fun c hc => clickCell_inv h hc button,
    fun p q hp hq h1 h2 => main.1.only_one hp hq h1 h2,
    fun p q hp hq h1 h2 => main.2.only_one hp hq h1 h2⟩

/-- C15 on the grid of the source: from the empty editor, a left click at the
pixel `(30, 50)` places the start cell at `(1, 2)`, and the invariant holds
after it. -/
theorem C15_editor_invariant_witness :
    EditorInv GRID_SIZE editorEmpty ∧
      (handleMouseClick GRID_SIZE editorEmpty (30, 50) MouseButton.Left).startPos = (1, 2) ∧
      (handleMouseClick GRID_SIZE editorEmpty (30, 50) MouseButton.Left).grid (1, 2)
        = CellType.Start ∧
      EditorInv GRID_SIZE (handleMouseClick GRID_SIZE editorEmpty (30, 50) MouseButton.Left) :=
  have h : EditorInv GRID_SIZE editorEmpty :=
    ⟨Or.inl ⟨rfl, fun _ _ => (by show CellType.Empty ≠ CellType.Start; decide)⟩,
      Or.inl ⟨rfl, fun _ _ => (by show CellType.Empty ≠ CellType.End; decide)⟩⟩
  ⟨h, by decide, by decide,
    (C15_editor_invariant GRID_SIZE editorEmpty (30, 50) MouseButton.Left h).1⟩

/-! ## Runs with the end cell next to the start cell -/

section Adjacent
variable {α : Type} {N : Nat} {C : Container α} {mk : Pos → α} {pos : α → Pos}

theorem discover_visited_cases {cur : Pos} {st : VState C.σ} {d : Int × Int} {p : Pos}
    (h : (discover N C mk cur st d).visited p = true) :
    st.visited p = true ∨ (p = (cur.1 + d.1, cur.2 + d.2) ∧ st.visited p = false) := by
  by_cases hc : fresh N st (cur.1 + d.1, cur.2 + d.2)
  · rw [discover_pos hc] at h
    change setAt st.visited _ true p = true at h
    by_cases hpn : p = (cur.1 + d.1, cur.2 + d.2)
    · right; exact ⟨hpn, by rw [hpn]; exact hc.2.1⟩
    · left; rwa [setAt_other _ _ _ _ hpn] at h
  · rw [discover_neg hc] at h; left; exact h

theorem discover_items_cases {cur : Pos} {st : VState C.σ} {d : Int × Int} {b : α}
    (h : b ∈ C.items (discover N C mk cur st d).frontier) :
    b ∈ C.items st.frontier ∨ b = mk (cur.1 + d.1, cur.2 + d.2) := by
  by_cases hc : fresh N st (cur.1 + d.1, cur.2 + d.2)
  · rw [discover_pos hc] at h
    rcases List.mem_cons.mp ((C.items_push _ _).mem_iff.mp h) with h1 | h1
    · right; exact h1
    · left; exact h1
  · rw [discover_neg hc] at h; left; exact h

/-- A turn of the neighbour loop around `cur` leaves the parent of a marked
cell as it is, and gives a newly marked cell the parent `cur`. -/
theorem discover_parent_cases {cur : Pos} {st : VState C.σ} {d : Int × Int} {p : Pos}
    (h : (discover N C mk cur st d).visited p = true) :
    (st.visited p = true ∧ (discover N C mk cur st d).parent p = st.parent p) ∨
      (st.visited p = false ∧ (discover N C mk cur st d).parent p = cur) := by
  by_cases hc : fresh N st (cur.1 + d.1, cur.2 + d.2)
  · rw [discover_pos hc] at h ⊢
    change setAt st.visited _ true p = true at h
    by_cases hpn : p = (cur.1 + d.1, cur.2 + d.2)
    · right
      refine ⟨by rw [hpn]; exact hc.2.1, ?_⟩
      show setAt st.parent _ cur p = cur
      rw [hpn, setAt_same]
    · left
      rw [setAt_other _ _ _ _ hpn] at h
      exact ⟨h, setAt_other _ _ _ _ hpn⟩
  · rw [discover_neg hc] at h ⊢
    left; exact ⟨h, rfl⟩

/-- After the neighbour loop around a marked cell `cur`, every neighbour of
`cur` that the search may step on is marked. -/
theorem foldl_discover_targets (hpos : ∀ p, pos (mk p) = p) {g0 : Grid} {s : Pos}
    {depth : Pos → Nat} {st : VState C.σ} (hI : VInv N C pos g0 s depth st) {cur : Pos}
    (hcur : st.visited cur = true) {n : Pos} (hadj : manhattan cur n = 1)
    (hin : inBounds N n) (hw : g0 n ≠ CellType.Wall) :
    (dirs4.foldl (discover N C mk cur) st).visited n = true := by
  have hall := foldl_discover_all (N := N) (C := C) mk cur
    (fun x => ∃ dp, VInv N C pos g0 s dp x ∧ x.visited cur = true)
    (fun d x => inBounds N (cur.1 + d.1, cur.2 + d.2) →
      g0 (cur.1 + d.1, cur.2 + d.2) ≠ CellType.Wall →
      x.visited (cur.1 + d.1, cur.2 + d.2) = true)
    (fun x d hd hx => by
      obtain ⟨dp, h1, h2⟩ := hx
      exact ⟨_, discover_inv hpos h1 h2 hd, discover_visited_mono h2⟩)
    (fun x d _ hx => by
      obtain ⟨dp, h1, _⟩ := hx
      exact fun hin hw => discover_target h1 cur d hin hw)
    (fun x d d' _ _ hq => fun hin hw => discover_visited_mono (hq hin hw))
    dirs4 (fun _ hd => hd) st ⟨depth, hI, hcur⟩
  obtain ⟨d, hd, hnd⟩ := exists_delta hadj
  subst hnd
  exact hall d hd hin hw

/-- A property of states kept by every turn of the neighbour loop holds after
the loop. -/
theorem foldl_discover_keep (mk : Pos → α) (cur : Pos) (P : VState C.σ → Prop)
    (hstep : ∀ st d, d ∈ dirs4 → P st → P (discover N C mk cur st d)) (st : VState C.σ)
    (h : P st) : P (dirs4.foldl (discover N C mk cur) st) :=
  foldl_discover_inv (N := N) (C := C) mk cur (fun _ x => P x)
    (fun _ x d hd hx => hstep x d hd hx) dirs4 (fun _ hd => hd) (fun _ => 0) st h

/-- One turn of the main loop of `BFS`, `DFS` or `greedy` keeps `NearV` when
the end cell lies next to the start cell. -/
theorem nearV_turn (hpos : ∀ p, pos (mk p) = p) {g0 : Grid} {s e : Pos}
    (hadj : manhattan s e = 1) (hein : inBounds N e) (hew : g0 e ≠ CellType.Wall)
    {depth : Pos → Nat} {st : VState C.σ} (hI : VInv N C pos g0 s depth st)
    (hX : NearV s e st) {a : α} {rest : C.σ} (hp : C.pop st.frontier = some (a, rest)) :
    NearV s e (dirs4.foldl (discover N C mk (pos a)) (popV pos st a rest)) := by
  obtain ⟨hI1, hcur⟩ := popV_inv hI a rest hp
  right
  rcases hX with hA | hB
  · have hpa : pos a = s := hA _ hcur
    rw [hpa] at hcur ⊢
    have hv := foldl_discover_targets hpos hI1 hcur hadj hein hew
    refine ⟨hv, ?_⟩
    have hes : e ≠ s := by
      intro h; rw [h, manhattan_self] at hadj; omega
    have he0 : (popV pos st a rest).visited e = false := by
      cases hve : (popV pos st a rest).visited e with
      | false => rfl
      | true => exact absurd (hA e hve) hes
    have key := foldl_discover_keep (N := N) (C := C) mk s
      (fun x => x.visited e = true → x.parent e = s)
      (fun x d _ hx hv' => by
        rcases discover_parent_cases hv' with ⟨h1, h2⟩ | ⟨_, h2⟩
        · rw [h2]; exact hx h1
        · exact h2)
      (popV pos st a rest) (fun h => by rw [he0] at h; cases h)
    exact key hv
  · exact foldl_discover_keep (N := N) (C := C) mk (pos a)
      (fun x => x.visited e = true ∧ x.parent e = s)
      (fun x d _ hx => by
        have hv' : (discover N C mk (pos a) x d).visited e = true :=
          discover_visited_mono hx.1
        rcases discover_parent_cases hv' with ⟨_, h2⟩ | ⟨h1, _⟩
        · exact ⟨hv', by rw [h2]; exact hx.2⟩
        · rw [hx.1] at h1; cases h1)
      (popV pos st a rest) hB

theorem nearV_init (g : Grid) (s e : Pos) : NearV s e (visitedInit C mk g s) := by
  left
  intro p hp
  change setAt (fun _ => false) s true p = true at hp
  by_contra hps
  rw [setAt_other _ _ _ _ hps] at hp
  cases hp

end Adjacent

/-- One turn of the main loop of `greedy` keeps `NearG` when the end cell lies
next to the start cell: the loop pops the start cell, then the end cell. -/
theorem nearG_turn {N : Nat} {g0 : Grid} {s e : Pos}
    (hadj : manhattan s e = 1) (hein : inBounds N e) (hew : g0 e ≠ CellType.Wall)
    {depth : Pos → Nat} {st : VState pairPQ.σ}
    (hI : VInv N pairPQ.toContainer (fun a => a.2) g0 s depth st)
    (hT : VTrace s st) (hC : VClosure N pairPQ.toContainer (fun a => a.2) g0 e none st)
    (hX : NearG s e st) {a : Nat × Pos} {rest : pairPQ.σ}
    (hp : pairPQ.pop st.frontier = some (a, rest)) (he : a.2 ≠ e) :
    NearG s e (dirs4.foldl (discover N pairPQ.toContainer (fun p => (manhattan p e, p)) a.2)
      (popV (fun a => a.2) st a rest)) := by
  have hposmk : ∀ p : Pos, (fun a : Nat × Pos => a.2) ((fun p => (manhattan p e, p)) p) = p :=
    fun _ => rfl
  obtain ⟨hI1, hcur⟩ := popV_inv hI a rest hp
  obtain ⟨_, _, hC', _⟩ := turn_generic hposmk hI hT hC hp he
  obtain ⟨hform, hnear, hAB⟩ := hX
  have hperm := pairPQ.pop_some _ _ _ hp
  have ha : a ∈ pairPQ.items st.frontier := hperm.mem_iff.mpr (List.mem_cons_self _ _)
  have hpa : a.2 = s := by
    rcases hAB with hA | ⟨b, hb, hbe⟩
    · exact hA _ hcur
    · exfalso
      have hmin := pairPQ.pop_min _ _ _ hp b hb
      have h1 := hform a ha
      have h2 := hform b hb
      rw [hbe, manhattan_self] at h2
      unfold pairGt at hmin
      simp only [decide_eq_false_iff_not] at hmin
      have h3 : manhattan a.2 e = 0 := by omega
      exact he (manhattan_eq_zero h3)
  rw [hpa] at hcur hC' ⊢
  have hv := foldl_discover_targets hposmk hI1 hcur hadj hein hew
  refine ⟨?_, ?_, Or.inr (hC'.end_item hv)⟩
  · exact foldl_discover_keep (N := N) (C := pairPQ.toContainer)
      (fun p => (manhattan p e, p)) s
      (fun x => ∀ b ∈ pairPQ.items x.frontier, b.1 = manhattan b.2 e)
      (fun x d _ hx b hb => by
        rcases discover_items_cases hb with h1 | h1
        · exact hx b h1
        · rw [h1])
      (popV (fun a => a.2) st a rest)
      (fun b hb => hform b (hperm.mem_iff.mpr (List.mem_cons_of_mem _ hb)))
  · exact foldl_discover_keep (N := N) (C := pairPQ.toContainer)
      (fun p => (manhattan p e, p)) s
      (fun x => ∀ p, x.visited p = true → p = s ∨ manhattan s p = 1)
      (fun x d hd hx p hpv => by
        rcases discover_visited_cases hpv with h1 | ⟨h1, _⟩
        · exact hx p h1
        · right; rw [h1]; exact manhattan_step hd)
      (popV (fun a => a.2) st a rest) hnear

theorem nearG_init (g : Grid) (s e : Pos) :
    NearG s e (visitedInit pairPQ.toContainer (fun p => (manhattan p e, p)) g s) := by
  have hvis : ∀ p, (visitedInit pairPQ.toContainer (fun p => (manhattan p e, p)) g s).visited p
      = true → p = s := by
    intro p hp
    change setAt (fun _ => false) s true p = true at hp
    by_contra hps
    rw [setAt_other _ _ _ _ hps] at hp
    cases hp
  refine ⟨?_, fun p hp => Or.inl (hvis p hp), Or.inl hvis⟩
  intro b hb
  have : pairPQ.items (visitedInit pairPQ.toContainer (fun p => (manhattan p e, p)) g s).frontier
      = [(manhattan s e, s)] := rfl
  rw [this] at hb
  have hb' : b = (manhattan s e, s) := by simpa using hb
  rw [hb']

section AdjacentRelax
variable {α : Type} {N : Nat} {C : Container α} {mk : Pos → Nat → α} {pos : α → Pos}
  {gOf : α → Nat}

/-- A turn of the neighbour loop around `cur` changes the distance of no cell
but `cur + d`. -/
theorem relax_dist_where (mk : Pos → Nat → α) (cur : Pos) (gcur : Nat) (st : DState C.σ)
    (d : Int × Int) (p : Pos) :
    (relax N C mk cur gcur st d).dist p = st.dist p ∨ p = (cur.1 + d.1, cur.2 + d.2) := by
  by_cases hc : relaxable N st gcur (cur.1 + d.1, cur.2 + d.2)
  · rw [relax_pos hc]
    by_cases hpn : p = (cur.1 + d.1, cur.2 + d.2)
    · right; exact hpn
    · left; exact setAt_other _ _ _ _ hpn
  · rw [relax_neg hc]; left; rfl

/-- After the neighbour loop around the popped entry `(cur, gcur)`, every
neighbour of `cur` that the search may step on has a distance of at most
`gcur + 1`. -/
theorem foldl_relax_targets (hpos : ∀ p d, pos (mk p d) = p) (hg : ∀ p d, gOf (mk p d) = d)
    {g0 : Grid} {s : Pos} {st : DState C.σ} (hI : DInv N C mk pos gOf g0 s st)
    {cur : Pos} {gcur : Nat} (hcur : CurOK N g0 s st cur gcur) {n : Pos}
    (hadj : manhattan cur n = 1) (hin : inBounds N n) (hw : g0 n ≠ CellType.Wall) :
    ∃ d', (dirs4.foldl (relax N C mk cur gcur) st).dist n = some d' ∧ d' ≤ gcur + 1 := by
  have hall := foldl_relax_all (N := N) (C := C) mk cur gcur
    (fun x => DInv N C mk pos gOf g0 s x ∧ CurOK N g0 s x cur gcur)
    (fun d x => inBounds N (cur.1 + d.1, cur.2 + d.2) →
      g0 (cur.1 + d.1, cur.2 + d.2) ≠ CellType.Wall →
      ∃ d', x.dist (cur.1 + d.1, cur.2 + d.2) = some d' ∧ d' ≤ gcur + 1)
    (fun x d hd hx => relax_inv hpos hg hx.1 hx.2 hd)
    (fun x d _ hx => fun hin hw => relax_target hx.1 cur gcur d hin hw)
    (fun x d d' _ _ hq => fun hin hw => by
      obtain ⟨d1, h1, h2⟩ := hq hin hw
      obtain ⟨d2, h3, h4⟩ := relax_dist_down (N := N) (C := C) hpos hg cur gcur x d' h1
      exact ⟨d2, h3, by omega⟩)
    dirs4 (fun _ hd => hd) st ⟨hI, hcur⟩
  obtain ⟨d, hd, hnd⟩ := exists_delta hadj
  subst hnd
  exact hall d hd hin hw

/-- A property of states kept by every turn of the neighbour loop holds after
the loop. -/
theorem foldl_relax_keep (mk : Pos → Nat → α) (cur : Pos) (gcur : Nat) (P : DState C.σ → Prop)
    (hstep : ∀ st d, d ∈ dirs4 → P st → P (relax N C mk cur gcur st d)) (st : DState C.σ)
    (h : P st) : P (dirs4.foldl (relax N C mk cur gcur) st) :=
  foldl_relax_inv (N := N) (C := C) mk cur gcur P hstep dirs4 (fun _ hd => hd) st h

/-- One turn of the main loop of `aStar` keeps `NearD` when the end cell lies
next to the start cell: the loop pops the start cell, then the end cell. -/
theorem nearD_turn (hpos : ∀ p d, pos (mk p d) = p) (hg : ∀ p d, gOf (mk p d) = d)
    (stale : Bool) {g0 : Grid} {s e : Pos}
    (hmin : ∀ q a rest, C.pop q = some (a, rest) → ∀ b ∈ C.items q,
      a = mk (pos a) (gOf a) → b = mk (pos b) (gOf b) →
      gOf a + manhattan (pos a) e ≤ gOf b + manhattan (pos b) e)
    (hadj : manhattan s e = 1) (hein : inBounds N e) (hew : g0 e ≠ CellType.Wall)
    {st : DState C.σ} (hI : DInv N C mk pos gOf g0 s st) (hX : NearD s e C pos gOf st)
    {a : α} {rest : C.σ} (hp : C.pop st.frontier = some (a, rest)) (he : pos a ≠ e) :
    NearD s e C pos gOf (nextD N C mk pos gOf stale st a rest) := by
  obtain ⟨hI1, hcur⟩ := popD_inv hI a rest hp
  obtain ⟨hnear, hAB⟩ := hX
  have hperm := C.pop_some _ _ _ hp
  have ha : a ∈ C.items st.frontier := hperm.mem_iff.mpr (List.mem_cons_self _ _)
  have hrest : ∀ b ∈ C.items rest, b ∈ C.items st.frontier :=
    fun b hb => hperm.mem_iff.mpr (List.mem_cons_of_mem _ hb)
  have hes : e ≠ s := by
    intro h; rw [h, manhattan_self] at hadj; omega
  have hpa : pos a = s ∧ gOf a = 0 := by
    rcases hAB with ⟨hA1, hA2⟩ | ⟨b, hb, hbe, hbg⟩
    · obtain ⟨d, hd, _⟩ := hI.items_dist a ha
      exact ⟨hA1 _ (by rw [hd]; rfl), hA2 a ha⟩
    · have h1 := hmin _ _ _ hp b hb (hI.items_mk a ha) (hI.items_mk b hb)
      rw [hbe, hbg, manhattan_self] at h1
      have h2 : manhattan (pos a) e ≠ 0 := fun h => he (manhattan_eq_zero h)
      have h3 : gOf a = 0 := by omega
      have hw := hI.items_walk a ha
      rw [h3] at hw
      exact ⟨hw.zero_eq, h3⟩
  obtain ⟨hpa1, hpa2⟩ := hpa
  have hB1 : (∃ b ∈ C.items st.frontier, pos b = e ∧ gOf b = 1) →
      ∃ b ∈ C.items rest, pos b = e ∧ gOf b = 1 := by
    rintro ⟨b, hb, hbe, hbg⟩
    rcases List.mem_cons.mp (hperm.mem_iff.mp hb) with e1 | hmem
    · rw [e1] at hbe; exact absurd hbe he
    · exact ⟨b, hmem, hbe, hbg⟩
  unfold nextD
  split
  · refine ⟨hnear, ?_⟩
    rcases hAB with ⟨hA1, hA2⟩ | hB
    · exact Or.inl ⟨hA1, fun b hb => hA2 b (hrest b hb)⟩
    · exact Or.inr (hB1 hB)
  · rw [hpa1, hpa2] at hcur ⊢
    refine ⟨?_, Or.inr ?_⟩
    · exact foldl_relax_keep (N := N) (C := C) mk s 0
        (fun x => ∀ p, (x.dist p).isSome = true → p = s ∨ manhattan s p = 1)
        (fun x d hd hx p hpv => by
          rcases relax_dist_where (N := N) (C := C) mk s 0 x d p with h1 | h1
          · rw [h1] at hpv; exact hx p hpv
          · right; rw [h1]; exact manhattan_step hd)
        (popD pos st a rest) hnear
    · have hQ := foldl_relax_keep (N := N) (C := C) mk s 0
        (fun x => x.dist e = none ∨ ∃ b ∈ C.items x.frontier, pos b = e ∧ gOf b = 1)
        (fun x d _ hx => by
          rcases relax_dist_cases (N := N) (C := C) hpos hg s 0 x d e with h1 | ⟨_, _, h3⟩
          · rcases hx with h2 | ⟨b, hb, hb2⟩
            · left; rw [h1]; exact h2
            · right; exact ⟨b, relax_items_mono hb, hb2⟩
          · right; exact h3)
        (popD pos st a rest) (by
          rcases hAB with ⟨hA1, _⟩ | hB
          · left
            cases hde : (popD pos st a rest).dist e with
            | none => rfl
            | some d =>
              have : (st.dist e).isSome = true := by
                change st.dist e = some d at hde
                rw [hde]; rfl
              exact absurd (hA1 e this) hes
          · right; exact hB1 hB)
      obtain ⟨d', hd', _⟩ := foldl_relax_targets hpos hg hI1 hcur hadj hein hew
      rcases hQ with h | h
      · rw [hd'] at h; cases h
      · exact h

theorem nearD_init (hg : ∀ p d, gOf (mk p d) = d) (g : Grid) (s e : Pos)
    (hone : ∀ a ∈ C.items (C.push C.empty (mk s 0)), a = mk s 0) :
    NearD s e C pos gOf (relaxInit C mk g s) := by
  have hvis : ∀ p, ((relaxInit C mk g s).dist p).isSome = true → p = s := by
    intro p hp
    change (setAt (fun _ => none) s (some 0) p).isSome = true at hp
    by_contra hps
    rw [setAt_other _ _ _ _ hps] at hp
    cases hp
  refine ⟨fun p hp => Or.inl (hvis p hp), Or.inl ⟨hvis, ?_⟩⟩
  intro a ha
  rw [hone a ha, hg]

theorem items_push_empty (C : Container α) (x : α) :
    ∀ a ∈ C.items (C.push C.empty x), a = x := by
  intro a ha
  have := (C.items_push C.empty x).mem_iff.mp ha
  rw [C.items_empty] at this
  simpa using this

end AdjacentRelax

/-- A run that finds an end cell whose parent is the start cell tags the end
cell and no other cell. -/
theorem Sound.path_single {N : Nat} {g : Grid} {s e : Pos} {r : Outcome}
    (hS : Sound N g s e r) (hfound : r.found = true) (hes : e ≠ s) (hpar : r.parent e = s) :
    pathCells r.trace = [e] := by
  have hhead := hS.path_head hfound hes
  have hlink := hS.path_link
  have hmem := hS.path_mem
  cases hl : pathCells r.trace with
  | nil => rw [hl] at hhead; cases hhead
  | cons a l =>
    rw [hl] at hhead hlink hmem
    have hae : a = e := by simpa using hhead
    subst hae
    cases l with
    | nil => rfl
    | cons b l' =>
      exfalso
      rw [List.chain'_cons] at hlink
      have hb : b = s := hlink.1.trans hpar
      exact (hmem b (by simp)).2 hb

/-- The end cell next to the start cell lies at distance one. -/
theorem isDist_adjacent {N : Nat} {g : Grid} {s e : Pos} (hadj : manhattan s e = 1)
    (hein : inBounds N e) (hew : g e ≠ CellType.Wall) : IsDist N g s e 1 := by
  refine ⟨Walk.step Walk.start hadj hein hew, fun j hj => ?_⟩
  cases j with
  | zero =>
    have := hj.zero_eq
    rw [this, manhattan_self] at hadj
    omega
  | succ j => omega

/-- The open set of `aStar` hands out an entry of least `g + h`. -/
theorem aStar_pop_least (pq : MinQueue Node nodeGt) (e : Pos) (q : pq.σ) (a : Node)
    (rest : pq.σ) (hp : pq.pop q = some (a, rest)) (b : Node) (hb : b ∈ pq.items q)
    (ha : a = Node.mk (a.x, a.y).1 (a.x, a.y).2 a.g (manhattan (a.x, a.y) e))
    (hb' : b = Node.mk (b.x, b.y).1 (b.x, b.y).2 b.g (manhattan (b.x, b.y) e)) :
    a.g + manhattan (a.x, a.y) e ≤ b.g + manhattan (b.x, b.y) e := by
  have := pq.pop_min q a rest hp b hb
  unfold nodeGt at this
  simp only [decide_eq_false_iff_not] at this
  have h1 : a.h = manhattan (a.x, a.y) e := by
    conv_lhs => rw [ha]
  have h2 : b.h = manhattan (b.x, b.y) e := by
    conv_lhs => rw [hb']
  omega

theorem DFS_near (N : Nat) (g : Grid) {s e : Pos} (hs : inBounds N s)
    (hadj : manhattan s e = 1) (hein : inBounds N e) (hew : g e ≠ CellType.Wall) :
    ∃ r, DFS N g s e = .ok r ∧
      VResult N lifo (fun p => p) g s e (fun _ st => NearV s e st) r := by
  unfold DFS
  exact visitedSearch_result (fun _ => rfl) g hs e (fun _ st => NearV s e st)
    (nearV_init g s e)
    (fun _ _ _ _ hI _ _ hX hp _ => nearV_turn (fun _ => rfl) hadj hein hew hI hX hp)

theorem greedy_near (N : Nat) (g : Grid) {s e : Pos} (hs : inBounds N s)
    (hadj : manhattan s e = 1) (hein : inBounds N e) (hew : g e ≠ CellType.Wall) :
    ∃ r, greedy N g s e = .ok r ∧
      VResult N pairPQ.toContainer (fun a => a.2) g s e
        (fun _ st => NearV s e st ∧ NearG s e st) r := by
  unfold greedy
  exact visitedSearch_result (fun _ => rfl) g hs e (fun _ st => NearV s e st ∧ NearG s e st)
    ⟨nearV_init g s e, nearG_init g s e⟩
    (fun _ _ _ _ hI hT hC hX hp he =>
      ⟨nearV_turn (fun _ => rfl) hadj hein hew hI hX.1 hp,
        nearG_turn hadj hein hew hI hT hC hX.2 hp he⟩)

theorem aStar_near (N : Nat) (pq : MinQueue Node nodeGt) (g : Grid) {s e : Pos}
    (hs : inBounds N s) (hadj : manhattan s e = 1) (hein : inBounds N e)
    (hew : g e ≠ CellType.Wall) :
    ∃ r, aStar N pq g s e = .ok r ∧
      DResult N pq.toContainer (fun p d => Node.mk p.1 p.2 d (manhattan p e))
        (fun a => (a.x, a.y)) (fun a => a.g) g s e
        (NearD s e pq.toContainer (fun a => (a.x, a.y)) (fun a => a.g)) r := by
  unfold aStar
  exact relaxSearch_result (fun _ _ => rfl) (fun _ _ => rfl) false aStarDeltas aStarDeltas_eq
    g hs e (NearD s e pq.toContainer (fun a => (a.x, a.y)) (fun a => a.g))
    (nearD_init (fun _ _ => rfl) g s e (items_push_empty _ _))
    (fun _ _ _ hI _ _ hX hp he =>
      nearD_turn (fun _ _ => rfl) (fun _ _ => rfl) false (aStar_pop_least pq e)
        hadj hein hew hI hX hp he)

/-- C13, as stated, does not hold for `BFS`, `dijkstra` and `DFS`: they test
for the end cell when they pop a cell, and the neighbours of the start cell
that they pop before the end cell are expanded.  On the 40 x 40 grid with
`Start` at `(0, 0)` and `End` at `(1, 0)`, `BFS` and `dijkstra` pop `(0, 1)`
first and tag `(1, 1)`, two steps away from the start cell, `Visited`; on the
3 x 3 grid with `Start` at `(1, 0)` and `End` at `(0, 0)`, `DFS` tags
`(2, 1)`. -/
theorem C13_adjacent_endpoints_counterexample :
    gridAdjacent (0, 0) = CellType.Start ∧ gridAdjacent (1, 0) = CellType.End ∧
    manhattan (0, 0) (1, 0) = 1 ∧
    gridAdjacent (1, 1) = CellType.Empty ∧ manhattan (0, 0) (1, 1) = 2 ∧
    tagOf (findPath Algorithm.BFS GRID_SIZE nodePQ gridAdjacent (0, 0) (1, 0)) (1, 1)
      = some CellType.Visited ∧
    tagOf (findPath Algorithm.Dijkstra GRID_SIZE nodePQ gridAdjacent (0, 0) (1, 0)) (1, 1)
      = some CellType.Visited ∧
    gridAdjacentLeft (1, 0) = CellType.Start ∧ gridAdjacentLeft (0, 0) = CellType.End ∧
    manhattan (1, 0) (0, 0) = 1 ∧
    gridAdjacentLeft (2, 1) = CellType.Empty ∧ manhattan (1, 0) (2, 1) = 2 ∧
    tagOf (findPath Algorithm.DFS 3 nodePQ gridAdjacentLeft (1, 0) (0, 0)) (2, 1)
      = some CellType.Visited := by
  decide

/-- C13, amended: when the end cell lies next to the start cell (inside the
grid, not a `Wall`), every routine returns `true` and `reconstructPath` tags
exactly one cell, the end cell.  In the runs of `greedy` and of `aStar` (over
any lawful open set) the marked cells are the start cell and neighbours of it,
and every cell that the run tags `Visited` is a neighbour of the start cell;
this does not hold for `BFS`, `DFS` and `dijkstra`. -/
theorem C13_adjacent_endpoints (algo : Algorithm) (N : Nat) (pq : MinQueue Node nodeGt)
    (g : Grid) (s e : Pos) (hs : inBounds N s) (hein : inBounds N e)
    (hadj : manhattan s e = 1) (hew : g e ≠ CellType.Wall) :
    ∃ r, findPath algo N pq g s e = .ok r ∧ r.found = true ∧ pathCells r.trace = [e] ∧
      ((algo = Algorithm.Greedy ∨ algo = Algorithm.AStar) →
        (∀ p, r.reached p = true → p = s ∨ manhattan s p = 1) ∧
        ∀ p, r.grid p = CellType.Visited → g p = CellType.Visited ∨ manhattan s p = 1) := by
  have hes : e ≠ s := by
    intro h; rw [h, manhattan_self] at hadj; omega
  have hdist := isDist_adjacent (N := N) hadj hein hew
  obtain ⟨r, hr, hS⟩ := findPath_sound algo N pq g hs e
  have hfound : r.found = true := hS.found_iff.mpr ⟨1, hdist.1⟩
  have hshort : (algo = Algorithm.BFS ∨ algo = Algorithm.Dijkstra ∨ algo = Algorithm.AStar) →
      pathCells r.trace = [e] := by
    intro halgo
    have hlen := (findPath_shortest halgo hr hfound).unique hdist
    have hhead := hS.path_head hfound hes
    cases hl : pathCells r.trace with
    | nil => rw [hl] at hhead; cases hhead
    | cons a l =>
      rw [hl] at hhead hlen
      have hae : a = e := by simpa using hhead
      cases l with
      | nil => rw [hae]
      | cons b l' => simp at hlen
  have htag : (∀ p, r.reached p = true → p = s ∨ manhattan s p = 1) →
      ∀ p, r.grid p = CellType.Visited → g p = CellType.Visited ∨ manhattan s p = 1 := by
    intro hnear p hp
    rw [hS.grid_eq] at hp
    split at hp
    · cases hp
    · split at hp
      · rename_i h
        rcases hnear p h.1 with h1 | h1
        · exact absurd h1 h.2
        · right; exact h1
      · left; exact hp
  cases algo with
  | BFS =>
    exact ⟨r, hr, hfound, hshort (Or.inl rfl), fun h => (by rcases h with h | h <;> cases h)⟩
  | Dijkstra =>
    exact ⟨r, hr, hfound, hshort (Or.inr (Or.inl rfl)),
      fun h => (by rcases h with h | h <;> cases h)⟩
  | DFS =>
    refine ⟨r, hr, hfound, ?_, fun h => (by rcases h with h | h <;> cases h)⟩
    obtain ⟨r', h1, h2⟩ := DFS_near N g hs hadj hein hew
    have hr' : findPath Algorithm.DFS N pq g s e = .ok (Outcome.ofV r') := by
      simp only [findPath, h1]; rfl
    rw [hr] at hr'
    cases hr'
    apply hS.path_single hfound hes
    obtain ⟨depth, stF, _, _, _, hX, hcase⟩ := h2
    rcases hcase with ⟨_, hr0⟩ | ⟨_, hve, _, _, hpar, _, _⟩
    · rw [hr0] at hfound; cases hfound
    · show r'.2.parent e = s
      rw [hpar]
      rcases hX with hA | hB
      · exact absurd (hA e hve) hes
      · exact hB.2
  | Greedy =>
    obtain ⟨r', h1, h2⟩ := greedy_near N g hs hadj hein hew
    have hr' : findPath Algorithm.Greedy N pq g s e = .ok (Outcome.ofV r') := by
      simp only [findPath, h1]; rfl
    rw [hr] at hr'
    cases hr'
    obtain ⟨depth, stF, _, _, _, hX, hcase⟩ := h2
    rcases hcase with ⟨_, hr0⟩ | ⟨_, hve, _, hvis, hpar, _, _⟩
    · rw [hr0] at hfound; cases hfound
    · have hnear : ∀ p, (Outcome.ofV r').reached p = true → p = s ∨ manhattan s p = 1 := by
        intro p hp
        change r'.2.visited p = true at hp
        rw [hvis] at hp
        exact hX.2.2.1 p hp
      refine ⟨_, hr, hfound, ?_, fun _ => ⟨hnear, htag hnear⟩⟩
      apply hS.path_single hfound hes
      show r'.2.parent e = s
      rw [hpar]
      rcases hX.1 with hA | hB
      · exact absurd (hA e hve) hes
      · exact hB.2
  | AStar =>
    obtain ⟨r', h1, h2⟩ := aStar_near N pq g hs hadj hein hew
    have hr' : findPath Algorithm.AStar N pq g s e = .ok (Outcome.ofD r') := by
      simp only [findPath, h1]; rfl
    rw [hr] at hr'
    cases hr'
    obtain ⟨stF, _, _, _, hX, hcase⟩ := h2
    have hnear : ∀ p, (Outcome.ofD r').reached p = true → p = s ∨ manhattan s p = 1 := by
      intro p hp
      change (r'.2.dist p).isSome = true at hp
      rcases hcase with ⟨_, hr0⟩ | ⟨_, _, _, hdist', _, _, _⟩
      · rw [hr0] at hp; exact hX.1 p hp
      · rw [hdist'] at hp; exact hX.1 p hp
    exact ⟨_, hr, hfound, hshort (Or.inr (Or.inr rfl)), fun _ => ⟨hnear, htag hnear⟩⟩

/-- C13, amended, on the 40 x 40 grid with `Start` at `(0, 0)` and `End` at
`(1, 0)`, for `greedy`. -/
theorem C13_adjacent_endpoints_witness :
    inBounds GRID_SIZE ((0, 0) : Pos) ∧ inBounds GRID_SIZE ((1, 0) : Pos) ∧
    manhattan (0, 0) (1, 0) = 1 ∧ gridAdjacent (1, 0) ≠ CellType.Wall ∧
    ∃ r, findPath Algorithm.Greedy GRID_SIZE nodePQ gridAdjacent (0, 0) (1, 0) = .ok r ∧
      r.found = true ∧ pathCells r.trace = [(1, 0)] ∧
      ((Algorithm.Greedy = Algorithm.Greedy ∨ Algorithm.Greedy = Algorithm.AStar) →
        (∀ p, r.reached p = true → p = (0, 0) ∨ manhattan (0, 0) p = 1) ∧
        ∀ p, r.grid p = CellType.Visited →
          gridAdjacent p = CellType.Visited ∨ manhattan (0, 0) p = 1) :=
  ⟨by decide, by decide, by decide, by decide,
    C13_adjacent_endpoints Algorithm.Greedy GRID_SIZE nodePQ gridAdjacent (0, 0) (1, 0)
      (by decide) (by decide) (by decide) (by decide)⟩

/-! ## The cells marked by `aStar` are marked by `dijkstra` -/

section EndBounds
variable {α : Type} {N : Nat} {C : Container α} {mk : Pos → Nat → α} {pos : α → Pos}
  {gOf : α → Nat}

/-- One turn of the main loop of `aStar` keeps `EndBound`: the popped entry
has the least `g + h` of the open set, which holds an entry with `g + h` at
most the distance of the end cell, so the distances stored by the turn do not
exceed that distance. -/
theorem endBound_turn (hpos : ∀ p d, pos (mk p d) = p) (hg : ∀ p d, gOf (mk p d) = d)
    (stale : Bool) {g0 : Grid} {s e : Pos}
    (hmin : ∀ q a rest, C.pop q = some (a, rest) → ∀ b ∈ C.items q,
      a = mk (pos a) (gOf a) → b = mk (pos b) (gOf b) →
      gOf a + manhattan (pos a) e ≤ gOf b + manhattan (pos b) e)
    {st : DState C.σ} (hI : DInv N C mk pos gOf g0 s st)
    (hC : DClosure N C pos gOf g0 s e none st) (hX : EndBound N g0 s e C pos gOf st)
    {a : α} {rest : C.σ} (hp : C.pop st.frontier = some (a, rest)) (he : pos a ≠ e) :
    EndBound N g0 s e C pos gOf (nextD N C mk pos gOf stale st a rest) := by
  obtain ⟨hX1, hX2⟩ := hX
  have hperm := C.pop_some _ _ _ hp
  have ha : a ∈ C.items st.frontier := hperm.mem_iff.mpr (List.mem_cons_self _ _)
  have hX2' : ∀ d, (popD pos st a rest).dist e = some d →
      ∃ b ∈ C.items (popD pos st a rest).frontier, pos b = e ∧ gOf b = d := by
    intro d hd
    obtain ⟨b, hb, hbe, hbg⟩ := hX2 d hd
    rcases List.mem_cons.mp (hperm.mem_iff.mp hb) with e1 | hmem
    · rw [e1] at hbe; exact absurd hbe he
    · exact ⟨b, hmem, hbe, hbg⟩
  have hbound : ∀ j, Walk N g0 s e j → gOf a + 1 ≤ j := by
    intro j hj
    obtain ⟨k, hk⟩ := exists_isDist ⟨j, hj⟩
    have hkj := hk.2 j hj
    have hb : ∃ b ∈ C.items st.frontier, gOf b + manhattan (pos b) e ≤ k := by
      rcases relax_frontier_bound hI hC (fun p => manhattan p e)
        (fun p q hpq => by
          have := manhattan_triangle p q e
          show manhattan p e ≤ manhattan q e + 1
          omega) k e hk with h1 | ⟨b, hb, hbk⟩
      · obtain ⟨b, hb, hbe, hbg⟩ := hX2 k h1
        exact ⟨b, hb, by rw [hbe, hbg, manhattan_self]; omega⟩
      · refine ⟨b, hb, ?_⟩
        have : manhattan e e = 0 := manhattan_self e
        simp only [this] at hbk
        exact hbk
    obtain ⟨b, hb, hbk⟩ := hb
    have h1 := hmin _ _ _ hp b hb (hI.items_mk a ha) (hI.items_mk b hb)
    have h2 : manhattan (pos a) e ≠ 0 := fun h => he (manhattan_eq_zero h)
    omega
  unfold nextD
  split
  · exact ⟨hX1, hX2'⟩
  · refine ⟨?_, ?_⟩
    · exact foldl_relax_inv (N := N) (C := C) mk (pos a) (gOf a)
        (fun x => ∀ p d, x.dist p = some d → ∀ j, Walk N g0 s e j → d ≤ j)
        (fun x d _ hx p dp hpd j hj => by
          rcases relax_dist_cases (N := N) (C := C) hpos hg (pos a) (gOf a) x d p
            with h1 | ⟨h1, _, _⟩
          · rw [h1] at hpd; exact hx p dp hpd j hj
          · rw [h1] at hpd
            have : gOf a + 1 = dp := by simpa using hpd
            have := hbound j hj
            omega)
        dirs4 (fun _ hd => hd) (popD pos st a rest) hX1
    · exact foldl_relax_inv (N := N) (C := C) mk (pos a) (gOf a)
        (fun x => ∀ d, x.dist e = some d → ∃ b ∈ C.items x.frontier, pos b = e ∧ gOf b = d)
        (fun x d _ hx de hde => by
          rcases relax_dist_cases (N := N) (C := C) hpos hg (pos a) (gOf a) x d e
            with h1 | ⟨h1, _, h3⟩
          · rw [h1] at hde
            obtain ⟨b, hb, hb2⟩ := hx de hde
            exact ⟨b, relax_items_mono hb, hb2⟩
          · rw [h1] at hde
            have : gOf a + 1 = de := by simpa using hde
            rw [← this]
            exact h3)
        dirs4 (fun _ hd => hd) (popD pos st a rest) hX2'

theorem endBound_init (hpos : ∀ p d, pos (mk p d) = p) (hg : ∀ p d, gOf (mk p d) = d)
    (g : Grid) (s e : Pos) : EndBound N g s e C pos gOf (relaxInit C mk g s) := by
  have hd : ∀ p d, (relaxInit C mk g s).dist p = some d → p = s ∧ d = 0 := by
    intro p d hp
    change setAt (fun _ => none) s (some 0) p = some d at hp
    by_cases hps : p = s
    · rw [hps, setAt_same] at hp
      exact ⟨hps, by simpa using hp.symm⟩
    · rw [setAt_other _ _ _ _ hps] at hp
      cases hp
  refine ⟨fun p d hp j _ => by rw [(hd p d hp).2]; exact Nat.zero_le _, fun d hde => ?_⟩
  obtain ⟨h1, h2⟩ := hd e d hde
  refine ⟨mk s 0, (C.items_push _ _).mem_iff.mpr (List.mem_cons_self _ _), ?_, ?_⟩
  · rw [hpos, h1]
  · rw [hg, h2]

/-- When the popped entry has the least distance of the queue (`dijkstra`),
a run marks every cell that is not further from the start cell than the end
cell. -/
theorem DResult.reach_near {g : Grid} {s e : Pos} {X : DState C.σ → Prop}
    {r : Bool × DState C.σ} (hr : DResult N C mk pos gOf g s e X r)
    (hmin : ∀ q a rest, C.pop q = some (a, rest) → ∀ b ∈ C.items q, gOf a ≤ gOf b)
    {p : Pos} {k : Nat} (hk : IsDist N g s p k) (hle : ∀ j, Walk N g s e j → k ≤ j) :
    (r.2.dist p).isSome = true := by
  obtain ⟨stF, hI, _, hC, _, hcase⟩ := hr
  have hfb := relax_frontier_bound hI hC (fun _ => 0) (fun _ _ _ => Nat.zero_le _)
  rcases hcase with ⟨hempty, hr0⟩ | ⟨⟨a, rest, hp, hae⟩, _, _, hdist, _, _, _⟩
  · rw [hr0]
    rcases hfb k p hk with h1 | ⟨b, hb, _⟩
    · show (stF.dist p).isSome = true
      rw [h1]; rfl
    · rw [hempty] at hb; cases hb
  · rw [hdist]
    have hperm := C.pop_some _ _ _ hp
    have ha : a ∈ C.items stF.frontier := hperm.mem_iff.mpr (List.mem_cons_self _ _)
    have hwa : Walk N g s e (gOf a) := by
      have := hI.items_walk a ha
      rwa [hae] at this
    have hka := hle _ hwa
    cases k with
    | zero =>
      rw [hk.1.zero_eq, hI.dist_start]; rfl
    | succ k =>
      obtain ⟨u, hu, hadj⟩ := hk.pred
      obtain ⟨_, _, _, hin, hw⟩ := hk.1.succ_inv
      have hdu : stF.dist u = some k := by
        rcases hfb k u hu with h1 | ⟨b, hb, hbk⟩
        · exact h1
        · have := hmin _ _ _ hp b hb
          simp only [Nat.add_zero] at hbk
          omega
      rcases hC.closed u k hdu hu.2 with ⟨b, hb, _, hbg⟩ | hc | hx
      · have := hmin _ _ _ hp b hb
        omega
      · cases hc
      · obtain ⟨d', h1, _⟩ := hx p hadj hin hw
        rw [h1]; rfl

end EndBounds

theorem aStar_endBound (N : Nat) (pq : MinQueue Node nodeGt) (g : Grid) {s : Pos}
    (hs : inBounds N s) (e : Pos) :
    ∃ r, aStar N pq g s e = .ok r ∧
      DResult N pq.toContainer (fun p d => Node.mk p.1 p.2 d (manhattan p e))
        (fun a => (a.x, a.y)) (fun a => a.g) g s e
        (EndBound N g s e pq.toContainer (fun a => (a.x, a.y)) (fun a => a.g)) r := by
  unfold aStar
  exact relaxSearch_result (fun _ _ => rfl) (fun _ _ => rfl) false aStarDeltas aStarDeltas_eq
    g hs e (EndBound N g s e pq.toContainer (fun a => (a.x, a.y)) (fun a => a.g))
    (endBound_init (fun _ _ => rfl) (fun _ _ => rfl) g s e)
    (fun _ _ _ hI _ hC hX hp he =>
      endBound_turn (fun _ _ => rfl) (fun _ _ => rfl) false (aStar_pop_least pq e)
        hI hC hX hp he)

/-- C14: on a grid whose cells inside are tagged `Empty`, `Wall`, `Start` or
`End`, with no `Start` tag off the start cell and no `End` tag off the end
cell, every cell that a run of `aStar` (over any lawful open set) leaves
tagged `Visited` or `Path` is left tagged `Visited` or `Path` by the run of
`dijkstra`; so `aStar` tags at most as many cells as `dijkstra`. -/
theorem C14_astar_tags_le_dijkstra (N : Nat) (pq : MinQueue Node nodeGt) (g : Grid)
    (s e : Pos) (hs : inBounds N s)
    (hcell : ∀ p, inBounds N p → g p = CellType.Empty ∨ g p = CellType.Wall ∨
      g p = CellType.Start ∨ g p = CellType.End)
    (hS : ∀ p, inBounds N p → g p = CellType.Start → p = s)
    (hE : ∀ p, inBounds N p → g p = CellType.End → p = e) :
    ∃ rA rD, findPath Algorithm.AStar N pq g s e = .ok rA ∧
      findPath Algorithm.Dijkstra N pq g s e = .ok rD ∧
      taggedCells N rA ⊆ taggedCells N rD ∧
      (taggedCells N rA).card ≤ (taggedCells N rD).card := by
  obtain ⟨rA, hA1, hA2⟩ := aStar_endBound N pq g hs e
  obtain ⟨rD, hD1, hD2⟩ := dijkstra_result N g hs e
  have hfA : findPath Algorithm.AStar N pq g s e = .ok (Outcome.ofD rA) := by
    simp only [findPath, hA1]; rfl
  have hfD : findPath Algorithm.Dijkstra N pq g s e = .ok (Outcome.ofD rD) := by
    simp only [findPath, hD1]; rfl
  have hSA := findPath_ok_sound hfA
  have hSD := findPath_ok_sound hfD
  -- every cell marked by aStar is marked by dijkstra
  have hreach : ∀ p, (Outcome.ofD rA).reached p = true → (Outcome.ofD rD).reached p = true := by
    intro p hp
    change (rA.2.dist p).isSome = true at hp
    obtain ⟨d, hd⟩ := Option.isSome_iff_exists.mp hp
    obtain ⟨stF, hI, _, _, hX, hcase⟩ := hA2
    have hdF : stF.dist p = some d := by
      rcases hcase with ⟨_, hr0⟩ | ⟨_, _, _, hdist, _, _, _⟩
      · rw [hr0] at hd; exact hd
      · rw [hdist] at hd; exact hd
    obtain ⟨k, hk⟩ := exists_isDist ⟨d, hI.dist_walk p d hdF⟩
    have hkd := hk.2 d (hI.dist_walk p d hdF)
    apply hD2.reach_near (fun q a rest hp b hb => by
      have := pairPQ.pop_min q a rest hp b hb
      unfold pairGt at this
      simp only [decide_eq_false_iff_not] at this
      show a.1 ≤ b.1
      omega) hk
    intro j hj
    have := hX.1 p d hdF j hj
    omega
  have hsub : taggedCells N (Outcome.ofD rA) ⊆ taggedCells N (Outcome.ofD rD) := by
    intro p hp
    unfold taggedCells at hp ⊢
    rw [Finset.mem_filter] at hp ⊢
    obtain ⟨hpc, htag⟩ := hp
    have hpin : inBounds N p := mem_cells.mp hpc
    refine ⟨hpc, ?_⟩
    -- what aStar knows of a tagged cell
    have hA : (Outcome.ofD rA).reached p = true ∧ p ≠ s ∧
        (p ∈ pathCells (Outcome.ofD rA).trace ∨
          (g p ≠ CellType.Start ∧ g p ≠ CellType.End)) := by
      rw [hSA.grid_eq] at htag
      by_cases h1 : p ∈ pathCells (Outcome.ofD rA).trace
      · exact ⟨(hSA.path_mem p h1).1, (hSA.path_mem p h1).2, Or.inl h1⟩
      · rw [if_neg h1] at htag
        by_cases h2 : (Outcome.ofD rA).reached p = true ∧ p ≠ s
        · rw [if_pos h2] at htag
          refine ⟨h2.1, h2.2, Or.inr ?_⟩
          rcases hcell p hpin with h | h | h | h <;> rw [h] at htag <;>
            simp [visTag] at htag <;> rw [h] <;> exact ⟨by decide, by decide⟩
        · rw [if_neg h2] at htag
          rcases hcell p hpin with h | h | h | h <;> rw [h] at htag <;> simp at htag
    obtain ⟨hrA, hps, hor⟩ := hA
    have hrD := hreach p hrA
    rw [hSD.grid_eq]
    by_cases h1 : p ∈ pathCells (Outcome.ofD rD).trace
    · right; rw [if_pos h1]
    · rw [if_neg h1, if_pos ⟨hrD, hps⟩]
      left
      have hne : g p ≠ CellType.Start ∧ g p ≠ CellType.End := by
        rcases hor with hpath | hne
        · refine ⟨fun h => hps (hS p hpin h), fun h => ?_⟩
          have hpe := hE p hpin h
          -- the end cell is on the path of aStar, so both runs find it
          have hfoundA : (Outcome.ofD rA).found = true := by
            cases hf : (Outcome.ofD rA).found with
            | true => rfl
            | false =>
              rw [hSA.path_nil hf] at hpath
              cases hpath
          have hfoundD : (Outcome.ofD rD).found = true :=
            hSD.found_iff.mpr (hSA.found_iff.mp hfoundA)
          have hhead := hSD.path_head hfoundD (by rw [← hpe]; exact hps)
          apply h1
          rw [hpe]
          exact List.mem_of_mem_head? hhead
        · exact hne
      unfold visTag
      rw [if_pos hne]
  exact ⟨_, _, hfA, hfD, hsub, Finset.card_le_card hsub⟩

theorem gridGap5_tags : ∀ p, gridGap5 p = CellType.Empty ∨ gridGap5 p = CellType.Wall ∨
    gridGap5 p = CellType.Start ∨ gridGap5 p = CellType.End := by
  intro p
  unfold gridGap5
  split
  · right; right; left; rfl
  · split
    · right; right; right; rfl
    · split
      · right; left; rfl
      · left; rfl

/-- C14 on the 5 x 5 grid with the wall column: the cells tagged by `aStar`
over the list open set are among the cells tagged by `dijkstra`. -/
theorem C14_astar_tags_le_dijkstra_witness :
    inBounds 5 ((0, 0) : Pos) ∧
    (∀ p, inBounds 5 p → gridGap5 p = CellType.Empty ∨ gridGap5 p = CellType.Wall ∨
      gridGap5 p = CellType.Start ∨ gridGap5 p = CellType.End) ∧
    (∀ p, inBounds 5 p → gridGap5 p = CellType.Start → p = (0, 0)) ∧
    (∀ p, inBounds 5 p → gridGap5 p = CellType.End → p = (4, 4)) ∧
    ∃ rA rD, findPath Algorithm.AStar 5 nodePQ gridGap5 (0, 0) (4, 4) = .ok rA ∧
      findPath Algorithm.Dijkstra 5 nodePQ gridGap5 (0, 0) (4, 4) = .ok rD ∧
      taggedCells 5 rA ⊆ taggedCells 5 rD ∧
      (taggedCells 5 rA).card ≤ (taggedCells 5 rD).card :=
  ⟨by decide, fun p _ => gridGap5_tags p, fun p _ => gridGap5_start p,
    fun p _ => gridGap5_end p,
    C14_astar_tags_le_dijkstra 5 nodePQ gridGap5 (0, 0) (4, 4) (by decide)
      (fun p _ => gridGap5_tags p) (fun p _ => gridGap5_start p) (fun p _ => gridGap5_end p)⟩

/-! ## dijkstra stores final distances -/

section ExactDistances
variable {α : Type} {N : Nat} {C : Container α} {mk : Pos → Nat → α} {pos : α → Pos}
  {gOf : α → Nat}

/-- When the popped entry has the least distance of the queue, a cell without
a stored distance lies further from the start cell than the popped entry
says. -/
theorem fresh_dist_exact {g0 : Grid} {s e : Pos} {st : DState C.σ}
    (hI : DInv N C mk pos gOf g0 s st) (hC : DClosure N C pos gOf g0 s e none st)
    (hmin : ∀ q a rest, C.pop q = some (a, rest) → ∀ b ∈ C.items q, gOf a ≤ gOf b)
    {a : α} {rest : C.σ} (hp : C.pop st.frontier = some (a, rest))
    {n : Pos} (hn : st.dist n = none) : ∀ j, Walk N g0 s n j → gOf a + 1 ≤ j := by
  intro j hj
  by_contra hlt
  obtain ⟨k, hk⟩ := exists_isDist ⟨j, hj⟩
  have hkj := hk.2 j hj
  cases k with
  | zero =>
    rw [hk.1.zero_eq, hI.dist_start] at hn
    cases hn
  | succ k =>
    obtain ⟨u, hu, hadj⟩ := hk.pred
    obtain ⟨_, _, _, hin, hw⟩ := hk.1.succ_inv
    have hdu : st.dist u = some k := by
      rcases relax_frontier_bound hI hC (fun _ => 0) (fun _ _ _ => Nat.zero_le _) k u hu
        with h1 | ⟨b, hb, hbk⟩
      · exact h1
      · have := hmin _ _ _ hp b hb
        simp only [Nat.add_zero] at hbk
        omega
    rcases hC.closed u k hdu hu.2 with ⟨b, hb, _, hbg⟩ | hc | hx
    · have := hmin _ _ _ hp b hb
      omega
    · cases hc
    · obtain ⟨d', h1, _⟩ := hx n hadj hin hw
      rw [hn] at h1
      cases h1

/-- A turn of the neighbour loop of `dijkstra` keeps `Exact`: it stores a
distance only for a cell that had none, and that distance is final. -/
theorem exact_relax (hpos : ∀ p d, pos (mk p d) = p) (hg : ∀ p d, gOf (mk p d) = d)
    {g0 : Grid} {s : Pos} {st : DState C.σ} (hI : DInv N C mk pos gOf g0 s st)
    (hT : DTrace s st) {cur : Pos} {gcur : Nat} (hcur : CurOK N g0 s st cur gcur)
    (hX : Exact N g0 s C pos gOf st)
    (hfresh : ∀ n, st.dist n = none → ∀ j, Walk N g0 s n j → gcur + 1 ≤ j)
    {d : Int × Int} (hd : d ∈ dirs4) :
    Exact N g0 s C pos gOf (relax N C mk cur gcur st d) := by
  by_cases hc : relaxable N st gcur (cur.1 + d.1, cur.2 + d.2)
  · obtain ⟨hin, hw, hns, hdn⟩ := relaxable_facts hI hc
    have hadj : manhattan cur (cur.1 + d.1, cur.2 + d.2) = 1 := manhattan_step hd
    rw [relax_pos hc]
    generalize (cur.1 + d.1, cur.2 + d.2) = n at *
    obtain ⟨hX1, hX2, hX3⟩ := hX
    have hnone : st.dist n = none := by
      rcases hdn with h | ⟨d0, hd0, hlt⟩
      · exact h
      · have := hX1 n d0 hd0 (gcur + 1) (Walk.step hcur.walk hadj hin hw)
        omega
    refine ⟨?_, ?_, ?_⟩
    · intro p dp hp j hj
      change setAt st.dist n (some (gcur + 1)) p = some dp at hp
      by_cases hpn : p = n
      · rw [hpn, setAt_same] at hp
        have : gcur + 1 = dp := by simpa using hp
        rw [← this]
        rw [hpn] at hj
        exact hfresh n hnone j hj
      · rw [setAt_other _ _ _ _ hpn] at hp
        exact hX1 p dp hp j hj
    · intro b hb
      show setAt st.dist n (some (gcur + 1)) (pos b) = some (gOf b)
      rcases List.mem_cons.mp ((C.items_push _ _).mem_iff.mp hb) with h1 | h1
      · rw [h1, hpos, hg, setAt_same]
      · have hb2 := hX2 b h1
        have hne : pos b ≠ n := by
          intro h; rw [h, hnone] at hb2; cases hb2
        rw [setAt_other _ _ _ _ hne]
        exact hb2
    · have e1 : pushedCells [Event.push n, Event.visual n] = [n] := rfl
      show (pushedCells (st.trace ++ [Event.push n, Event.visual n])).Nodup
      rw [pushedCells_append, e1]
      apply List.Nodup.append hX3 (List.nodup_singleton n)
      intro x hx1 hx2
      rw [List.mem_singleton] at hx2
      rw [hx2] at hx1
      have := (hT.pushes n).mp hx1
      rw [hnone] at this
      cases this
  · rw [relax_neg hc]; exact hX

/-- One turn of the main loop of `dijkstra` keeps `Exact`. -/
theorem exact_turn (hpos : ∀ p d, pos (mk p d) = p) (hg : ∀ p d, gOf (mk p d) = d)
    (stale : Bool) {g0 : Grid} {s e : Pos}
    (hmin : ∀ q a rest, C.pop q = some (a, rest) → ∀ b ∈ C.items q, gOf a ≤ gOf b)
    {st : DState C.σ} (hI : DInv N C mk pos gOf g0 s st) (hT : DTrace s st)
    (hC : DClosure N C pos gOf g0 s e none st) (hX : Exact N g0 s C pos gOf st)
    {a : α} {rest : C.σ} (hp : C.pop st.frontier = some (a, rest)) :
    Exact N g0 s C pos gOf (nextD N C mk pos gOf stale st a rest) := by
  obtain ⟨hI1, hcur⟩ := popD_inv hI a rest hp
  have hT1 := popD_trace pos hT a rest
  have hperm := C.pop_some _ _ _ hp
  have hX1 : Exact N g0 s C pos gOf (popD pos st a rest) := by
    refine ⟨hX.1, fun b hb => hX.2.1 b (hperm.mem_iff.mpr (List.mem_cons_of_mem _ hb)), ?_⟩
    show (pushedCells (st.trace ++ [Event.pop (pos a)])).Nodup
    rw [pushedCells_append, pushedCells_single_pop, List.append_nil]
    exact hX.2.2
  have hfresh := fun n (hn : st.dist n = none) => fresh_dist_exact hI hC hmin hp hn
  unfold nextD
  split
  · exact hX1
  · have key := foldl_relax_inv (N := N) (C := C) mk (pos a) (gOf a)
      (fun x => (DInv N C mk pos gOf g0 s x ∧ CurOK N g0 s x (pos a) (gOf a)) ∧ DTrace s x ∧
        Exact N g0 s C pos gOf x ∧ ∀ n, x.dist n = none → st.dist n = none)
      (fun x d hd hx => by
        obtain ⟨⟨h1, h2⟩, h3, h4, h5⟩ := hx
        refine ⟨relax_inv hpos hg h1 h2 hd, relax_trace h3 _ _ _,
          exact_relax hpos hg h1 h3 h2 h4 (fun n hn => hfresh n (h5 n hn)) hd, ?_⟩
        intro n hn
        apply h5
        cases hxn : x.dist n with
        | none => rfl
        | some dn =>
          obtain ⟨d', h6, _⟩ := relax_dist_down (N := N) (C := C) hpos hg (pos a) (gOf a) x d hxn
          rw [hn] at h6
          cases h6)
      dirs4 (fun _ hd => hd) (popD pos st a rest) ⟨⟨hI1, hcur⟩, hT1, hX1, fun n hn => hn⟩
    exact key.2.2.1

theorem exact_init (hpos : ∀ p d, pos (mk p d) = p) (hg : ∀ p d, gOf (mk p d) = d)
    (g : Grid) (s : Pos) : Exact N g s C pos gOf (relaxInit C mk g s) := by
  have hd : ∀ p d, (relaxInit C mk g s).dist p = some d → p = s ∧ d = 0 := by
    intro p d hp
    change setAt (fun _ => none) s (some 0) p = some d at hp
    by_cases hps : p = s
    · rw [hps, setAt_same] at hp
      exact ⟨hps, by simpa using hp.symm⟩
    · rw [setAt_other _ _ _ _ hps] at hp
      cases hp
  refine ⟨fun p d hp j _ => by rw [(hd p d hp).2]; exact Nat.zero_le _, ?_,
    List.nodup_singleton s⟩
  intro a ha
  rw [items_push_empty C (mk s 0) a ha, hpos, hg]
  show setAt (fun _ => none) s (some 0) s = some 0
  exact setAt_same _ _ _

/-- Every state in which the loop makes its test satisfies the invariants of
the loop. -/
theorem LoopHead.invariants (hpos : ∀ p d, pos (mk p d) = p) (hg : ∀ p d, gOf (mk p d) = d)
    (stale : Bool) {g : Grid} {s e : Pos} (hs : inBounds N s)
    (hmin : ∀ q a rest, C.pop q = some (a, rest) → ∀ b ∈ C.items q, gOf a ≤ gOf b)
    {st : DState C.σ} (h : LoopHead N C mk pos gOf stale g s e st) :
    DInv N C mk pos gOf g s st ∧ DTrace s st ∧ DClosure N C pos gOf g s e none st ∧
      Exact N g s C pos gOf st := by
  induction h with
  | init =>
    obtain ⟨i1, i2, i3, _⟩ := relaxInit_inv (N := N) (C := C) hpos hg g hs e
    exact ⟨i1, i2, i3, exact_init hpos hg g s⟩
  | turn _ hp he ih =>
    obtain ⟨h1, h2, h3, h4⟩ := ih
    obtain ⟨t1, t2, t3, _⟩ := turn_relax hpos hg stale h1 h2 h3 hp he
    exact ⟨t1, t2, t3, exact_turn hpos hg stale hmin h1 h2 h3 h4 hp⟩

/-- With `Exact`, the entry that the loop pops carries the stored distance of
its cell: the stale test fails. -/
theorem pop_not_stale {g0 : Grid} {s : Pos} {st : DState C.σ}
    (hX : Exact N g0 s C pos gOf st) {a : α} {rest : C.σ}
    (hp : C.pop st.frontier = some (a, rest)) :
    gtInf (gOf a) (st.dist (pos a)) = false := by
  have ha : a ∈ C.items st.frontier :=
    (C.pop_some _ _ _ hp).mem_iff.mpr (List.mem_cons_self _ _)
  rw [hX.2.1 a ha]
  simp [gtInf]

/-- With `Exact`, a turn of the loop is the same with and without the stale
test. -/
theorem nextD_stale_irrelevant {g0 : Grid} {s : Pos} {st : DState C.σ}
    (hX : Exact N g0 s C pos gOf st) {a : α} {rest : C.σ}
    (hp : C.pop st.frontier = some (a, rest)) :
    nextD N C mk pos gOf true st a rest = nextD N C mk pos gOf false st a rest := by
  unfold nextD
  rw [pop_not_stale hX hp]
  rfl

/-- The loop of `dijkstra` runs the same with and without the stale test. -/
theorem relaxLoop_stale_irrelevant (hpos : ∀ p d, pos (mk p d) = p)
    (hg : ∀ p d, gOf (mk p d) = d) {g : Grid} {s e : Pos} (hs : inBounds N s)
    (hmin : ∀ q a rest, C.pop q = some (a, rest) → ∀ b ∈ C.items q, gOf a ≤ gOf b)
    (deltas : List (Int × Int)) (hdel : deltas = dirs4) :
    ∀ fuel st, LoopHead N C mk pos gOf true g s e st →
      relaxLoop N C mk pos gOf true deltas s e fuel st =
        relaxLoop N C mk pos gOf false deltas s e fuel st := by
  intro fuel
  induction fuel with
  | zero => intro st _; rfl
  | succ fuel ih =>
    intro st hL
    cases hp : C.pop st.frontier with
    | none => rw [relaxLoop_none _ _ _ _ _ _ hp, relaxLoop_none _ _ _ _ _ _ hp]
    | some ar =>
      obtain ⟨a, rest⟩ := ar
      by_cases he : pos a = e
      · rw [relaxLoop_end _ _ _ _ _ _ _ _ hp he, relaxLoop_end _ _ _ _ _ _ _ _ hp he]
      · rw [relaxLoop_step _ _ hdel _ _ _ _ _ _ hp he, relaxLoop_step _ _ hdel _ _ _ _ _ _ hp he]
        have hX := (hL.invariants hpos hg true hs hmin).2.2.2
        rw [← nextD_stale_irrelevant hX hp]
        exact ih _ (LoopHead.turn hL hp he)

end ExactDistances

/-- The queue of `dijkstra` hands out an entry of least distance. -/
theorem pairPQ_pop_least (q : pairPQ.σ) (a : Nat × Pos) (rest : pairPQ.σ)
    (hp : pairPQ.pop q = some (a, rest)) (b : Nat × Pos) (hb : b ∈ pairPQ.items q) :
    a.1 ≤ b.1 := by
  have := pairPQ.pop_min q a rest hp b hb
  unfold pairGt at this
  simp only [decide_eq_false_iff_not] at this
  omega

theorem dijkstra_exact (N : Nat) (g : Grid) {s : Pos} (hs : inBounds N s) (e : Pos) :
    ∃ r, dijkstra N g s e = .ok r ∧
      DResult N pairPQ.toContainer (fun p d => (d, p)) (fun a => a.2) (fun a => a.1) g s e
        (Exact N g s pairPQ.toContainer (fun a => a.2) (fun a => a.1)) r := by
  unfold dijkstra
  exact relaxSearch_result (fun _ _ => rfl) (fun _ _ => rfl) true orthoDeltas orthoDeltas_eq
    g hs e (Exact N g s pairPQ.toContainer (fun a => a.2) (fun a => a.1))
    (exact_init (fun _ _ => rfl) (fun _ _ => rfl) g s)
    (fun _ _ _ hI hT hC hX hp _ =>
      exact_turn (fun _ _ => rfl) (fun _ _ => rfl) true pairPQ_pop_least hI hT hC hX hp)

/-- C21: in a run of `dijkstra` from a start cell inside the grid every cell
is pushed at most once and handed to the visual update at most once, every
stored distance is the distance of its cell from the start cell (the length of
a shortest walk), and the run is the run of the same loop without the line
`if (currentDist > dist[y][x]) continue;`.  In every state in which the loop
makes its test the stored distances are final, no cell has been pushed twice,
every entry of the queue carries the stored distance of its cell, and for the
entry that the loop pops next the test `currentDist > dist[y][x]` is false. -/
theorem C21_dijkstra_never_stale (N : Nat) (g : Grid) (s e : Pos) (hs : inBounds N s) :
    (∃ r, dijkstra N g s e = .ok r ∧
      (pushedCells r.2.trace).Nodup ∧ (visualCells r.2.trace).Nodup ∧
      (∀ p d, r.2.dist p = some d → IsDist N g s p d) ∧
      relaxSearch N pairPQ.toContainer (fun p d => (d, p)) (fun a => a.2) (fun a => a.1)
        false orthoDeltas g s e = .ok r) ∧
    ∀ st, LoopHead N pairPQ.toContainer (fun p d => (d, p)) (fun a => a.2) (fun a => a.1)
        true g s e st →
      (∀ p d, st.dist p = some d → IsDist N g s p d) ∧
      (pushedCells st.trace).Nodup ∧
      (∀ a ∈ pairPQ.items st.frontier, st.dist a.2 = some a.1) ∧
      ∀ a rest, pairPQ.pop st.frontier = some (a, rest) → gtInf a.1 (st.dist a.2) = false := by
  constructor
  · obtain ⟨r, hr, hres⟩ := dijkstra_exact N g hs e
    obtain ⟨stF, hI, hT, _, hX, hcase⟩ := hres
    have hdist : r.2.dist = stF.dist := by
      rcases hcase with ⟨_, h0⟩ | ⟨_, _, _, h2, _⟩
      · rw [h0]
      · exact h2
    have hpush : pushedCells r.2.trace = pushedCells stF.trace := by
      rcases hcase with ⟨_, h0⟩ | ⟨_, _, _, _, _, h4, _⟩
      · rw [h0]
      · rw [h4]
        simp only [pushedCells_append, pushedCells_map_path, pushedCells_single_pop,
          List.append_nil]
    have hvis : visualCells r.2.trace = visualCells stF.trace := by
      rcases hcase with ⟨_, h0⟩ | ⟨_, _, _, _, _, h4, _⟩
      · rw [h0]
      · rw [h4]
        simp only [visualCells_append, visualCells_map_path, visualCells_single_pop,
          List.append_nil]
    refine ⟨r, hr, by rw [hpush]; exact hX.2.2, ?_, ?_, ?_⟩
    · rw [hvis]
      have := hX.2.2
      rw [hT.visuals, List.nodup_cons] at this
      exact this.2
    · intro p d hp
      rw [hdist] at hp
      exact ⟨hI.dist_walk p d hp, hX.1 p d hp⟩
    · rw [← hr]
      unfold dijkstra relaxSearch
      rw [if_pos hs, if_pos hs]
      exact (relaxLoop_stale_irrelevant (fun _ _ => rfl) (fun _ _ => rfl) hs pairPQ_pop_least
        orthoDeltas orthoDeltas_eq _ _ LoopHead.init).symm
  · intro st hL
    obtain ⟨hI, _, _, hX⟩ := hL.invariants (fun _ _ => rfl) (fun _ _ => rfl) true hs pairPQ_pop_least
    refine ⟨fun p d hp => ⟨hI.dist_walk p d hp, hX.1 p d hp⟩, hX.2.2, hX.2.1, ?_⟩
    intro a rest hp
    exact pop_not_stale hX hp

set_option maxRecDepth 100000 in
/-- C21 on the 5 x 5 grid with the wall column: the run of `dijkstra` returns,
with every cell pushed at most once and every stored distance final. -/
theorem C21_dijkstra_never_stale_witness :
    inBounds 5 ((0, 0) : Pos) ∧
    ∃ r, dijkstra 5 gridGap5 (0, 0) (4, 4) = .ok r ∧
      (pushedCells r.2.trace).Nodup ∧ (visualCells r.2.trace).Nodup ∧
      (∀ p d, r.2.dist p = some d → IsDist 5 gridGap5 (0, 0) p d) ∧
      relaxSearch 5 pairPQ.toContainer (fun p d => (d, p)) (fun a => a.2) (fun a => a.1)
        false orthoDeltas gridGap5 (0, 0) (4, 4) = .ok r :=
  ⟨by decide, (C21_dijkstra_never_stale 5 gridGap5 (0, 0) (4, 4) (by decide)).1⟩

/-! ## BFS discovers the cells in the order of their distance -/

section BFSDiscovery
variable {N : Nat}

/-- A turn of the neighbour loop of `BFS` around a cell of depth `m` keeps the
pushes in the order of their depth: the cell it pushes has depth `m + 1`, and
no marked cell lies deeper. -/
theorem bfs_discover_sorted {g0 : Grid} {s : Pos} {depth : Pos → Nat} {st : VState fifo.σ}
    {cur : Pos} {m : Nat} (hI : VInv N fifo (fun p => p) g0 s depth st) (hT : VTrace s st)
    (hB : BMid m depth st) (hm : depth cur = m) (hS : PushSorted depth st) (d : Int × Int) :
    PushSorted (stepDepth N cur st depth d) (discover N fifo (fun p => p) cur st d) := by
  by_cases hc : fresh N st (cur.1 + d.1, cur.2 + d.2)
  · obtain ⟨hin, hv, hw, hns⟩ := fresh_facts hI hc
    rw [discover_pos hc]
    unfold stepDepth
    rw [if_pos hc]
    generalize (cur.1 + d.1, cur.2 + d.2) = n at *
    have hold : ∀ q, st.visited q = true → setAt depth n (depth cur + 1) q = depth q := by
      intro q hq
      apply setAt_other
      intro e1; rw [e1, hv] at hq; cases hq
    have e1 : pushedCells [Event.push n, Event.visual n] = [n] := rfl
    unfold PushSorted at hS ⊢
    show List.Pairwise _ (pushedCells (st.trace ++ [Event.push n, Event.visual n]))
    rw [pushedCells_append, e1, List.pairwise_append]
    refine ⟨?_, List.pairwise_singleton _ _, ?_⟩
    · apply hS.imp_of_mem
      intro a b ha hb hab
      rw [hold a ((hT.pushes a).mp ha), hold b ((hT.pushes b).mp hb)]
      exact hab
    · intro a ha b hb
      rw [List.mem_singleton] at hb
      have hva := (hT.pushes a).mp ha
      rw [hb, hold a hva, setAt_same]
      have := hB.near a hva
      omega
  · rw [discover_neg hc]
    unfold stepDepth
    rw [if_neg hc]
    exact hS

/-- One turn of the main loop of `BFS` keeps the pushes in the order of their
depth. -/
theorem bfs_sorted_turn {g0 : Grid} {s e : Pos} {depth : Pos → Nat} {st : VState fifo.σ}
    (hI : VInv N fifo (fun p => p) g0 s depth st) (hT : VTrace s st)
    (hC : VClosure N fifo (fun p => p) g0 e none st) (hB : BInv depth st)
    (hS : PushSorted depth st)
    {a : Pos} {rest : fifo.σ} (hp : fifo.pop st.frontier = some (a, rest)) (he : a ≠ e) :
    PushSorted (foldDepth N fifo (fun p => p) a dirs4 (popV (fun p => p) st a rest) depth)
      (dirs4.foldl (discover N fifo (fun p => p) a) (popV (fun p => p) st a rest)) := by
  have hpos : ∀ p : Pos, (fun p : Pos => p) ((fun p : Pos => p) p) = p := fun _ => rfl
  obtain ⟨hI1, hcur⟩ := popV_inv hI a rest hp
  have hC1 := popV_closure hC a rest hp he
  have hT1 := popV_trace (fun p : Pos => p) hT a rest
  have hF := fifo_pop_eq hp
  have hsorted := hB.sorted
  rw [hF, List.pairwise_cons] at hsorted
  have hmid : BMid (depth a) depth (popV (fun p => p) st a rest) := by
    refine ⟨hsorted.2, ?_, ?_, hB.lip⟩
    · intro q hq
      refine ⟨hsorted.1 q hq, ?_⟩
      exact hB.span a (by rw [hF]; exact List.mem_cons_self _ _) q
        (by rw [hF]; exact List.mem_cons_of_mem _ hq)
    · intro p hpv
      exact hB.near p hpv a (by rw [hF]; exact List.mem_cons_self _ _)
  have hS1 : PushSorted depth (popV (fun p => p) st a rest) := by
    unfold PushSorted at hS ⊢
    show List.Pairwise _ (pushedCells (st.trace ++ [Event.pop a]))
    rw [pushedCells_append, pushedCells_single_pop, List.append_nil]
    exact hS
  have key := foldl_discover_inv (N := N) (C := fifo) (fun p => p) a
    (fun dp x => (VInv N fifo (fun p => p) g0 s dp x ∧ x.visited a = true ∧
      VClosure N fifo (fun p => p) g0 e (some a) x ∧ BMid (depth a) dp x ∧ dp a = depth a) ∧
      VTrace s x ∧ PushSorted dp x)
    (fun dp x d hd hx => by
      obtain ⟨⟨h1, h2, h3, h4, h5⟩, h6, h7⟩ := hx
      obtain ⟨b1, b2⟩ := bfs_discover_mid h1 h3 h4 h5 h2 d
      exact ⟨⟨discover_inv hpos h1 h2 hd, discover_visited_mono h2,
        discover_closure hpos h3 _ _, b1, b2⟩, discover_trace h6 _ _,
        bfs_discover_sorted h1 h6 h4 h5 h7 d⟩)
    dirs4 (fun _ hd => hd) depth (popV (fun p => p) st a rest)
    ⟨⟨hI1, hcur, hC1, hmid, rfl⟩, hT1, hS1⟩
  exact key.2.2

/-- In a state of the loop of `BFS` the depth of a marked cell is its distance
from the start cell. -/
theorem bfs_depth_exact {g0 : Grid} {s e : Pos} {depth : Pos → Nat} {st : VState fifo.σ}
    (hI : VInv N fifo (fun p => p) g0 s depth st)
    (hC : VClosure N fifo (fun p => p) g0 e none st) (hB : BInv depth st)
    {p : Pos} (hv : st.visited p = true) : IsDist N g0 s p (depth p) := by
  refine ⟨hI.walk _ p hv rfl, fun j hj => ?_⟩
  rcases bfs_walk_bound hI hC hB hj with ⟨_, hd⟩ | ⟨q, hq, hqd⟩
  · exact hd
  · have := hB.near p hv q hq
    omega

theorem BFS_sorted (N : Nat) (g : Grid) {s : Pos} (hs : inBounds N s) (e : Pos) :
    ∃ r, BFS N g s e = .ok r ∧
      VResult N fifo (fun p => p) g s e (fun dp st => BInv dp st ∧ PushSorted dp st) r := by
  unfold BFS
  apply visitedSearch_result (fun _ => rfl) g hs e (fun dp st => BInv dp st ∧ PushSorted dp st)
  · have hitems : fifo.items (visitedInit fifo (fun p => p) g s).frontier = [s] := rfl
    refine ⟨⟨?_, ?_, ?_, ?_⟩, ?_⟩
    · rw [hitems]; exact List.pairwise_singleton _ _
    · intro _ _ _ _; exact Nat.le_succ _
    · intro _ _ _ _; exact Nat.le_succ _
    · intro _ _ _ _ _; exact Nat.le_succ _
    · exact List.pairwise_singleton _ _
  · intro depth st a rest h1 h2 h3 h4 hp he
    exact ⟨bfs_turn h1 h3 h4.1 hp he, bfs_sorted_turn h1 h2 h3 h4.1 h4.2 hp he⟩

end BFSDiscovery

/-- C22: in a run of `BFS` from a start cell inside the grid, the cells are
pushed on the queue, and handed to the visual update, in the order of their
distance from the start cell (the length of a shortest walk of orthogonal
steps over cells inside the grid that are not `Wall`): a cell pushed before
another one is not further from the start cell.  Every marked cell has such a
distance, and the parent of a marked cell other than the start cell lies at
the distance of the cell minus one. -/
theorem C22_bfs_discovery_order (N : Nat) (g : Grid) (s e : Pos) (hs : inBounds N s) :
    ∃ r, BFS N g s e = .ok r ∧
      List.Pairwise (fun a b => ∀ ka kb, IsDist N g s a ka → IsDist N g s b kb → ka ≤ kb)
        (pushedCells r.2.trace) ∧
      List.Pairwise (fun a b => ∀ ka kb, IsDist N g s a ka → IsDist N g s b kb → ka ≤ kb)
        (visualCells r.2.trace) ∧
      (∀ p, p ∈ pushedCells r.2.trace ↔ r.2.visited p = true) ∧
      (∀ p, r.2.visited p = true → ∃ k, IsDist N g s p k) ∧
      (∀ p, r.2.visited p = true → p ≠ s →
        ∃ k, IsDist N g s (r.2.parent p) k ∧ IsDist N g s p (k + 1)) := by
  obtain ⟨r, hr, hres⟩ := BFS_sorted N g hs e
  have hSound := hres.soundV
  obtain ⟨depth, stF, hI, hT, hC, ⟨hB, hS⟩, hcase⟩ := hres
  have hvis : r.2.visited = stF.visited := by
    rcases hcase with ⟨_, h0⟩ | ⟨_, _, _, h2, _⟩
    · rw [h0]
    · exact h2
  have hpar : r.2.parent = stF.parent := by
    rcases hcase with ⟨_, h0⟩ | ⟨_, _, _, _, h3, _⟩
    · rw [h0]
    · exact h3
  have hpush : pushedCells r.2.trace = pushedCells stF.trace := by
    rcases hcase with ⟨_, h0⟩ | ⟨_, _, _, _, _, h4, _⟩
    · rw [h0]
    · rw [h4]
      simp only [pushedCells_append, pushedCells_map_path, pushedCells_single_pop,
        List.append_nil]
  have hexact : ∀ p, stF.visited p = true → IsDist N g s p (depth p) :=
    fun p hv => bfs_depth_exact hI hC hB hv
  have hsorted : List.Pairwise
      (fun a b => ∀ ka kb, IsDist N g s a ka → IsDist N g s b kb → ka ≤ kb)
      (pushedCells r.2.trace) := by
    rw [hpush]
    apply hS.imp_of_mem
    intro a b ha hb hab ka kb hka hkb
    have h1 := (hexact a ((hT.pushes a).mp ha)).unique hka
    have h2 := (hexact b ((hT.pushes b).mp hb)).unique hkb
    omega
  refine ⟨r, hr, hsorted, ?_, ?_, ?_, ?_⟩
  · have hv : pushedCells r.2.trace = s :: visualCells r.2.trace := hSound.visuals
    rw [hv, List.pairwise_cons] at hsorted
    exact hsorted.2
  · intro p
    rw [hpush, hvis]
    exact hT.pushes p
  · intro p hp
    rw [hvis] at hp
    exact ⟨_, hexact p hp⟩
  · intro p hp hps
    rw [hvis] at hp
    rw [hpar]
    obtain ⟨h1, _, _, h4⟩ := hI.vis_par p hp hps
    refine ⟨depth (stF.parent p), hexact _ h1, ?_⟩
    rw [← h4]
    exact hexact p hp

set_option maxRecDepth 100000 in
/-- C22 on the 5 x 5 grid with the wall column: the run of `BFS` returns, with
its pushes in the order of the distance from the start cell. -/
theorem C22_bfs_discovery_order_witness :
    inBounds 5 ((0, 0) : Pos) ∧
    ∃ r, BFS 5 gridGap5 (0, 0) (4, 4) = .ok r ∧
      List.Pairwise
        (fun a b => ∀ ka kb, IsDist 5 gridGap5 (0, 0) a ka → IsDist 5 gridGap5 (0, 0) b kb →
          ka ≤ kb) (pushedCells r.2.trace) ∧
      List.Pairwise
        (fun a b => ∀ ka kb, IsDist 5 gridGap5 (0, 0) a ka → IsDist 5 gridGap5 (0, 0) b kb →
          ka ≤ kb) (visualCells r.2.trace) ∧
      (∀ p, p ∈ pushedCells r.2.trace ↔ r.2.visited p = true) ∧
      (∀ p, r.2.visited p = true → ∃ k, IsDist 5 gridGap5 (0, 0) p k) ∧
      (∀ p, r.2.visited p = true → p ≠ (0, 0) →
        ∃ k, IsDist 5 gridGap5 (0, 0) (r.2.parent p) k ∧
          IsDist 5 gridGap5 (0, 0) p (k + 1)) :=
  ⟨by decide, C22_bfs_discovery_order 5 gridGap5 (0, 0) (4, 4) (by decide)⟩

end PathFinding
